import Mathlib

/-!
# Verification of the obamify pixel-assignment engine

Shallow embedding of the assignment engine of the repository
(`src/app/calculate/mod.rs`, `src/app/calculate/drawing_process.rs`,
`src/calculate/mod.rs`) together with proofs of the spec's claims.

Machine integers (`i64`) are modelled as `Int` with explicit two's-complement
wrapping (`wrap64`) applied at every arithmetic step where Rust's release-mode
semantics wraps.  `u16`/`u8` to `i64` casts are exact and are modelled by the
inclusion of bounded `Int`s.  `f32` values are modelled exactly as rationals
together with an explicit round-to-nearest-even operation at 24-bit precision.
-/

namespace Obamify

/-! ## Two's-complement 64-bit arithmetic -/

/-- Wrap an unbounded integer into the `i64` range `[-2^63, 2^63)`,
two's-complement style (Rust release-mode overflow semantics). -/
def wrap64 (z : Int) : Int := (z + 2 ^ 63) % 2 ^ 64 - 2 ^ 63

/-- `i64` addition. -/
def i64add (a b : Int) : Int := wrap64 (a + b)

/-- `i64` subtraction. -/
def i64sub (a b : Int) : Int := wrap64 (a - b)

/-- `i64` multiplication. -/
def i64mul (a b : Int) : Int := wrap64 (a * b)

/-- `i64` `.pow(2)`. -/
def i64sq (a : Int) : Int := i64mul a a

/-- `i64` negation. -/
def i64neg (a : Int) : Int := wrap64 (-a)

theorem mul_self_le_of_bounds {d M : Int} (h1 : -M ≤ d) (h2 : d ≤ M) : d * d ≤ M * M := by
  have hM : 0 ≤ M := by linarith
  have habs : |d| ≤ M := abs_le.mpr ⟨h1, h2⟩
  calc d * d = |d| * |d| := (abs_mul_abs_self d).symm
    _ ≤ M * M := mul_self_le_mul_self (abs_nonneg d) habs

theorem wrap64_eq_of_bounds (z : Int) (h1 : -(2 ^ 63) ≤ z) (h2 : z < 2 ^ 63) :
    wrap64 z = z := by
  unfold wrap64
  have h0 : (0 : Int) ≤ z + 2 ^ 63 := by linarith
  have h3 : z + 2 ^ 63 < 2 ^ 64 := by linarith [(by norm_num : (2:Int) ^ 64 = 2 ^ 63 + 2 ^ 63)]
  rw [Int.emod_eq_of_lt h0 h3]
  ring

/-! ## The cost model (`heuristic` in `src/app/calculate/mod.rs:81` and
`src/calculate/mod.rs:36`)

```rust
fn heuristic(apos: (u16,u16), bpos: (u16,u16), a: (u8,u8,u8), b: (u8,u8,u8),
             color_weight: i64, spatial_weight: i64) -> i64 {
    let spatial = (apos.0 as i64 - bpos.0 as i64).pow(2)
                + (apos.1 as i64 - bpos.1 as i64).pow(2);
    let color = (a.0 as i64 - b.0 as i64).pow(2)
              + (a.1 as i64 - b.1 as i64).pow(2)
              + (a.2 as i64 - b.2 as i64).pow(2);
    color * color_weight + (spatial * spatial_weight).pow(2)
}
```
-/

/-- RGB triple (each component an exact image of a `u8`). -/
structure Rgb where
  r : Int
  g : Int
  b : Int
deriving DecidableEq, Repr

/-- A grid position (exact image of a `(u16, u16)` pair). -/
structure Pos where
  x : Int
  y : Int
deriving DecidableEq, Repr

/-- The cost model, faithful to the Rust `heuristic` including `i64` wrapping
at every arithmetic step. -/
def heuristic (apos bpos : Pos) (a b : Rgb) (colorWeight spatialWeight : Int) : Int :=
  let spatial := i64add (i64sq (i64sub apos.x bpos.x)) (i64sq (i64sub apos.y bpos.y))
  let color := i64add (i64add (i64sq (i64sub a.r b.r)) (i64sq (i64sub a.g b.g)))
    (i64sq (i64sub a.b b.b))
  i64add (i64mul color colorWeight) (i64sq (i64mul spatial spatialWeight))

/-- The mathematical cost formula from the specification:
`colorSqDist * weight + (spatialSqDist * proximity_importance)^2`. -/
def heuristicSpec (apos bpos : Pos) (a b : Rgb) (colorWeight spatialWeight : Int) : Int :=
  ((a.r - b.r) ^ 2 + (a.g - b.g) ^ 2 + (a.b - b.b) ^ 2) * colorWeight +
    (((apos.x - bpos.x) ^ 2 + (apos.y - bpos.y) ^ 2) * spatialWeight) ^ 2

/-- `u8` range predicate. -/
def IsU8 (z : Int) : Prop := 0 ≤ z ∧ z < 256

/-- In-range RGB triple. -/
def Rgb.InRange (c : Rgb) : Prop := IsU8 c.r ∧ IsU8 c.g ∧ IsU8 c.b

/-- Position on a grid of side at most 256 (the realistic grid sizes of the
program; `u16` coordinates of cells of an `S×S` grid with `S ≤ 256`). -/
def Pos.InGrid (p : Pos) : Prop := 0 ≤ p.x ∧ p.x < 256 ∧ 0 ≤ p.y ∧ p.y < 256

theorem heuristic_eq_spec_of_inRange (apos bpos : Pos) (a b : Rgb)
    (cw sw : Int) (hap : apos.InGrid) (hbp : bpos.InGrid)
    (ha : a.InRange) (hb : b.InRange)
    (hcw : 0 ≤ cw ∧ cw ≤ 255) (hsw : 0 ≤ sw ∧ sw ≤ 10000) :
    heuristic apos bpos a b cw sw = heuristicSpec apos bpos a b cw sw := by
  obtain ⟨hax, hax', hay, hay'⟩ := hap
  obtain ⟨hbx, hbx', hby, hby'⟩ := hbp
  obtain ⟨⟨har, har'⟩, ⟨hag, hag'⟩, ⟨hab, hab'⟩⟩ := ha
  obtain ⟨⟨hbr, hbr'⟩, ⟨hbg, hbg'⟩, ⟨hbb, hbb'⟩⟩ := hb
  obtain ⟨hcw0, hcw1⟩ := hcw
  obtain ⟨hsw0, hsw1⟩ := hsw
  have sqx : (apos.x - bpos.x) * (apos.x - bpos.x) ≤ 255 * 255 :=
    mul_self_le_of_bounds (by linarith) (by linarith)
  have sqx0 : 0 ≤ (apos.x - bpos.x) * (apos.x - bpos.x) := mul_self_nonneg _
  have sqy : (apos.y - bpos.y) * (apos.y - bpos.y) ≤ 255 * 255 :=
    mul_self_le_of_bounds (by linarith) (by linarith)
  have sqy0 : 0 ≤ (apos.y - bpos.y) * (apos.y - bpos.y) := mul_self_nonneg _
  have sqr : (a.r - b.r) * (a.r - b.r) ≤ 255 * 255 :=
    mul_self_le_of_bounds (by linarith) (by linarith)
  have sqr0 : 0 ≤ (a.r - b.r) * (a.r - b.r) := mul_self_nonneg _
  have sqg : (a.g - b.g) * (a.g - b.g) ≤ 255 * 255 :=
    mul_self_le_of_bounds (by linarith) (by linarith)
  have sqg0 : 0 ≤ (a.g - b.g) * (a.g - b.g) := mul_self_nonneg _
  have sqb : (a.b - b.b) * (a.b - b.b) ≤ 255 * 255 :=
    mul_self_le_of_bounds (by linarith) (by linarith)
  have sqb0 : 0 ≤ (a.b - b.b) * (a.b - b.b) := mul_self_nonneg _
  unfold heuristic heuristicSpec
  simp only [i64add, i64sub, i64mul, i64sq]
  rw [wrap64_eq_of_bounds (apos.x - bpos.x) (by linarith) (by linarith)]
  rw [wrap64_eq_of_bounds (apos.y - bpos.y) (by linarith) (by linarith)]
  rw [wrap64_eq_of_bounds (a.r - b.r) (by linarith) (by linarith)]
  rw [wrap64_eq_of_bounds (a.g - b.g) (by linarith) (by linarith)]
  rw [wrap64_eq_of_bounds (a.b - b.b) (by linarith) (by linarith)]
  rw [wrap64_eq_of_bounds ((apos.x - bpos.x) * (apos.x - bpos.x)) (by linarith) (by linarith)]
  rw [wrap64_eq_of_bounds ((apos.y - bpos.y) * (apos.y - bpos.y)) (by linarith) (by linarith)]
  rw [wrap64_eq_of_bounds ((a.r - b.r) * (a.r - b.r)) (by linarith) (by linarith)]
  rw [wrap64_eq_of_bounds ((a.g - b.g) * (a.g - b.g)) (by linarith) (by linarith)]
  rw [wrap64_eq_of_bounds ((a.b - b.b) * (a.b - b.b)) (by linarith) (by linarith)]
  rw [wrap64_eq_of_bounds ((apos.x - bpos.x) * (apos.x - bpos.x) +
    (apos.y - bpos.y) * (apos.y - bpos.y)) (by linarith) (by linarith)]
  rw [wrap64_eq_of_bounds ((a.r - b.r) * (a.r - b.r) + (a.g - b.g) * (a.g - b.g))
    (by linarith) (by linarith)]
  rw [wrap64_eq_of_bounds ((a.r - b.r) * (a.r - b.r) + (a.g - b.g) * (a.g - b.g) +
    (a.b - b.b) * (a.b - b.b)) (by linarith) (by linarith)]
  have hsp0 : 0 ≤ (apos.x - bpos.x) * (apos.x - bpos.x) +
      (apos.y - bpos.y) * (apos.y - bpos.y) := by linarith
  have hsp1 : (apos.x - bpos.x) * (apos.x - bpos.x) +
      (apos.y - bpos.y) * (apos.y - bpos.y) ≤ 130050 := by linarith
  have hco0 : 0 ≤ (a.r - b.r) * (a.r - b.r) + (a.g - b.g) * (a.g - b.g) +
      (a.b - b.b) * (a.b - b.b) := by linarith
  have hco1 : (a.r - b.r) * (a.r - b.r) + (a.g - b.g) * (a.g - b.g) +
      (a.b - b.b) * (a.b - b.b) ≤ 195075 := by linarith
  set sp := (apos.x - bpos.x) * (apos.x - bpos.x) +
    (apos.y - bpos.y) * (apos.y - bpos.y) with hsp
  set co := (a.r - b.r) * (a.r - b.r) + (a.g - b.g) * (a.g - b.g) +
    (a.b - b.b) * (a.b - b.b) with hco
  have hm0 : 0 ≤ sp * sw := mul_nonneg hsp0 hsw0
  have hm1 : sp * sw ≤ 130050 * 10000 := mul_le_mul hsp1 hsw1 hsw0 (by norm_num)
  rw [wrap64_eq_of_bounds (sp * sw) (by linarith) (by linarith)]
  have hc0 : 0 ≤ co * cw := mul_nonneg hco0 hcw0
  have hc1 : co * cw ≤ 195075 * 255 := mul_le_mul hco1 hcw1 hcw0 (by norm_num)
  rw [wrap64_eq_of_bounds (co * cw) (by linarith) (by linarith)]
  have hq1 : sp * sw * (sp * sw) ≤ 1300500000 * 1300500000 :=
    mul_le_mul (by linarith) (by linarith) hm0 (by norm_num)
  have hq0 : 0 ≤ sp * sw * (sp * sw) := mul_nonneg hm0 hm0
  rw [wrap64_eq_of_bounds (sp * sw * (sp * sw)) (by linarith) (by linarith)]
  rw [wrap64_eq_of_bounds (co * cw + sp * sw * (sp * sw)) (by linarith) (by linarith)]
  ring

theorem heuristic_self_eq_zero (p : Pos) (c : Rgb) (cw sw : Int) :
    heuristic p p c c cw sw = 0 := by
  unfold heuristic
  simp only [i64add, i64sub, i64mul, i64sq, sub_self]
  norm_num [wrap64]

theorem heuristicSpec_nonneg (apos bpos : Pos) (a b : Rgb) (cw sw : Int)
    (hcw : 0 ≤ cw) : 0 ≤ heuristicSpec apos bpos a b cw sw := by
  unfold heuristicSpec
  have h1 : 0 ≤ ((a.r - b.r) ^ 2 + (a.g - b.g) ^ 2 + (a.b - b.b) ^ 2) * cw := by positivity
  have h2 : 0 ≤ (((apos.x - bpos.x) ^ 2 + (apos.y - bpos.y) ^ 2) * sw) ^ 2 := sq_nonneg _
  linarith


/-! ## An exact model of the `f32` values used by the solvers

The local-search matchers use a handful of `f32` computations
(`max_dist * 0.99`, `(S/4) * 0.99f32.powi(age/30)`, `.round()`, `as u32`).
All values involved are positive normal floats, which we model exactly as
rationals together with round-to-nearest-even at 24 bits of significand. -/

/-- Number of binary digits of `n` (fuel-based; use `fuel ≥ n`). -/
def nbits : Nat → Nat → Nat
  | 0, _ => 0
  | fuel + 1, n => if n ≤ 1 then n else nbits fuel (n / 2) + 1

/-- Number of binary digits of `n`. -/
def bitlen (n : Nat) : Nat := nbits n n

theorem nbits_spec : ∀ (fuel n : Nat), 0 < n → n ≤ fuel →
    2 ^ (nbits fuel n - 1) ≤ n ∧ n < 2 ^ nbits fuel n := by
  intro fuel
  induction fuel with
  | zero => intro n h1 h2 ; omega
  | succ f ih =>
    intro n h1 h2
    unfold nbits
    by_cases hn : n ≤ 1
    · have : n = 1 := by omega
      subst this
      simp
    · simp only [hn, if_false]
      have hrec := ih (n / 2) (by omega) (by omega)
      obtain ⟨hlo, hhi⟩ := hrec
      constructor
      · have h2pos : 0 < nbits f (n / 2) := by
          by_contra h
          have : nbits f (n / 2) = 0 := by omega
          rw [this] at hhi
          omega
        have : nbits f (n / 2) + 1 - 1 = (nbits f (n / 2) - 1) + 1 := by omega
        rw [this, pow_succ]
        omega
      · rw [pow_succ]
        omega

theorem bitlen_spec (n : Nat) (h : 0 < n) : 2 ^ (bitlen n - 1) ≤ n ∧ n < 2 ^ bitlen n :=
  nbits_spec n n h le_rfl

/-- The binary exponent of a positive rational: the unique `z` with
`2^z ≤ q < 2^(z+1)`. -/
def qExp (q : Rat) : Int :=
  let e0 : Int := (bitlen q.num.natAbs : Int) - (bitlen q.den : Int)
  if (2 : Rat) ^ e0 ≤ q then e0 else e0 - 1

/-- Round a rational to the nearest integer, ties to even. -/
def rne (q : Rat) : Int :=
  let n := ⌊q⌋
  let f := q - (n : Rat)
  if f < 1 / 2 then n
  else if 1 / 2 < f then n + 1
  else if Even n then n else n + 1

/-- Round a positive rational to the nearest `f32` value (24-bit significand,
round to nearest, ties to even); nonpositive inputs are mapped to `0`.
This is exact for all inputs arising in the program (positive normal range). -/
def r32 (q : Rat) : Rat :=
  if q ≤ 0 then 0
  else
    let e : Int := qExp q - 23
    (rne (q * 2 ^ (-e)) : Rat) * 2 ^ e

/-- `f32` multiplication (IEEE-754: round the exact product). -/
def mulF32 (a b : Rat) : Rat := r32 (a * b)

/-- The `f32` literal `0.99` (the nearest `f32` to 99/100). -/
def c099 : Rat := r32 (99 / 100)

/-- `as u32` on a (in-range, nonnegative) `f32` value: truncate toward zero. -/
def f32toU32 (q : Rat) : Nat := (⌊q⌋).toNat

/-- `f32::round` (half away from zero) for nonnegative values, as an integer. -/
def f32roundPos (q : Rat) : Int := ⌊q + 1 / 2⌋

theorem rne_err (q : Rat) : |((rne q : Int) : Rat) - q| ≤ 1 / 2 := by
  unfold rne
  have hf0 : (0 : Rat) ≤ q - (⌊q⌋ : Rat) := by
    have := Int.floor_le q
    linarith
  have hf1 : q - (⌊q⌋ : Rat) < 1 := by
    have := Int.lt_floor_add_one q
    linarith
  by_cases h1 : q - (⌊q⌋ : Rat) < 1 / 2
  · simp only [h1, if_true]
    rw [abs_le]
    constructor <;> linarith
  · simp only [h1, if_false]
    by_cases h2 : 1 / 2 < q - (⌊q⌋ : Rat)
    · simp only [h2, if_true]
      rw [abs_le]
      push_cast
      constructor <;> linarith
    · simp only [h2, if_false]
      have heq : q - (⌊q⌋ : Rat) = 1 / 2 := by linarith
      by_cases h3 : Even ⌊q⌋
      · simp only [h3, if_true]
        rw [abs_le]
        constructor <;> linarith
      · simp only [h3, if_false]
        rw [abs_le]
        push_cast
        constructor <;> linarith

theorem qExp_spec (q : Rat) (hq : 0 < q) :
    (2 : Rat) ^ qExp q ≤ q ∧ q < (2 : Rat) ^ (qExp q + 1) := by
  have hnum : 0 < q.num := Rat.num_pos.mpr hq
  have hden : 0 < q.den := q.pos
  set a : Nat := q.num.natAbs with ha
  set b : Nat := q.den with hb
  have ha0 : 0 < a := Int.natAbs_pos.mpr (by omega)
  have hA := bitlen_spec a ha0
  have hB := bitlen_spec b hden
  set A : Nat := bitlen a with hAdef
  set B : Nat := bitlen b with hBdef
  have hA1 : 1 ≤ A := by
    by_contra h
    have : A = 0 := by omega
    rw [this] at hA
    simp at hA
    omega
  have hB1 : 1 ≤ B := by
    by_contra h
    have : B = 0 := by omega
    rw [this] at hB
    simp at hB
    omega
  have htwo : (2 : Rat) ≠ 0 := by norm_num
  -- rational versions of the bit-length bounds
  have fa1 : (2 : Rat) ^ ((A : Int) - 1) ≤ (a : Rat) := by
    have := hA.1
    have hcast : ((2 ^ (A - 1) : Nat) : Rat) ≤ (a : Rat) := by exact_mod_cast this
    rw [show ((A : Int) - 1) = ((A - 1 : Nat) : Int) by omega]
    rw [zpow_natCast]
    exact_mod_cast hcast
  have fa2 : (a : Rat) < (2 : Rat) ^ (A : Int) := by
    have := hA.2
    rw [zpow_natCast]
    exact_mod_cast this
  have fb1 : (2 : Rat) ^ ((B : Int) - 1) ≤ (b : Rat) := by
    have := hB.1
    have hcast : ((2 ^ (B - 1) : Nat) : Rat) ≤ (b : Rat) := by exact_mod_cast this
    rw [show ((B : Int) - 1) = ((B - 1 : Nat) : Int) by omega]
    rw [zpow_natCast]
    exact_mod_cast hcast
  have fb2 : (b : Rat) < (2 : Rat) ^ (B : Int) := by
    have := hB.2
    rw [zpow_natCast]
    exact_mod_cast this
  have hbQ : (0 : Rat) < (b : Rat) := by exact_mod_cast hden
  have hqb : q * (b : Rat) = (a : Rat) := by
    have h1 : (a : Rat) = ((q.num : Rat)) := by
      rw [ha]
      rw [Int.cast_natAbs]
      rw [abs_of_nonneg (by exact_mod_cast le_of_lt hnum)]
    rw [h1, hb]
    exact Rat.mul_den_eq_num q
  set e0 : Int := (A : Int) - (B : Int) with he0
  -- q < 2 ^ (e0 + 1)
  have hup : q < (2 : Rat) ^ (e0 + 1) := by
    have step1 : (2 : Rat) ^ (A : Int) = (2 : Rat) ^ (e0 + 1) * (2 : Rat) ^ ((B : Int) - 1) := by
      rw [← zpow_add₀ htwo]
      congr 1
      omega
    have step2 : (2 : Rat) ^ (e0 + 1) * (2 : Rat) ^ ((B : Int) - 1) ≤
        (2 : Rat) ^ (e0 + 1) * (b : Rat) :=
      mul_le_mul_of_nonneg_left fb1 (le_of_lt (zpow_pos (by norm_num) _))
    have : q * (b : Rat) < (2 : Rat) ^ (e0 + 1) * (b : Rat) := by
      rw [hqb]
      calc (a : Rat) < (2 : Rat) ^ (A : Int) := fa2
        _ = (2 : Rat) ^ (e0 + 1) * (2 : Rat) ^ ((B : Int) - 1) := step1
        _ ≤ (2 : Rat) ^ (e0 + 1) * (b : Rat) := step2
    exact lt_of_mul_lt_mul_right this (le_of_lt hbQ)
  -- 2 ^ (e0 - 1) ≤ q
  have hdown : (2 : Rat) ^ (e0 - 1) ≤ q := by
    have step1 : (2 : Rat) ^ (e0 - 1) * (b : Rat) < (2 : Rat) ^ (e0 - 1) * (2 : Rat) ^ (B : Int) :=
      mul_lt_mul_of_pos_left fb2 (zpow_pos (by norm_num) _)
    have step2 : (2 : Rat) ^ (e0 - 1) * (2 : Rat) ^ (B : Int) = (2 : Rat) ^ ((A : Int) - 1) := by
      rw [← zpow_add₀ htwo]
      congr 1
      omega
    have : (2 : Rat) ^ (e0 - 1) * (b : Rat) < q * (b : Rat) := by
      rw [hqb]
      calc (2 : Rat) ^ (e0 - 1) * (b : Rat) < (2 : Rat) ^ ((A : Int) - 1) := by
            rw [← step2] ; exact step1
        _ ≤ (a : Rat) := fa1
    exact le_of_lt (lt_of_mul_lt_mul_right this (le_of_lt hbQ))
  unfold qExp
  rw [← hAdef, ← hBdef, ← he0]
  by_cases hcase : (2 : Rat) ^ e0 ≤ q
  · rw [if_pos hcase]
    exact ⟨hcase, hup⟩
  · rw [if_neg hcase]
    constructor
    · exact hdown
    · rw [show e0 - 1 + 1 = e0 by ring]
      exact lt_of_not_le hcase

theorem r32_err (q : Rat) (hq : 0 < q) : |r32 q - q| ≤ q / 2 ^ 24 := by
  unfold r32
  rw [if_neg (not_le.mpr hq)]
  set e : Int := qExp q - 23 with he
  set x : Rat := q * 2 ^ (-e) with hx
  have htwo : (2 : Rat) ≠ 0 := by norm_num
  have hepos : (0 : Rat) < 2 ^ e := zpow_pos (by norm_num) _
  have hqx : q = x * 2 ^ e := by
    rw [hx, mul_assoc, ← zpow_add₀ htwo]
    simp
  have key : |((rne x : Int) : Rat) * 2 ^ e - q| = |((rne x : Int) : Rat) - x| * 2 ^ e := by
    rw [hqx]
    rw [← sub_mul, abs_mul, abs_of_pos hepos]
  rw [key]
  have h1 : |((rne x : Int) : Rat) - x| * 2 ^ e ≤ (1 / 2) * 2 ^ e :=
    mul_le_mul_of_nonneg_right (rne_err x) (le_of_lt hepos)
  have h2 : (2 : Rat) ^ (e + 23) ≤ q := by
    rw [show e + 23 = qExp q by omega]
    exact (qExp_spec q hq).1
  have h3 : (1 / 2 : Rat) * 2 ^ e = (2 : Rat) ^ (e + 23) / 2 ^ 24 := by
    rw [zpow_add₀ htwo]
    norm_num
    ring
  have h4 : (2 : Rat) ^ (e + 23) / 2 ^ 24 ≤ q / 2 ^ 24 := by
    apply div_le_div_of_nonneg_right h2 (by norm_num)
  linarith

theorem r32_le (q : Rat) (hq : 0 < q) : r32 q ≤ q + q / 2 ^ 24 := by
  have := abs_le.mp (r32_err q hq)
  linarith [this.2]

theorem r32_ge (q : Rat) (hq : 0 < q) : q - q / 2 ^ 24 ≤ r32 q := by
  have := abs_le.mp (r32_err q hq)
  linarith [this.1]

theorem r32_nonpos_eq_zero (q : Rat) (hq : q ≤ 0) : r32 q = 0 := by
  unfold r32
  rw [if_pos hq]

theorem r32_nonneg (q : Rat) (hq : 0 ≤ q) : 0 ≤ r32 q := by
  rcases lt_or_eq_of_le hq with h | h
  · have := r32_ge q h
    have hd : q / 2 ^ 24 < q := by
      apply div_lt_self h
      norm_num
    linarith
  · rw [← h, r32_nonpos_eq_zero 0 le_rfl]

theorem qExp_eq_of_bounds (q : Rat) (hq : 0 < q) (z : Int)
    (h1 : (2 : Rat) ^ z ≤ q) (h2 : q < (2 : Rat) ^ (z + 1)) : qExp q = z := by
  obtain ⟨g1, g2⟩ := qExp_spec q hq
  by_contra hne
  rcases lt_or_gt_of_ne hne with h | h
  · have : (2 : Rat) ^ (qExp q + 1) ≤ (2 : Rat) ^ z :=
      zpow_le_zpow_right₀ (by norm_num) (by omega)
    linarith
  · have : (2 : Rat) ^ (z + 1) ≤ (2 : Rat) ^ qExp q :=
      zpow_le_zpow_right₀ (by norm_num) (by omega)
    linarith

theorem r32_eq_formula (q : Rat) (hq : 0 < q) (z : Int)
    (h1 : (2 : Rat) ^ z ≤ q) (h2 : q < (2 : Rat) ^ (z + 1)) :
    r32 q = ((rne (q * 2 ^ (23 - z)) : Int) : Rat) * 2 ^ (z - 23) := by
  unfold r32
  rw [if_neg (not_le.mpr hq), qExp_eq_of_bounds q hq z h1 h2]
  show ((rne (q * 2 ^ (-(z - 23))) : Int) : Rat) * 2 ^ (z - 23) =
    ((rne (q * 2 ^ (23 - z)) : Int) : Rat) * 2 ^ (z - 23)
  rw [show -(z - 23) = 23 - z by ring]

theorem rne_low (q : Rat) (n : Int) (h1 : (n : Rat) ≤ q) (h2 : q < (n : Rat) + 1 / 2) :
    rne q = n := by
  have hfl : ⌊q⌋ = n := Int.floor_eq_iff.mpr ⟨h1, by linarith⟩
  unfold rne
  rw [hfl, if_pos (by linarith)]

theorem rne_high (q : Rat) (n : Int) (h1 : (n : Rat) + 1 / 2 < q) (h2 : q < (n : Rat) + 1) :
    rne q = n + 1 := by
  have hfl : ⌊q⌋ = n := Int.floor_eq_iff.mpr ⟨by linarith, by linarith⟩
  unfold rne
  rw [hfl, if_neg (by linarith), if_pos (by linarith)]

theorem rne_int (n : Int) : rne ((n : Rat)) = n :=
  rne_low _ n le_rfl (by linarith)

theorem f32toU32_eq (q : Rat) (n : Nat) (h1 : (n : Rat) ≤ q) (h2 : q < (n : Rat) + 1) :
    f32toU32 q = n := by
  have hfl : ⌊q⌋ = (n : Int) := Int.floor_eq_iff.mpr ⟨by exact_mod_cast h1, by push_cast ; linarith⟩
  unfold f32toU32
  rw [hfl]
  exact Int.toNat_natCast n

theorem r32_concrete (q x : Rat) (z n : Int) (hq : 0 < q)
    (h1 : (2 : Rat) ^ z ≤ q) (h2 : q < (2 : Rat) ^ (z + 1))
    (hx : q * 2 ^ (23 - z) = x) (hrne : rne x = n) :
    r32 q = (n : Rat) * 2 ^ (z - 23) := by
  rw [r32_eq_formula q hq z h1 h2, hx, hrne]

/-! ## Concrete `f32` values used by the solvers -/

theorem c099_val : c099 = 16609444 / 16777216 := by
  unfold c099
  have hz1 : (2 : Rat) ^ (-1 : Int) ≤ 99 / 100 := by
    rw [show (-1 : Int) = -((1 : Nat) : Int) by norm_num, zpow_neg, zpow_natCast]
    norm_num
  have hz2 : (99 / 100 : Rat) < 2 ^ ((-1 : Int) + 1) := by
    norm_num
  have hx : (99 / 100 : Rat) * 2 ^ ((23 : Int) - (-1)) = 415236096 / 25 := by
    rw [show (23 : Int) - (-1) = ((24 : Nat) : Int) by norm_num, zpow_natCast]
    norm_num
  have hrne : rne (415236096 / 25) = 16609444 := by
    rw [show (16609444 : Int) = 16609443 + 1 by norm_num]
    apply rne_high
    · push_cast
      norm_num
    · push_cast
      norm_num
  rw [r32_concrete (99 / 100) (415236096 / 25) (-1) 16609444 (by norm_num) hz1 hz2 hx hrne]
  rw [show (-1 : Int) - 23 = -((24 : Nat) : Int) by norm_num, zpow_neg, zpow_natCast]
  norm_num

theorem c099_pos : 0 < c099 := by
  rw [c099_val]
  norm_num

theorem c099_lt_one : c099 < 1 := by
  rw [c099_val]
  norm_num

theorem r32_c099 : r32 c099 = c099 := by
  rw [c099_val]
  have hz1 : (2 : Rat) ^ (-1 : Int) ≤ 16609444 / 16777216 := by
    rw [show (-1 : Int) = -((1 : Nat) : Int) by norm_num, zpow_neg, zpow_natCast]
    norm_num
  have hz2 : (16609444 / 16777216 : Rat) < 2 ^ ((-1 : Int) + 1) := by
    norm_num
  have hx : (16609444 / 16777216 : Rat) * 2 ^ ((23 : Int) - (-1)) = ((16609444 : Int) : Rat) := by
    rw [show (23 : Int) - (-1) = ((24 : Nat) : Int) by norm_num, zpow_natCast]
    push_cast
    norm_num
  rw [r32_concrete _ _ (-1) 16609444 (by norm_num) hz1 hz2 hx (rne_int 16609444)]
  rw [show (-1 : Int) - 23 = -((24 : Nat) : Int) by norm_num, zpow_neg, zpow_natCast]
  norm_num

/-! ## `f32`-valued helpers of the solvers -/

/-- The batch local-search decay step
`max_dist = (max_dist as f32 * 0.99).max(2.0) as u32`
(`src/app/calculate/mod.rs:525`). -/
def decayMaxDist (m : Nat) : Nat := f32toU32 (max (mulF32 (m : Rat) c099) 2)

/-- `f32::powi` modelled as iterated `f32` multiplication (`powi(0) = 1`,
`powi(k+1) = powi(k) * x` rounded). -/
def powiF32 (a : Rat) : Nat → Rat
  | 0 => 1
  | k + 1 => mulF32 (powiF32 a k) a

/-- `DRAWING_CANVAS_SIZE` (`src/app/calculate/drawing_process.rs:33`). -/
def drawingCanvasSize : Nat := 128

/-- Drawing-mode per-age swap radius
`(((DRAWING_CANVAS_SIZE / 4) as f32) * 0.99f32.powi(age as i32 / 30)).round() as u32`
(`src/app/calculate/drawing_process.rs:170`). -/
def maxDistDrawing (age : Nat) : Nat :=
  (f32roundPos (mulF32 ((drawingCanvasSize / 4 : Nat) : Rat) (powiF32 c099 (age / 30)))).toNat

/-- Drawing-mode per-cell radius: the age is
`frame_count.saturating_sub(last_edited)`
(`src/app/calculate/drawing_process.rs:193`). -/
def drawingCellRadius (frameCount lastEdited : Nat) : Nat :=
  maxDistDrawing (frameCount - lastEdited)

theorem f32toU32_le_self (q : Rat) (hq : 0 ≤ q) : (f32toU32 q : Rat) ≤ q := by
  unfold f32toU32
  have h0 : (0 : Int) ≤ ⌊q⌋ := Int.floor_nonneg.mpr hq
  have : ((⌊q⌋.toNat : Nat) : Int) = ⌊q⌋ := Int.toNat_of_nonneg h0
  have hcast : ((⌊q⌋.toNat : Nat) : Rat) = ((⌊q⌋ : Int) : Rat) := by exact_mod_cast this
  rw [hcast]
  exact Int.floor_le q

theorem f32toU32_gt (q : Rat) (hq : 0 ≤ q) : q - 1 < (f32toU32 q : Rat) := by
  unfold f32toU32
  have h0 : (0 : Int) ≤ ⌊q⌋ := Int.floor_nonneg.mpr hq
  have : ((⌊q⌋.toNat : Nat) : Int) = ⌊q⌋ := Int.toNat_of_nonneg h0
  have hcast : ((⌊q⌋.toNat : Nat) : Rat) = ((⌊q⌋ : Int) : Rat) := by exact_mod_cast this
  rw [hcast]
  exact Int.sub_one_lt_floor q

theorem f32toU32_lt_of (q : Rat) (n : Nat) (hn : 0 < n) (h : q < (n : Rat)) :
    f32toU32 q < n := by
  unfold f32toU32
  have hfl : ⌊q⌋ < (n : Int) := by
    rw [Int.floor_lt]
    exact_mod_cast h
  omega

theorem f32toU32_ge_of (q : Rat) (n : Nat) (h : (n : Rat) ≤ q) : n ≤ f32toU32 q := by
  unfold f32toU32
  have hfl : (n : Int) ≤ ⌊q⌋ := Int.le_floor.mpr (by exact_mod_cast h)
  omega

theorem decayMaxDist_ge_two (m : Nat) : 2 ≤ decayMaxDist m := by
  unfold decayMaxDist
  apply f32toU32_ge_of
  have : (2 : Rat) ≤ max (mulF32 (m : Rat) c099) 2 := le_max_right _ _
  exact_mod_cast this

theorem mulF32_le_bound (m : Nat) (hm : 0 < m) :
    mulF32 (m : Rat) c099 ≤ (m : Rat) * (16609444 / 16777216) * (1 + 1 / 2 ^ 24) := by
  unfold mulF32
  have hx : (0 : Rat) < (m : Rat) * c099 := by
    apply mul_pos (by exact_mod_cast hm) c099_pos
  have := r32_le _ hx
  rw [c099_val] at this ⊢
  set x : Rat := (m : Rat) * (16609444 / 16777216) with hxdef
  have : r32 x ≤ x + x / 2 ^ 24 := this
  linarith

theorem mulF32_ge_bound (m : Nat) (hm : 0 < m) :
    (m : Rat) * (16609444 / 16777216) * (1 - 1 / 2 ^ 24) ≤ mulF32 (m : Rat) c099 := by
  unfold mulF32
  have hx : (0 : Rat) < (m : Rat) * c099 := by
    apply mul_pos (by exact_mod_cast hm) c099_pos
  have := r32_ge _ hx
  rw [c099_val] at this ⊢
  set x : Rat := (m : Rat) * (16609444 / 16777216) with hxdef
  have : x - x / 2 ^ 24 ≤ r32 x := this
  linarith

theorem decayMaxDist_lt_self (m : Nat) (hm : 3 ≤ m) (hM : m ≤ 65536) :
    decayMaxDist m < m := by
  unfold decayMaxDist
  apply f32toU32_lt_of _ _ (by omega)
  have hmQ : (3 : Rat) ≤ (m : Rat) := by exact_mod_cast hm
  have hub := mulF32_le_bound m (by omega)
  rw [max_lt_iff]
  constructor
  · have : (m : Rat) * (16609444 / 16777216) * (1 + 1 / 2 ^ 24) < (m : Rat) := by
      nlinarith
    linarith
  · linarith

theorem decayMaxDist_le_max (m : Nat) (hM : m ≤ 65536) :
    decayMaxDist m ≤ max 2 (m - 1) := by
  rcases Nat.lt_or_ge m 3 with h | h
  · rcases Nat.eq_zero_or_pos m with h0 | h0
    · subst h0
      unfold decayMaxDist mulF32
      rw [Nat.cast_zero, zero_mul, r32_nonpos_eq_zero 0 le_rfl]
      have : max (0 : Rat) 2 = 2 := by norm_num
      rw [this]
      rw [f32toU32_eq 2 2 (by norm_num) (by norm_num)]
      omega
    · have hlt : decayMaxDist m < 3 := by
        unfold decayMaxDist
        apply f32toU32_lt_of _ _ (by omega)
        rw [show ((3 : Nat) : Rat) = 3 by norm_num]
        rw [max_lt_iff]
        have hub := mulF32_le_bound m h0
        have hmQ : (m : Rat) ≤ 2 := by exact_mod_cast Nat.lt_succ_iff.mp h
        constructor
        · have hc : (m : Rat) * (16609444 / 16777216) * (1 + 1 / 2 ^ 24) ≤
              2 * ((16609444 / 16777216) * (1 + 1 / 2 ^ 24)) := by
            rw [mul_assoc]
            exact mul_le_mul_of_nonneg_right hmQ (by norm_num)
          linarith
        · norm_num
      omega
  · have := decayMaxDist_lt_self m h hM
    have := decayMaxDist_ge_two m
    omega

theorem decayMaxDist_bounds (m : Nat) (hm : 4 ≤ m) (hM : m ≤ 65536) :
    (99 * (m : Rat)) / 100 - 2 ≤ (decayMaxDist m : Rat) ∧
      (decayMaxDist m : Rat) ≤ (99 * (m : Rat)) / 100 + 1 := by
  have hmQ : (4 : Rat) ≤ (m : Rat) := by exact_mod_cast hm
  have hMQ : (m : Rat) ≤ 65536 := by exact_mod_cast hM
  have hub := mulF32_le_bound m (by omega)
  have hlb := mulF32_ge_bound m (by omega)
  have hmax_ge : (0 : Rat) ≤ max (mulF32 (m : Rat) c099) 2 := by
    have : (2 : Rat) ≤ max (mulF32 (m : Rat) c099) 2 := le_max_right _ _
    linarith
  constructor
  · have h1 := f32toU32_gt (max (mulF32 (m : Rat) c099) 2) hmax_ge
    have h2 : mulF32 (m : Rat) c099 ≤ max (mulF32 (m : Rat) c099) 2 := le_max_left _ _
    unfold decayMaxDist
    nlinarith
  · have h1 := f32toU32_le_self (max (mulF32 (m : Rat) c099) 2) hmax_ge
    have h2 : max (mulF32 (m : Rat) c099) 2 ≤ (99 * (m : Rat)) / 100 + 1 := by
      rw [max_le_iff]
      constructor
      · nlinarith
      · nlinarith
    unfold decayMaxDist
    linarith

theorem powiF32_c099_nonneg (k : Nat) : 0 ≤ powiF32 c099 k := by
  induction k with
  | zero => norm_num [powiF32]
  | succ n ih =>
    show 0 ≤ mulF32 (powiF32 c099 n) c099
    unfold mulF32
    exact r32_nonneg _ (mul_nonneg ih (le_of_lt c099_pos))

theorem powiF32_c099_le_one (k : Nat) : powiF32 c099 k ≤ 1 := by
  induction k with
  | zero => norm_num [powiF32]
  | succ n ih =>
    show mulF32 (powiF32 c099 n) c099 ≤ 1
    unfold mulF32
    set p := powiF32 c099 n with hp
    have hp0 : 0 ≤ p := powiF32_c099_nonneg n
    rcases eq_or_lt_of_le (mul_nonneg hp0 (le_of_lt c099_pos)) with h | h
    · rw [r32_nonpos_eq_zero _ (le_of_eq h.symm)]
      norm_num
    · have h1 := r32_le _ h
      have h2 : p * c099 ≤ c099 := by
        calc p * c099 ≤ 1 * c099 := mul_le_mul_of_nonneg_right ih (le_of_lt c099_pos)
          _ = c099 := one_mul _
      have h3 : c099 ≤ 16609444 / 16777216 := le_of_eq c099_val
      have h4 : p * c099 / 2 ^ 24 ≤ c099 / 2 ^ 24 := by
        apply div_le_div_of_nonneg_right h2
        norm_num
      linarith

theorem powiF32_c099_one : powiF32 c099 1 = c099 := by
  show mulF32 (powiF32 c099 0) c099 = c099
  show mulF32 1 c099 = c099
  unfold mulF32
  rw [one_mul]
  exact r32_c099

theorem mulF32_32_c099 : mulF32 32 c099 = 16609444 / 524288 := by
  unfold mulF32
  rw [c099_val]
  rw [show (32 : Rat) * (16609444 / 16777216) = 16609444 / 524288 by norm_num]
  have hz1 : (2 : Rat) ^ (4 : Int) ≤ 16609444 / 524288 := by
    rw [show (4 : Int) = ((4 : Nat) : Int) by norm_num, zpow_natCast]
    norm_num
  have hz2 : (16609444 / 524288 : Rat) < 2 ^ ((4 : Int) + 1) := by
    rw [show (4 : Int) + 1 = ((5 : Nat) : Int) by norm_num, zpow_natCast]
    norm_num
  have hx : (16609444 / 524288 : Rat) * 2 ^ ((23 : Int) - 4) = ((16609444 : Int) : Rat) := by
    rw [show (23 : Int) - 4 = ((19 : Nat) : Int) by norm_num, zpow_natCast]
    push_cast
    norm_num
  rw [r32_concrete _ _ (4) 16609444 (by norm_num) hz1 hz2 hx (rne_int 16609444)]
  rw [show (4 : Int) - 23 = -((19 : Nat) : Int) by norm_num, zpow_neg, zpow_natCast]
  norm_num

theorem mulF32_32_one : mulF32 32 1 = 32 := by
  unfold mulF32
  rw [mul_one]
  have hz1 : (2 : Rat) ^ (5 : Int) ≤ 32 := by
    rw [show (5 : Int) = ((5 : Nat) : Int) by norm_num, zpow_natCast]
    norm_num
  have hz2 : (32 : Rat) < 2 ^ ((5 : Int) + 1) := by
    rw [show (5 : Int) + 1 = ((6 : Nat) : Int) by norm_num, zpow_natCast]
    norm_num
  have hx : (32 : Rat) * 2 ^ ((23 : Int) - 5) = ((8388608 : Int) : Rat) := by
    rw [show (23 : Int) - 5 = ((18 : Nat) : Int) by norm_num, zpow_natCast]
    push_cast
    norm_num
  rw [r32_concrete _ _ 5 8388608 (by norm_num) hz1 hz2 hx (rne_int 8388608)]
  rw [show (5 : Int) - 23 = -((18 : Nat) : Int) by norm_num, zpow_neg, zpow_natCast]
  norm_num

theorem maxDistDrawing_age_lt_30 (age : Nat) (h : age < 30) : maxDistDrawing age = 32 := by
  unfold maxDistDrawing
  rw [Nat.div_eq_of_lt h]
  rw [show ((drawingCanvasSize / 4 : Nat) : Rat) = 32 by norm_num [drawingCanvasSize]]
  show (f32roundPos (mulF32 32 (powiF32 c099 0))).toNat = 32
  rw [show powiF32 c099 0 = 1 from rfl, mulF32_32_one]
  unfold f32roundPos
  rw [show (32 : Rat) + 1 / 2 = (65 : Rat) / 2 by norm_num]
  rw [show ⌊(65 : Rat) / 2⌋ = 32 from Int.floor_eq_iff.mpr (by norm_num)]
  rfl

theorem maxDistDrawing_30 : maxDistDrawing 30 = 32 := by
  unfold maxDistDrawing
  rw [show (30 : Nat) / 30 = 1 by norm_num]
  rw [show ((drawingCanvasSize / 4 : Nat) : Rat) = 32 by norm_num [drawingCanvasSize]]
  rw [powiF32_c099_one, mulF32_32_c099]
  unfold f32roundPos
  rw [show (16609444 : Rat) / 524288 + 1 / 2 = 16871588 / 524288 by norm_num]
  rw [show ⌊(16871588 : Rat) / 524288⌋ = 32 from Int.floor_eq_iff.mpr (by norm_num)]
  rfl

theorem maxDistDrawing_le_32 (age : Nat) : maxDistDrawing age ≤ 32 := by
  unfold maxDistDrawing
  rw [show ((drawingCanvasSize / 4 : Nat) : Rat) = 32 by norm_num [drawingCanvasSize]]
  set p := powiF32 c099 (age / 30) with hp
  have hp0 : 0 ≤ p := powiF32_c099_nonneg _
  have hp1 : p ≤ 1 := powiF32_c099_le_one _
  have hq : mulF32 32 p ≤ 32 + 1 / 256 := by
    unfold mulF32
    rcases eq_or_lt_of_le (mul_nonneg (by norm_num : (0:Rat) ≤ 32) hp0) with h | h
    · rw [r32_nonpos_eq_zero _ (le_of_eq h.symm)]
      norm_num
    · have h1 := r32_le _ h
      have h2 : (32 : Rat) * p ≤ 32 := by linarith
      have h3 : (32 : Rat) * p / 2 ^ 24 ≤ 32 / 2 ^ 24 := by
        apply div_le_div_of_nonneg_right h2
        norm_num
      have h4 : (32 : Rat) / 2 ^ 24 ≤ 1 / 256 := by norm_num
      linarith
  unfold f32roundPos
  have hfl : ⌊mulF32 32 p + 1 / 2⌋ < 33 := by
    rw [Int.floor_lt]
    push_cast
    linarith
  omega

/-! ## The batch Local-Search Matcher (`process_genetic`,
`src/app/calculate/mod.rs:411`)

The PRNG draws (`apos`, and the two offsets for `bx`/`by`) are supplied as an
oracle stream, so all theorems hold for every possible random sequence.  The
pixel vector of length `N = width²` is modelled as a total function
`Nat → GPixel` read and written only at indices `< N`. -/

/-- `Pixel` (`src/app/calculate/mod.rs:364`): source position, colour and the
cached heuristic value. -/
structure GPixel where
  srcX : Nat
  srcY : Nat
  rgb : Rgb
  h : Int

/-- The inputs of a batch run: side length (`target.width()`), source pixels,
target pixels, weights and `proximity_importance`. -/
structure GenEnv where
  width : Nat
  sourcePixels : Nat → Rgb
  targetPixels : Nat → Rgb
  weights : Nat → Int
  prox : Int

/-- Total number of grid cells `N = S²`. -/
def GenEnv.n (env : GenEnv) : Nat := env.width * env.width

/-- `Pixel::calc_heuristic` (`src/app/calculate/mod.rs:386`). -/
def GPixel.calcH (p : GPixel) (tpos : Pos) (tcol : Rgb) (weight prox : Int) : Int :=
  heuristic ⟨(p.srcX : Int), (p.srcY : Int)⟩ tpos p.rgb tcol weight prox

/-- The initial pixel vector (`src/app/calculate/mod.rs:427`): pixel `i` sits
at `(i % width, i / width)` with heuristic computed against target cell `i`. -/
def initPixel (env : GenEnv) (i : Nat) : GPixel :=
  let x := i % env.width
  let y := i / env.width
  let p : GPixel := ⟨x, y, env.sourcePixels i, 0⟩
  { p with h := p.calcH ⟨(x : Int), (y : Int)⟩ (env.targetPixels i) (env.weights i) env.prox }

/-- One triple of PRNG draws: the cell index `apos` and the two signed offsets
used to build `bx` and `by`. -/
structure Draw where
  apos : Nat
  dx : Int
  dy : Int

/-- Rust `Ord::clamp` for `lo ≤ hi`. -/
def clampInt (v lo hi : Int) : Int := max lo (min v hi)

/-- `bx = (ax as i16 + rng.gen_range(..)).clamp(0, width - 1) as u16`. -/
def stepBx (env : GenEnv) (d : Draw) : Nat :=
  (clampInt (((d.apos % env.width : Nat) : Int) + d.dx) 0 ((env.width : Int) - 1)).toNat

/-- `by = (ay as i16 + rng.gen_range(..)).clamp(0, width - 1) as u16`. -/
def stepBy (env : GenEnv) (d : Draw) : Nat :=
  (clampInt (((d.apos / env.width : Nat) : Int) + d.dy) 0 ((env.width : Int) - 1)).toNat

/-- `bpos = by * width + bx`. -/
def stepBpos (env : GenEnv) (d : Draw) : Nat := stepBy env d * env.width + stepBx env d

/-- `a_on_b_h`: cost of pixel `apos` evaluated at cell `bpos`. -/
def stepAOnB (env : GenEnv) (s : Nat → GPixel) (d : Draw) : Int :=
  (s d.apos).calcH ⟨(stepBx env d : Int), (stepBy env d : Int)⟩
    (env.targetPixels (stepBpos env d)) (env.weights (stepBpos env d)) env.prox

/-- `b_on_a_h`: cost of pixel `bpos` evaluated at cell `apos`. -/
def stepBOnA (env : GenEnv) (s : Nat → GPixel) (d : Draw) : Int :=
  (s (stepBpos env d)).calcH ⟨((d.apos % env.width : Nat) : Int), ((d.apos / env.width : Nat) : Int)⟩
    (env.targetPixels d.apos) (env.weights d.apos) env.prox

/-- `improvement_a + improvement_b`: the sum of the two cells' cost
improvements (cached cost minus newly computed cost). -/
def genImp (env : GenEnv) (s : Nat → GPixel) (d : Draw) : Int :=
  ((s d.apos).h - stepBOnA env s d) + ((s (stepBpos env d)).h - stepAOnB env s d)

/-- The accepted-swap update: `pixels.swap(apos, bpos)` followed by the two
cached-cost updates (the `bpos` write happens last, as in the source). -/
def genSwapped (env : GenEnv) (s : Nat → GPixel) (d : Draw) : Nat → GPixel := fun i =>
  if i = stepBpos env d then { s d.apos with h := stepAOnB env s d }
  else if i = d.apos then { s (stepBpos env d) with h := stepBOnA env s d }
  else s i

/-- One candidate evaluation of the inner loop: the swap is performed iff
`improvement_a + improvement_b > 0` (`src/app/calculate/mod.rs:479`). -/
def genStep (env : GenEnv) (s : Nat → GPixel) (d : Draw) : Nat → GPixel :=
  if 0 < genImp env s d then genSwapped env s d else s

/-- One candidate evaluation carrying the `swaps_made` counter. -/
def genStepCount (env : GenEnv) (sc : (Nat → GPixel) × Nat) (d : Draw) :
    (Nat → GPixel) × Nat :=
  if 0 < genImp env sc.1 d then (genSwapped env sc.1 d, sc.2 + 1) else sc

/-- One generation: fold the candidate evaluations over the draw list,
counting accepted swaps. -/
def runGeneration (env : GenEnv) (s : Nat → GPixel) (ds : List Draw) :
    (Nat → GPixel) × Nat :=
  ds.foldl (genStepCount env) (s, 0)

/-- `assignments[i] = src_y * width + src_x` (`src/app/calculate/mod.rs:497`). -/
def assignOf (env : GenEnv) (s : Nat → GPixel) (i : Nat) : Nat :=
  (s i).srcY * env.width + (s i).srcX

/-- Total cached cost over all cells. -/
def totalCost (env : GenEnv) (s : Nat → GPixel) : Int :=
  ∑ i ∈ Finset.range env.n, (s i).h

theorem stepBx_lt (env : GenEnv) (d : Draw) (hw : 1 ≤ env.width) :
    stepBx env d < env.width := by
  unfold stepBx clampInt
  have hwi : (1 : Int) ≤ (env.width : Int) := by exact_mod_cast hw
  have h1 : min (((d.apos % env.width : Nat) : Int) + d.dx) ((env.width : Int) - 1) ≤
      (env.width : Int) - 1 := min_le_right _ _
  have h2 : max 0 (min (((d.apos % env.width : Nat) : Int) + d.dx) ((env.width : Int) - 1)) ≤
      (env.width : Int) - 1 := by
    rw [max_le_iff]
    exact ⟨by linarith, h1⟩
  omega

theorem stepBy_lt (env : GenEnv) (d : Draw) (hw : 1 ≤ env.width) :
    stepBy env d < env.width := by
  unfold stepBy clampInt
  have hwi : (1 : Int) ≤ (env.width : Int) := by exact_mod_cast hw
  have h1 : min (((d.apos / env.width : Nat) : Int) + d.dy) ((env.width : Int) - 1) ≤
      (env.width : Int) - 1 := min_le_right _ _
  have h2 : max 0 (min (((d.apos / env.width : Nat) : Int) + d.dy) ((env.width : Int) - 1)) ≤
      (env.width : Int) - 1 := by
    rw [max_le_iff]
    exact ⟨by linarith, h1⟩
  omega

theorem stepBpos_lt (env : GenEnv) (d : Draw) (hw : 1 ≤ env.width) :
    stepBpos env d < env.n := by
  unfold stepBpos GenEnv.n
  have h1 := stepBx_lt env d hw
  have h2 := stepBy_lt env d hw
  have h3 : (stepBy env d + 1) * env.width ≤ env.width * env.width :=
    Nat.mul_le_mul_right _ (by omega)
  have h4 : stepBy env d * env.width + stepBx env d < (stepBy env d + 1) * env.width := by
    rw [Nat.add_mul, one_mul]
    omega
  omega

theorem stepBx_of_bpos_eq (env : GenEnv) (d : Draw) (hw : 1 ≤ env.width)
    (h : stepBpos env d = d.apos) :
    stepBx env d = d.apos % env.width ∧ stepBy env d = d.apos / env.width := by
  have hbx := stepBx_lt env d hw
  have key : stepBy env d * env.width + stepBx env d = d.apos := h
  constructor
  · have : d.apos % env.width = stepBx env d := by
      rw [← key, Nat.mul_comm, Nat.mul_add_mod, Nat.mod_eq_of_lt hbx]
    omega
  · have : d.apos / env.width = stepBy env d := by
      rw [← key, Nat.mul_comm, Nat.mul_add_div (by omega : 0 < env.width)]
      rw [Nat.div_eq_of_lt hbx]
      omega
    omega

theorem assignOf_initPixel (env : GenEnv) (i : Nat) : assignOf env (initPixel env) i = i := by
  show i / env.width * env.width + i % env.width = i
  rw [Nat.mul_comm]
  exact Nat.div_add_mod i env.width

theorem assignOf_genSwapped (env : GenEnv) (s : Nat → GPixel) (d : Draw) :
    assignOf env (genSwapped env s d) =
      fun i => assignOf env s (Equiv.swap d.apos (stepBpos env d) i) := by
  funext i
  by_cases h1 : i = stepBpos env d
  · subst h1
    show assignOf env (genSwapped env s d) (stepBpos env d) =
      assignOf env s (Equiv.swap d.apos (stepBpos env d) (stepBpos env d))
    rw [Equiv.swap_apply_right]
    unfold assignOf genSwapped
    rw [if_pos rfl]
  · by_cases h2 : i = d.apos
    · subst h2
      show assignOf env (genSwapped env s d) d.apos =
        assignOf env s (Equiv.swap d.apos (stepBpos env d) d.apos)
      rw [Equiv.swap_apply_left]
      unfold assignOf genSwapped
      rw [if_neg (by omega), if_pos rfl]
    · show assignOf env (genSwapped env s d) i = assignOf env s (Equiv.swap d.apos (stepBpos env d) i)
      rw [Equiv.swap_apply_of_ne_of_ne h2 h1]
      unfold assignOf genSwapped
      rw [if_neg h1, if_neg h2]

theorem swap_bijOn_Iio (a b n : Nat) (ha : a < n) (hb : b < n) :
    Set.BijOn (fun i => Equiv.swap a b i) (Set.Iio n) (Set.Iio n) := by
  have hmaps : Set.MapsTo (fun i => Equiv.swap a b i) (Set.Iio n) (Set.Iio n) := by
    intro i hi
    simp only [Set.mem_Iio] at hi ⊢
    rw [Equiv.swap_apply_def]
    split
    · exact hb
    · split
      · exact ha
      · exact hi
  refine ⟨hmaps, ?_, ?_⟩
  · intro i _ j _ hij
    exact (Equiv.swap a b).injective hij
  · intro j hj
    refine ⟨Equiv.swap a b j, hmaps hj, ?_⟩
    exact Equiv.swap_apply_self a b j

theorem bijOn_assign_genStep (env : GenEnv) (hw : 1 ≤ env.width) (s : Nat → GPixel)
    (d : Draw) (hd : d.apos < env.n)
    (hbij : Set.BijOn (assignOf env s) (Set.Iio env.n) (Set.Iio env.n)) :
    Set.BijOn (assignOf env (genStep env s d)) (Set.Iio env.n) (Set.Iio env.n) := by
  unfold genStep
  by_cases himp : 0 < genImp env s d
  · rw [if_pos himp, assignOf_genSwapped]
    have hswap := swap_bijOn_Iio d.apos (stepBpos env d) env.n hd (stepBpos_lt env d hw)
    exact hbij.comp hswap
  · rw [if_neg himp]
    exact hbij

theorem genStep_eq_of_rejected (env : GenEnv) (s : Nat → GPixel) (d : Draw)
    (h : ¬ 0 < genImp env s d) : genStep env s d = s := if_neg h

theorem stepAOnB_eq_stepBOnA (env : GenEnv) (s : Nat → GPixel) (d : Draw)
    (hw : 1 ≤ env.width) (h : stepBpos env d = d.apos) :
    stepAOnB env s d = stepBOnA env s d := by
  obtain ⟨hx, hy⟩ := stepBx_of_bpos_eq env d hw h
  unfold stepAOnB stepBOnA
  rw [h, hx, hy]

theorem totalCost_genSwapped_add_one_le (env : GenEnv) (hw : 1 ≤ env.width)
    (s : Nat → GPixel) (d : Draw) (hd : d.apos < env.n) (himp : 0 < genImp env s d) :
    totalCost env (genSwapped env s d) + 1 ≤ totalCost env s := by
  have hb := stepBpos_lt env d hw
  have hdelta : totalCost env (genSwapped env s d) - totalCost env s =
      ∑ i ∈ Finset.range env.n, (((genSwapped env s d) i).h - (s i).h) := by
    unfold totalCost
    rw [Finset.sum_sub_distrib]
  have hsub : ({d.apos, stepBpos env d} : Finset Nat) ⊆ Finset.range env.n := by
    intro x hx
    simp only [Finset.mem_insert, Finset.mem_singleton] at hx
    rcases hx with h | h <;> subst h <;> simp only [Finset.mem_range] <;> assumption
  have hsupp : ∀ i ∈ Finset.range env.n, i ∉ ({d.apos, stepBpos env d} : Finset Nat) →
      ((genSwapped env s d) i).h - (s i).h = 0 := by
    intro i _ hni
    simp only [Finset.mem_insert, Finset.mem_singleton] at hni
    push_neg at hni
    unfold genSwapped
    rw [if_neg hni.2, if_neg hni.1]
    ring
  have hsum : ∑ i ∈ Finset.range env.n, (((genSwapped env s d) i).h - (s i).h) =
      ∑ i ∈ ({d.apos, stepBpos env d} : Finset Nat), (((genSwapped env s d) i).h - (s i).h) :=
    (Finset.sum_subset hsub hsupp).symm
  by_cases heq : stepBpos env d = d.apos
  · have hpair : ({d.apos, stepBpos env d} : Finset Nat) = {d.apos} := by
      rw [heq]
      simp
    rw [hpair, Finset.sum_singleton] at hsum
    have hswA : ((genSwapped env s d) d.apos).h = stepAOnB env s d := by
      unfold genSwapped
      rw [if_pos heq.symm]
    rw [hswA] at hsum
    have haob := stepAOnB_eq_stepBOnA env s d hw heq
    have himp2 : 0 < ((s d.apos).h - stepBOnA env s d) + ((s d.apos).h - stepAOnB env s d) := by
      have : genImp env s d =
          ((s d.apos).h - stepBOnA env s d) + ((s (stepBpos env d)).h - stepAOnB env s d) := rfl
      rw [this, heq] at himp
      exact himp
    rw [← haob] at himp2
    have hkey : 1 ≤ (s d.apos).h - stepAOnB env s d := by omega
    omega
  · have hpair : ∑ i ∈ ({d.apos, stepBpos env d} : Finset Nat),
        (((genSwapped env s d) i).h - (s i).h) =
        (((genSwapped env s d) d.apos).h - (s d.apos).h) +
          (((genSwapped env s d) (stepBpos env d)).h - (s (stepBpos env d)).h) :=
      Finset.sum_pair (by omega)
    have hswA : ((genSwapped env s d) d.apos).h = stepBOnA env s d := by
      unfold genSwapped
      rw [if_neg (by omega), if_pos rfl]
    have hswB : ((genSwapped env s d) (stepBpos env d)).h = stepAOnB env s d := by
      unfold genSwapped
      rw [if_pos rfl]
    rw [hpair, hswA, hswB] at hsum
    have himp2 : 0 < genImp env s d := himp
    unfold genImp at himp2
    omega

theorem totalCost_genStep_le (env : GenEnv) (hw : 1 ≤ env.width) (s : Nat → GPixel)
    (d : Draw) (hd : d.apos < env.n) :
    totalCost env (genStep env s d) ≤ totalCost env s := by
  unfold genStep
  by_cases himp : 0 < genImp env s d
  · rw [if_pos himp]
    have := totalCost_genSwapped_add_one_le env hw s d hd himp
    omega
  · rw [if_neg himp]

theorem runGeneration_swaps_le (env : GenEnv) (hw : 1 ≤ env.width) :
    ∀ (ds : List Draw) (sc : (Nat → GPixel) × Nat), (∀ d ∈ ds, d.apos < env.n) →
      totalCost env (ds.foldl (genStepCount env) sc).1 +
        ((ds.foldl (genStepCount env) sc).2 : Int) ≤ totalCost env sc.1 + (sc.2 : Int) := by
  intro ds
  induction ds with
  | nil => intro sc _ ; exact le_refl _
  | cons d ds ih =>
    intro sc hds
    have hd : d.apos < env.n := hds d (by simp)
    have hstep : totalCost env (genStepCount env sc d).1 + ((genStepCount env sc d).2 : Int) ≤
        totalCost env sc.1 + (sc.2 : Int) := by
      unfold genStepCount
      by_cases himp : 0 < genImp env sc.1 d
      · rw [if_pos himp]
        have := totalCost_genSwapped_add_one_le env hw sc.1 d hd himp
        push_cast
        omega
      · rw [if_neg himp]
    calc totalCost env ((d :: ds).foldl (genStepCount env) sc).1 +
          (((d :: ds).foldl (genStepCount env) sc).2 : Int)
        = totalCost env (ds.foldl (genStepCount env) (genStepCount env sc d)).1 +
          ((ds.foldl (genStepCount env) (genStepCount env sc d)).2 : Int) := rfl
      _ ≤ totalCost env (genStepCount env sc d).1 + ((genStepCount env sc d).2 : Int) :=
          ih _ (fun x hx => hds x (by simp [hx]))
      _ ≤ totalCost env sc.1 + (sc.2 : Int) := hstep

/-! ## Batch loop: invariants and termination -/

/-- Realistic input ranges of a batch run: square grid of side `1..256`,
`u8` colours, `u8` weights, small nonnegative `proximity_importance`
(the setting defaults to 10). -/
structure EnvOk (env : GenEnv) : Prop where
  hw : 1 ≤ env.width
  hw256 : env.width ≤ 256
  hsrc : ∀ i, (env.sourcePixels i).InRange
  htgt : ∀ i, (env.targetPixels i).InRange
  hwt : ∀ i, 0 ≤ env.weights i ∧ env.weights i ≤ 255
  hprox : 0 ≤ env.prox ∧ env.prox ≤ 10000

/-- Invariant on the pixel vector: in-range fields and nonnegative cached
cost at every live index. -/
def StateOk (env : GenEnv) (s : Nat → GPixel) : Prop :=
  ∀ i, i < env.n →
    (s i).srcX < env.width ∧ (s i).srcY < env.width ∧ (s i).rgb.InRange ∧ 0 ≤ (s i).h

theorem calcH_nonneg (env : GenEnv) (hok : EnvOk env) (p : GPixel)
    (hx : p.srcX < env.width) (hy : p.srcY < env.width) (hc : p.rgb.InRange)
    (tx ty : Nat) (htx : tx < env.width) (hty : ty < env.width) (j : Nat) :
    0 ≤ p.calcH ⟨(tx : Int), (ty : Int)⟩ (env.targetPixels j) (env.weights j) env.prox := by
  have hg1 : Pos.InGrid ⟨(p.srcX : Int), (p.srcY : Int)⟩ := by
    refine ⟨?_, ?_, ?_, ?_⟩
    · show (0 : Int) ≤ (p.srcX : Int)
      positivity
    · show ((p.srcX : Nat) : Int) < 256
      exact_mod_cast lt_of_lt_of_le hx hok.hw256
    · show (0 : Int) ≤ (p.srcY : Int)
      positivity
    · show ((p.srcY : Nat) : Int) < 256
      exact_mod_cast lt_of_lt_of_le hy hok.hw256
  have hg2 : Pos.InGrid ⟨(tx : Int), (ty : Int)⟩ := by
    refine ⟨?_, ?_, ?_, ?_⟩
    · show (0 : Int) ≤ (tx : Int)
      positivity
    · show ((tx : Nat) : Int) < 256
      exact_mod_cast lt_of_lt_of_le htx hok.hw256
    · show (0 : Int) ≤ (ty : Int)
      positivity
    · show ((ty : Nat) : Int) < 256
      exact_mod_cast lt_of_lt_of_le hty hok.hw256
  unfold GPixel.calcH
  rw [heuristic_eq_spec_of_inRange _ _ _ _ _ _ hg1 hg2 hc (hok.htgt j) (hok.hwt j)
    ⟨hok.hprox.1, hok.hprox.2⟩]
  exact heuristicSpec_nonneg _ _ _ _ _ _ (hok.hwt j).1

theorem stateOk_initPixel (env : GenEnv) (hok : EnvOk env) : StateOk env (initPixel env) := by
  intro i hi
  have hw := hok.hw
  have hx : i % env.width < env.width := Nat.mod_lt _ (by omega)
  have hy : i / env.width < env.width := by
    rw [Nat.div_lt_iff_lt_mul (by omega : 0 < env.width)]
    exact hi
  refine ⟨hx, hy, hok.hsrc i, ?_⟩
  show 0 ≤ (GPixel.mk (i % env.width) (i / env.width) (env.sourcePixels i) 0).calcH
    ⟨((i % env.width : Nat) : Int), ((i / env.width : Nat) : Int)⟩
    (env.targetPixels i) (env.weights i) env.prox
  exact calcH_nonneg env hok _ hx hy (hok.hsrc i) _ _ hx hy i

theorem stateOk_genStep (env : GenEnv) (hok : EnvOk env) (s : Nat → GPixel)
    (hs : StateOk env s) (d : Draw) (hd : d.apos < env.n) :
    StateOk env (genStep env s d) := by
  have hb := stepBpos_lt env d hok.hw
  have hbx := stepBx_lt env d hok.hw
  have hby := stepBy_lt env d hok.hw
  have hax : d.apos % env.width < env.width := Nat.mod_lt _ (by have := hok.hw ; omega)
  have hay : d.apos / env.width < env.width := by
    rw [Nat.div_lt_iff_lt_mul (by have := hok.hw ; omega : 0 < env.width)]
    exact hd
  unfold genStep
  by_cases himp : 0 < genImp env s d
  · rw [if_pos himp]
    intro i hi
    unfold genSwapped
    by_cases h1 : i = stepBpos env d
    · rw [if_pos h1]
      obtain ⟨hA1, hA2, hA3, _⟩ := hs d.apos hd
      exact ⟨hA1, hA2, hA3, calcH_nonneg env hok _ hA1 hA2 hA3 _ _ hbx hby _⟩
    · rw [if_neg h1]
      by_cases h2 : i = d.apos
      · rw [if_pos h2]
        obtain ⟨hB1, hB2, hB3, _⟩ := hs (stepBpos env d) hb
        exact ⟨hB1, hB2, hB3, calcH_nonneg env hok _ hB1 hB2 hB3 _ _ hax hay _⟩
      · rw [if_neg h2]
        exact hs i hi
  · rw [if_neg himp]
    exact hs

theorem genStepCount_fst (env : GenEnv) (sc : (Nat → GPixel) × Nat) (d : Draw) :
    (genStepCount env sc d).1 = genStep env sc.1 d := by
  unfold genStepCount genStep
  by_cases himp : 0 < genImp env sc.1 d
  · rw [if_pos himp, if_pos himp]
  · rw [if_neg himp, if_neg himp]

theorem stateOk_foldl (env : GenEnv) (hok : EnvOk env) :
    ∀ (ds : List Draw) (sc : (Nat → GPixel) × Nat), StateOk env sc.1 →
      (∀ d ∈ ds, d.apos < env.n) → StateOk env (ds.foldl (genStepCount env) sc).1 := by
  intro ds
  induction ds with
  | nil => intro sc h _ ; exact h
  | cons d ds ih =>
    intro sc hsc hds
    apply ih
    · rw [genStepCount_fst]
      exact stateOk_genStep env hok sc.1 hsc d (hds d (by simp))
    · intro x hx
      exact hds x (by simp [hx])

theorem totalCost_nonneg (env : GenEnv) (s : Nat → GPixel) (hs : StateOk env s) :
    0 ≤ totalCost env s := by
  unfold totalCost
  apply Finset.sum_nonneg
  intro i hi
  exact (hs i (Finset.mem_range.mp hi)).2.2.2

/-- The per-generation state sequence of the batch loop: generation `k` maps
`batchPixels k` to `batchPixels (k+1)`. -/
def batchPixels (env : GenEnv) (draws : Nat → List Draw) : Nat → Nat → GPixel
  | 0 => initPixel env
  | k + 1 => (runGeneration env (batchPixels env draws k) (draws k)).1

/-- `swaps_made` of generation `k`. -/
def batchSwaps (env : GenEnv) (draws : Nat → List Draw) (k : Nat) : Nat :=
  (runGeneration env (batchPixels env draws k) (draws k)).2

/-- The `max_dist` sequence: starts at `target.width()` and decays by the
`* 0.99` / floor-2 rule after every generation. -/
def batchMaxDist (env : GenEnv) : Nat → Nat
  | 0 => env.width
  | k + 1 => decayMaxDist (batchMaxDist env k)

/-- The finalization condition checked after generation `k`
(`if max_dist < 4 && swaps_made < 10`). -/
def batchStopsAt (env : GenEnv) (draws : Nat → List Draw) (k : Nat) : Prop :=
  batchMaxDist env k < 4 ∧ batchSwaps env draws k < 10

/-- The batch loop: run generations from index `k` with the given fuel and
emit the `Done` assignments at the first generation whose finalization
condition holds. -/
def batchRunAux (env : GenEnv) (draws : Nat → List Draw) : Nat → Nat → Option (Nat → Nat)
  | 0, _ => none
  | fuel + 1, k =>
    if batchMaxDist env k < 4 ∧ batchSwaps env draws k < 10 then
      some (assignOf env (batchPixels env draws (k + 1)))
    else batchRunAux env draws fuel (k + 1)

/-- A full batch invocation (generation index starts at 0). -/
def batchRun (env : GenEnv) (draws : Nat → List Draw) (fuel : Nat) : Option (Nat → Nat) :=
  batchRunAux env draws fuel 0

theorem batchMaxDist_le_65536 (env : GenEnv) (hok : EnvOk env) (k : Nat) :
    batchMaxDist env k ≤ 65536 := by
  induction k with
  | zero =>
    show env.width ≤ 65536
    have := hok.hw256
    omega
  | succ n ih =>
    show decayMaxDist (batchMaxDist env n) ≤ 65536
    have := decayMaxDist_le_max (batchMaxDist env n) ih
    omega

theorem batchMaxDist_le_sub (env : GenEnv) (hok : EnvOk env) (k : Nat) :
    batchMaxDist env k ≤ max 3 (env.width - k) := by
  induction k with
  | zero =>
    show env.width ≤ max 3 (env.width - 0)
    omega
  | succ n ih =>
    show decayMaxDist (batchMaxDist env n) ≤ max 3 (env.width - (n + 1))
    have h1 := decayMaxDist_le_max (batchMaxDist env n) (batchMaxDist_le_65536 env hok n)
    omega

theorem batchMaxDist_lt_4 (env : GenEnv) (hok : EnvOk env) (k : Nat)
    (hk : env.width ≤ k) : batchMaxDist env k < 4 := by
  have := batchMaxDist_le_sub env hok k
  omega

theorem batchStateOk (env : GenEnv) (hok : EnvOk env) (draws : Nat → List Draw)
    (hdr : ∀ k, ∀ d ∈ draws k, d.apos < env.n) (k : Nat) :
    StateOk env (batchPixels env draws k) := by
  induction k with
  | zero => exact stateOk_initPixel env hok
  | succ n ih =>
    show StateOk env (runGeneration env (batchPixels env draws n) (draws n)).1
    exact stateOk_foldl env hok (draws n) (batchPixels env draws n, 0) ih (hdr n)

theorem batchCost_step (env : GenEnv) (hok : EnvOk env) (draws : Nat → List Draw)
    (hdr : ∀ k, ∀ d ∈ draws k, d.apos < env.n) (k : Nat) :
    totalCost env (batchPixels env draws (k + 1)) + (batchSwaps env draws k : Int) ≤
      totalCost env (batchPixels env draws k) := by
  have := runGeneration_swaps_le env hok.hw (draws k) (batchPixels env draws k, 0) (hdr k)
  simpa using this

theorem batchCost_telescope (env : GenEnv) (hok : EnvOk env) (draws : Nat → List Draw)
    (hdr : ∀ k, ∀ d ∈ draws k, d.apos < env.n) (k0 : Nat) :
    ∀ j, (∀ i, i < j → 10 ≤ batchSwaps env draws (k0 + i)) →
      totalCost env (batchPixels env draws (k0 + j)) + 10 * (j : Int) ≤
        totalCost env (batchPixels env draws k0) := by
  intro j
  induction j with
  | zero => intro _ ; simp
  | succ m ih =>
    intro hsw
    have h1 := batchCost_step env hok draws hdr (k0 + m)
    have h2 : (10 : Int) ≤ (batchSwaps env draws (k0 + m) : Int) := by
      exact_mod_cast hsw m (by omega)
    have h3 := ih (fun i hi => hsw i (by omega))
    have : k0 + (m + 1) = (k0 + m) + 1 := by omega
    rw [this]
    push_cast
    push_cast at h3
    linarith

theorem batch_terminates (env : GenEnv) (hok : EnvOk env) (draws : Nat → List Draw)
    (hdr : ∀ k, ∀ d ∈ draws k, d.apos < env.n) :
    ∃ k, batchStopsAt env draws k := by
  by_contra hnone
  push_neg at hnone
  have hge : ∀ k, env.width ≤ k → 10 ≤ batchSwaps env draws k := by
    intro k hk
    have h4 := batchMaxDist_lt_4 env hok k hk
    have := hnone k
    unfold batchStopsAt at this
    by_contra hlt
    exact this ⟨h4, by omega⟩
  set W := env.width with hW
  set C : Nat := (totalCost env (batchPixels env draws W)).toNat with hC
  have hCnn : 0 ≤ totalCost env (batchPixels env draws W) :=
    totalCost_nonneg env _ (batchStateOk env hok draws hdr W)
  have hCeq : (C : Int) = totalCost env (batchPixels env draws W) := Int.toNat_of_nonneg hCnn
  have htel := batchCost_telescope env hok draws hdr W (C + 1)
    (fun i _ => hge (W + i) (by omega))
  have hnn : 0 ≤ totalCost env (batchPixels env draws (W + (C + 1))) :=
    totalCost_nonneg env _ (batchStateOk env hok draws hdr _)
  rw [← hCeq] at htel
  push_cast at htel
  omega

theorem batchRunAux_isSome_iff (env : GenEnv) (draws : Nat → List Draw) :
    ∀ (fuel k : Nat), (batchRunAux env draws fuel k).isSome = true ↔
      ∃ j, k ≤ j ∧ j < k + fuel ∧ batchStopsAt env draws j := by
  intro fuel
  induction fuel with
  | zero =>
    intro k
    constructor
    · intro h
      simp [batchRunAux] at h
    · intro ⟨j, h1, h2, _⟩
      omega
  | succ f ih =>
    intro k
    unfold batchRunAux
    by_cases hcond : batchMaxDist env k < 4 ∧ batchSwaps env draws k < 10
    · rw [if_pos hcond]
      constructor
      · intro _
        exact ⟨k, le_rfl, by omega, hcond⟩
      · intro _
        rfl
    · rw [if_neg hcond]
      rw [ih (k + 1)]
      constructor
      · intro ⟨j, h1, h2, h3⟩
        exact ⟨j, by omega, by omega, h3⟩
      · intro ⟨j, h1, h2, h3⟩
        refine ⟨j, ?_, by omega, h3⟩
        rcases Nat.eq_or_lt_of_le h1 with h | h
        · subst h
          exact absurd h3 hcond
        · omega

theorem batchRun_done (env : GenEnv) (hok : EnvOk env) (draws : Nat → List Draw)
    (hdr : ∀ k, ∀ d ∈ draws k, d.apos < env.n) :
    ∃ fuel res, batchRun env draws fuel = some res := by
  obtain ⟨k, hk⟩ := batch_terminates env hok draws hdr
  have := (batchRunAux_isSome_iff env draws (k + 1) 0).mpr ⟨k, by omega, by omega, hk⟩
  unfold batchRun
  rcases hres : batchRunAux env draws (k + 1) 0 with _ | res
  · rw [hres] at this
    simp at this
  · exact ⟨k + 1, res, hres⟩

theorem bijOn_assign_foldl (env : GenEnv) (hw : 1 ≤ env.width) :
    ∀ (ds : List Draw) (sc : (Nat → GPixel) × Nat),
      Set.BijOn (assignOf env sc.1) (Set.Iio env.n) (Set.Iio env.n) →
      (∀ d ∈ ds, d.apos < env.n) →
      Set.BijOn (assignOf env (ds.foldl (genStepCount env) sc).1) (Set.Iio env.n)
        (Set.Iio env.n) := by
  intro ds
  induction ds with
  | nil => intro sc h _ ; exact h
  | cons d ds ih =>
    intro sc hsc hds
    apply ih
    · rw [genStepCount_fst]
      exact bijOn_assign_genStep env hw sc.1 d (hds d (by simp)) hsc
    · intro x hx
      exact hds x (by simp [hx])

theorem bijOn_assign_init (env : GenEnv) :
    Set.BijOn (assignOf env (initPixel env)) (Set.Iio env.n) (Set.Iio env.n) := by
  have hfun : assignOf env (initPixel env) = fun i => i := by
    funext i
    exact assignOf_initPixel env i
  rw [hfun]
  exact Set.bijOn_id _

theorem bijOn_assign_batchPixels (env : GenEnv) (hok : EnvOk env) (draws : Nat → List Draw)
    (hdr : ∀ k, ∀ d ∈ draws k, d.apos < env.n) (k : Nat) :
    Set.BijOn (assignOf env (batchPixels env draws k)) (Set.Iio env.n) (Set.Iio env.n) := by
  induction k with
  | zero => exact bijOn_assign_init env
  | succ m ih =>
    show Set.BijOn (assignOf env (runGeneration env (batchPixels env draws m) (draws m)).1) _ _
    exact bijOn_assign_foldl env hok.hw (draws m) (batchPixels env draws m, 0) ih (hdr m)

/-- Convert `BijOn (Iio n)` into the spec's formulation: the assignment array
(the values at indices `0..n-1`) is a permutation of `0..n-1`. -/
theorem perm_range_of_bijOn (n : Nat) (f : Nat → Nat)
    (h : Set.BijOn f (Set.Iio n) (Set.Iio n)) :
    ((List.range n).map f).Perm (List.range n) := by
  have hnodup : ((List.range n).map f).Nodup := by
    apply List.Nodup.map_on
    · intro x hx y hy hxy
      exact h.injOn (Set.mem_Iio.mpr (List.mem_range.mp hx))
        (Set.mem_Iio.mpr (List.mem_range.mp hy)) hxy
    · exact List.nodup_range n
  have hsubset : ((List.range n).map f) ⊆ List.range n := by
    intro y hy
    obtain ⟨x, hx, rfl⟩ := List.mem_map.mp hy
    exact List.mem_range.mpr (h.mapsTo (Set.mem_Iio.mpr (List.mem_range.mp hx)))
  have hsp := List.subperm_of_subset hnodup hsubset
  apply hsp.perm_of_length_le
  simp

/-! ## Drawing mode (`src/app/calculate/drawing_process.rs`) -/

/-- `PixelData` (drawing_process.rs:17): per-cell stroke id and the frame at
which the cell was last edited. -/
structure PixelData where
  strokeId : Nat
  lastEdited : Nat

/-- A `SeedColor`: four `f32` components in `[0,1]`, modelled as exact
rationals. -/
structure SeedColor where
  r : Rat
  g : Rat
  b : Rat
  a : Rat

/-- `(rgba[c] * 256.0) as u8`: multiplication by the power of two `256` is
exact for the in-range `f32` values, and `as u8` truncates toward zero and
saturates at the `u8` bounds. -/
def seedToU8 (v : Rat) : Int := max 0 (min 255 ⌊v * 256⌋)

/-- `DrawingPixel` (drawing_process.rs:38). -/
structure DrawingPixel where
  srcX : Nat
  srcY : Nat
  h : Int

/-- Static inputs of a drawing-mode run. -/
structure DrawEnv where
  sidelen : Nat
  targetPixels : Nat → Rgb
  weights : Nat → Int
  prox : Int

/-- `DrawingPixel::calc_drawing_heuristic` (drawing_process.rs:54): the
source colour is read live from the shared colour buffer at the pixel's
source coordinates. -/
def DrawingPixel.calcDrawingH (p : DrawingPixel) (tpos : Pos) (tcol : Rgb)
    (weight : Int) (colors : Nat → SeedColor) (prox : Int) : Int :=
  let c := colors (p.srcY * drawingCanvasSize + p.srcX)
  heuristic ⟨(p.srcX : Int), (p.srcY : Int)⟩ tpos ⟨seedToU8 c.r, seedToU8 c.g, seedToU8 c.b⟩
    tcol weight prox

/-- `STROKE_REWARD` (drawing_process.rs:81). -/
def strokeRewardConst : Int := -10000000000

/-- The 4-connected neighbour offsets scanned by `stroke_reward`
(the diagonal entries are commented out in the source). -/
def strokeNeighborOffsets : List (Int × Int) := [(0, -1), (-1, 0), (1, 0), (0, 1)]

/-- `stroke_reward` (drawing_process.rs:83): returns `STROKE_REWARD` iff some
in-bounds 4-neighbour of `newpos` holds a pixel whose source cell has the
same `stroke_id` as the source cell of the pixel at `oldpos`. -/
def strokeReward (newpos oldpos : Nat) (pixelData : Nat → PixelData)
    (pixels : Nat → DrawingPixel) (frameCount : Nat) : Int :=
  let x : Int := ((newpos % drawingCanvasSize : Nat) : Int)
  let y : Int := ((newpos / drawingCanvasSize : Nat) : Int)
  let data := pixelData ((pixels oldpos).srcX + (pixels oldpos).srcY * drawingCanvasSize)
  let strokeId := data.strokeId
  let _age := frameCount - data.lastEdited
  if strokeNeighborOffsets.any (fun dxy =>
      let nx := x + dxy.1
      let ny := y + dxy.2
      if nx < 0 ∨ nx ≥ (drawingCanvasSize : Int) ∨ ny < 0 ∨ ny ≥ (drawingCanvasSize : Int) then
        false
      else
        let npos := ny.toNat * drawingCanvasSize + nx.toNat
        (pixelData ((pixels npos).srcX + (pixels npos).srcY * drawingCanvasSize)).strokeId
          == strokeId)
  then strokeRewardConst else 0

/-- The initial drawing pixel vector (drawing_process.rs:144): identity
placement, cached cost `calc_drawing_heuristic + STROKE_REWARD` — the reward
is added unconditionally, without consulting any neighbour. -/
def initDrawingPixel (env : DrawEnv) (colors : Nat → SeedColor) (i : Nat) : DrawingPixel :=
  let x := i % env.sidelen
  let y := i / env.sidelen
  let p : DrawingPixel := ⟨x, y, 0⟩
  { p with
    h := p.calcDrawingH ⟨(x : Int), (y : Int)⟩ (env.targetPixels i) (env.weights i) colors
      env.prox + strokeRewardConst }

/-- The cost the per-swap evaluation computes for a pixel held at its own
cell `i` (drawing_process.rs:211): fresh heuristic plus the stroke reward. -/
def drawingEvalCost (env : DrawEnv) (colors : Nat → SeedColor)
    (pixelData : Nat → PixelData) (pixels : Nat → DrawingPixel) (frameCount i : Nat) : Int :=
  (pixels i).calcDrawingH ⟨((i % env.sidelen : Nat) : Int), ((i / env.sidelen : Nat) : Int)⟩
    (env.targetPixels i) (env.weights i) colors env.prox +
    strokeReward i i pixelData pixels frameCount

/-! ## Channel sends (claim C8)

`SyncSender::send` fails exactly when the consumer has disconnected.  The
`ProgressSink` adapter of the batch matchers (`src/app/calculate/mod.rs:29`)
discards the result (`let _ = ...`); the drawing matcher sends on the raw
`SyncSender` and uses `?` (drawing_process.rs:255) and `.unwrap()`
(drawing_process.rs:258). -/

/-- `SyncSender::send`: `Err(SendError)` iff the consumer is disconnected. -/
def syncSend (connected : Bool) : Except String Unit :=
  if connected then Except.ok () else Except.error "SendError"

/-- The swallowing `ProgressSink` adapter (`let _ = SyncSender::send(..)`). -/
def sinkSend (connected : Bool) : Unit :=
  match syncSend connected with
  | Except.ok () => ()
  | Except.error _ => ()

/-- Tail of a batch `process_genetic` generation, after the cancellation
check: emit `Done` (when the finalization condition holds) or the preview and
progress messages, all through the swallowing adapter.  Returns `true` when
the matcher finalizes. -/
def batchEpilogue (connected : Bool) (maxDist swapsMade : Nat) : Except String Bool :=
  if maxDist < 4 ∧ swapsMade < 10 then
    match sinkSend connected with
    | () => Except.ok true
  else
    match sinkSend connected, sinkSend connected with
    | (), () => Except.ok false

/-- Tail of a `drawing_process_genetic` generation
(drawing_process.rs:250-260): `tx.send(UpdateAssignments(..))?` when swaps
were made, then `tx.send(Cancelled).unwrap()` when superseded.  `Except.error`
models both the propagated `SendError` and the `unwrap` panic; `Except.ok
true` = the solver returned, `Except.ok false` = it loops. -/
def drawingEpilogue (connected : Bool) (swapsMade : Nat) (idMatches : Bool) :
    Except String Bool :=
  match (if 0 < swapsMade then syncSend connected else Except.ok ()) with
  | Except.error e => Except.error e
  | Except.ok () =>
    if idMatches then Except.ok false
    else
      match syncSend connected with
      | Except.error _ => Except.error "panicked: unwrap of SendError"
      | Except.ok () => Except.ok true

theorem strokeReward_eq_zero (newpos oldpos : Nat) (pixelData : Nat → PixelData)
    (pixels : Nat → DrawingPixel) (frameCount : Nat)
    (h : ∀ dxy ∈ strokeNeighborOffsets,
      ∀ _hx1 : 0 ≤ ((newpos % drawingCanvasSize : Nat) : Int) + dxy.1,
      ∀ _hx2 : ((newpos % drawingCanvasSize : Nat) : Int) + dxy.1 < (drawingCanvasSize : Int),
      ∀ _hy1 : 0 ≤ ((newpos / drawingCanvasSize : Nat) : Int) + dxy.2,
      ∀ _hy2 : ((newpos / drawingCanvasSize : Nat) : Int) + dxy.2 < (drawingCanvasSize : Int),
      (pixelData ((pixels ((((newpos / drawingCanvasSize : Nat) : Int) + dxy.2).toNat *
          drawingCanvasSize +
          ((((newpos % drawingCanvasSize : Nat) : Int) + dxy.1)).toNat)).srcX +
        (pixels ((((newpos / drawingCanvasSize : Nat) : Int) + dxy.2).toNat *
          drawingCanvasSize +
          ((((newpos % drawingCanvasSize : Nat) : Int) + dxy.1)).toNat)).srcY *
          drawingCanvasSize)).strokeId ≠
      (pixelData ((pixels oldpos).srcX + (pixels oldpos).srcY * drawingCanvasSize)).strokeId) :
    strokeReward newpos oldpos pixelData pixels frameCount = 0 := by
  unfold strokeReward
  rw [if_neg]
  rw [List.any_eq_true]
  push_neg
  intro dxy hdxy
  by_cases hb : ((newpos % drawingCanvasSize : Nat) : Int) + dxy.1 < 0 ∨
      ((newpos % drawingCanvasSize : Nat) : Int) + dxy.1 ≥ (drawingCanvasSize : Int) ∨
      ((newpos / drawingCanvasSize : Nat) : Int) + dxy.2 < 0 ∨
      ((newpos / drawingCanvasSize : Nat) : Int) + dxy.2 ≥ (drawingCanvasSize : Int)
  · simp only [if_pos hb]
    exact Bool.false_ne_true
  · simp only [if_neg hb]
    push_neg at hb
    obtain ⟨h1, h2, h3, h4⟩ := hb
    have := h dxy hdxy (by omega) (by omega) (by omega) (by omega)
    simp only [beq_eq_false_iff_ne, ne_eq]
    intro hcontra
    rw [beq_iff_eq] at hcontra
    exact this hcontra

theorem initDrawingPixel_fields (env : DrawEnv) (colors : Nat → SeedColor) (i : Nat) :
    (initDrawingPixel env colors i).srcX = i % env.sidelen ∧
      (initDrawingPixel env colors i).srcY = i / env.sidelen := ⟨rfl, rfl⟩

theorem calcDrawingH_h_irrelevant (x y : Nat) (h1 h2 : Int) (tpos : Pos) (tcol : Rgb)
    (weight : Int) (colors : Nat → SeedColor) (prox : Int) :
    (DrawingPixel.mk x y h1).calcDrawingH tpos tcol weight colors prox =
      (DrawingPixel.mk x y h2).calcDrawingH tpos tcol weight colors prox := rfl

theorem batchEpilogue_never_fails (c : Bool) (maxDist swapsMade : Nat) :
    batchEpilogue c maxDist swapsMade = Except.ok (decide (maxDist < 4 ∧ swapsMade < 10)) := by
  unfold batchEpilogue
  by_cases h : maxDist < 4 ∧ swapsMade < 10
  · rw [if_pos h]
    simp [h]
  · rw [if_neg h]
    simp [h]

theorem drawingEpilogue_connected (swapsMade : Nat) (idMatches : Bool) :
    drawingEpilogue true swapsMade idMatches = Except.ok (!idMatches) := by
  unfold drawingEpilogue syncSend
  by_cases h : 0 < swapsMade
  · rw [if_pos h]
    cases idMatches <;> simp
  · rw [if_neg h]
    cases idMatches <;> simp

theorem drawingEpilogue_error_of_swaps (swapsMade : Nat) (idMatches : Bool)
    (h : 0 < swapsMade) :
    drawingEpilogue false swapsMade idMatches = Except.error "SendError" := by
  unfold drawingEpilogue syncSend
  rw [if_pos h]
  simp

/-! ## The Exact Matcher (`process_optimal`, `src/app/calculate/mod.rs:193`)

The inlined `pathfinding::kuhn_munkres` augmenting-path algorithm on the
negated-cost weight matrix.  `x` indexes rows (targets), `y` columns
(sources); here the grids are equal-sized, `nx = ny = n`.  Vectors indexed by
`x`/`y` are modelled as total functions read and written at indices `< n`;
the `IndexSet s` is modelled as an insertion-ordered duplicate-free list. -/

/-- Matching state between roots: partial matching `xy`/`yx` and the vertex
labels `lx`/`ly`. -/
structure KMState where
  xy : Nat → Option Nat
  yx : Nat → Option Nat
  lx : Nat → Int
  ly : Nat → Int

/-- Search state of one root's slack-based alternating-tree phase. -/
structure Phase where
  lx : Nat → Int
  ly : Nat → Int
  slack : Nat → Int
  slackx : Nat → Nat
  alt : Nat → Option Nat
  s : List Nat

/-- `lx[x] = (0..ny).map(|col| w(x,col)).max().unwrap()` — iterator `max` as a
fold. -/
def initLx (n : Nat) (w : Nat → Nat → Int) (x : Nat) : Int :=
  match (List.range n).map (w x) with
  | [] => 0
  | v :: vs => vs.foldl max v

/-- Initial matching state: empty matching, `lx` at the row maxima, `ly = 0`. -/
def initKM (n : Nat) (w : Nat → Nat → Int) : KMState :=
  { xy := fun _ => none, yx := fun _ => none, lx := initLx n w, ly := fun _ => 0 }

/-- Phase initialization for a root: `slack[y] = lx[root] + ly[y] - w(root,y)`,
`slackx[y] = root`, alternating tree cleared, `s = {root}`. -/
def initPhase (_n : Nat) (w : Nat → Nat → Int) (st : KMState) (root : Nat) : Phase :=
  { lx := st.lx, ly := st.ly,
    slack := fun y => st.lx root + st.ly y - w root y,
    slackx := fun _ => root,
    alt := fun _ => none,
    s := [root] }

/-- `pathfinding::num_traits::Bounded::max_value()` for `i64`. -/
def kmSentinel : Int := 2 ^ 63 - 1

/-- The selection scan: smallest slack `delta` and its edge `(x, y)` over the
non-alternating `y`, scanning `yy` in ascending order with a strict `<`. -/
def pickMin (n : Nat) (ph : Phase) : Int × Nat × Nat :=
  (List.range n).foldl
    (fun acc yy =>
      if (ph.alt yy).isNone ∧ ph.slack yy < acc.1 then (ph.slack yy, ph.slackx yy, yy) else acc)
    (kmSentinel, 0, 0)

/-- The label adjustment performed when `delta > 0`: subtract from `lx` over
`s`, add to `ly` of alternating `y`, subtract from the slack of the rest. -/
def adjust (ph : Phase) (delta : Int) : Phase :=
  { ph with
    lx := fun x => if x ∈ ph.s then ph.lx x - delta else ph.lx x,
    ly := fun y => if (ph.alt y).isSome then ph.ly y + delta else ph.ly y,
    slack := fun y => if (ph.alt y).isSome then ph.slack y else ph.slack y - delta }

/-- The (possible) label adjustment of one iteration: applied when the
selected minimum slack `delta` is positive. -/
def phaseAfterAdjust (n : Nat) (ph : Phase) : Phase :=
  if 0 < (pickMin n ph).1 then adjust ph (pickMin n ph).1 else ph

/-- Add the selected edge `(x, y)` to the alternating tree. -/
def phaseAfterAlt (n : Nat) (ph : Phase) : Phase :=
  { phaseAfterAdjust n ph with
    alt := fun y2 => if y2 = (pickMin n ph).2.2 then some (pickMin n ph).2.1
      else (phaseAfterAdjust n ph).alt y2 }

/-- Continue case: insert the selected column's partner `xm` into `s` and
re-minimize the slacks against it. -/
def phaseAfterInsert (n : Nat) (w : Nat → Nat → Int) (ph : Phase) (xm : Nat) : Phase :=
  { phaseAfterAlt n ph with
    s := if xm ∈ (phaseAfterAlt n ph).s then (phaseAfterAlt n ph).s
      else (phaseAfterAlt n ph).s ++ [xm],
    slack := fun y2 =>
      if ((phaseAfterAlt n ph).alt y2).isNone ∧
          (phaseAfterAlt n ph).lx xm + (phaseAfterAlt n ph).ly y2 - w xm y2 <
            (phaseAfterAlt n ph).slack y2
      then (phaseAfterAlt n ph).lx xm + (phaseAfterAlt n ph).ly y2 - w xm y2
      else (phaseAfterAlt n ph).slack y2,
    slackx := fun y2 =>
      if ((phaseAfterAlt n ph).alt y2).isNone ∧
          (phaseAfterAlt n ph).lx xm + (phaseAfterAlt n ph).ly y2 - w xm y2 <
            (phaseAfterAlt n ph).slack y2
      then xm else (phaseAfterAlt n ph).slackx y2 }

/-- One iteration of the inner search loop: select, adjust labels, extend the
alternating tree; break (third component `true`) when the selected `y` is
unmatched, otherwise add its partner to `s` and re-minimize the slacks. -/
def iterOnce (n : Nat) (w : Nat → Nat → Int) (yx : Nat → Option Nat) (ph : Phase) :
    Phase × Nat × Bool :=
  match yx (pickMin n ph).2.2 with
  | none => (phaseAfterAlt n ph, (pickMin n ph).2.2, true)
  | some xm => (phaseAfterInsert n w ph xm, (pickMin n ph).2.2, false)

/-- The inner search loop, fuelled; returns the final phase state and the
break column. -/
def phaseLoop (n : Nat) (w : Nat → Nat → Int) (yx : Nat → Option Nat) :
    Nat → Phase → Option (Phase × Nat)
  | 0, _ => none
  | fuel + 1, ph =>
    let r := iterOnce n w yx ph
    if r.2.2 then some (r.1, r.2.1) else phaseLoop n w yx fuel r.1

/-- The augmenting-path inversion loop: walk `y → alternating[y] → xy[..]`
rebinding the matching, until the predecessor is `None`. -/
def flipLoop (alt : Nat → Option Nat) :
    Nat → ((Nat → Option Nat) × (Nat → Option Nat)) → Option Nat →
      Option ((Nat → Option Nat) × (Nat → Option Nat))
  | _, m, none => some m
  | 0, _, some _ => none
  | fuel + 1, m, some y =>
    match alt y with
    | none => none
    | some x =>
      let prec := m.1 x
      flipLoop alt fuel
        (fun x2 => if x2 = x then some y else m.1 x2,
         fun y2 => if y2 = y then some x else m.2 y2) prec

/-- One root's full phase: search then flip. -/
def runPhase (n : Nat) (w : Nat → Nat → Int) (st : KMState) (root : Nat) : Option KMState :=
  match phaseLoop n w st.yx (n + 1) (initPhase n w st root) with
  | none => none
  | some (ph, yb) =>
    match flipLoop ph.alt (n + 1) (st.xy, st.yx) (some yb) with
    | none => none
    | some m => some { xy := m.1, yx := m.2, lx := ph.lx, ly := ph.ly }

/-- Process the first `k` roots. -/
def kmRounds (n : Nat) (w : Nat → Nat → Int) : Nat → Option KMState
  | 0 => some (initKM n w)
  | k + 1 =>
    match kmRounds n w k with
    | none => none
    | some st => runPhase n w st k

/-- The returned permutation: `xy.into_iter().map(Option::unwrap)` (all
entries are `Some` at completion, proved below). -/
def kmAssign (st : KMState) (x : Nat) : Nat := (st.xy x).getD 0

/-- The returned total (maximized negated cost): `lx.sum() + ly.sum()`. -/
def kmTotal (n : Nat) (st : KMState) : Int :=
  (∑ x ∈ Finset.range n, st.lx x) + ∑ y ∈ Finset.range n, st.ly y

/-- Progress messages of `process_optimal` (payloads of the preview/progress
messages are abstracted; `Progress` carries the pair `(root, nx)` whose
quotient is the reported fraction). -/
inductive KMMsg where
  | progress (root : Nat) (n : Nat)
  | updatePreview
  | done
  | cancelled
deriving DecidableEq, Repr

/-- The root loop of `process_optimal` with its cancellation check and
message sends: after augmenting for root `k`, when `k % 100 == 0` the cancel
flag is read — if set, `Cancelled` is sent and the solver returns — otherwise
the progress and preview messages are sent.  The third component records
whether the solver has returned early. -/
def optRoots (n : Nat) (w : Nat → Nat → Int) (cancel : Nat → Bool) :
    Nat → Option (KMState × List KMMsg × Bool)
  | 0 => some (initKM n w, [], false)
  | k + 1 =>
    match optRoots n w cancel k with
    | none => none
    | some (st, msgs, true) => some (st, msgs, true)
    | some (st, msgs, false) =>
      match runPhase n w st k with
      | none => none
      | some st2 =>
        if k % 100 = 0 then
          if cancel k then some (st2, msgs ++ [KMMsg.cancelled], true)
          else some (st2, msgs ++ [KMMsg.progress k n, KMMsg.updatePreview], false)
        else some (st2, msgs, false)

/-- A full `process_optimal` run: all roots, then the `Done` message (unless
the run was cancelled). -/
def optRun (n : Nat) (w : Nat → Nat → Int) (cancel : Nat → Bool) :
    Option (KMState × List KMMsg × Bool) :=
  match optRoots n w cancel n with
  | none => none
  | some (st, msgs, true) => some (st, msgs, true)
  | some (st, msgs, false) => some (st, msgs ++ [KMMsg.done], false)

/-! ### Invariants of the Kuhn–Munkres loop -/

/-- Standing hypotheses: at least one cell, and weights bounded so far below
the `i64` sentinel that the selection scan always finds a genuine minimum
(`slack` of an unmatched column never exceeds `2W`). -/
structure KMHyp (n : Nat) (w : Nat → Nat → Int) (W : Int) : Prop where
  hn : 1 ≤ n
  hW0 : 0 ≤ W
  hw : ∀ x, x < n → ∀ y, y < n → |w x y| ≤ W
  hsent : 2 * W < kmSentinel

/-- The between-roots invariant after `k` completed phases. -/
structure GInv (n : Nat) (w : Nat → Nat → Int) (W : Int) (k : Nat) (st : KMState) : Prop where
  match_iff : ∀ x, x < n → ((st.xy x).isSome ↔ x < k)
  inv_lr : ∀ x y, st.xy x = some y → st.yx y = some x
  inv_rl : ∀ x y, st.yx y = some x → st.xy x = some y
  xy_lt : ∀ x y, st.xy x = some y → x < n ∧ y < n
  feas : ∀ x, x < n → ∀ y, y < n → w x y ≤ st.lx x + st.ly y
  tight : ∀ x y, st.xy x = some y → st.lx x + st.ly y = w x y
  ly0 : ∀ y, st.yx y = none → st.ly y = 0
  lxW : ∀ x, x < n → st.lx x ≤ W

theorem le_foldl_max (l : List Int) : ∀ v : Int, v ≤ l.foldl max v := by
  induction l with
  | nil => intro v ; exact le_refl v
  | cons a t ih =>
    intro v
    show v ≤ t.foldl max (max v a)
    exact le_trans (le_max_left v a) (ih (max v a))

theorem foldl_max_ge_mem (l : List Int) : ∀ (v a : Int), a ∈ l → a ≤ l.foldl max v := by
  induction l with
  | nil => intro v a h ; simp at h
  | cons b t ih =>
    intro v a h
    rcases List.mem_cons.mp h with h | h
    · subst h
      show a ≤ t.foldl max (max v a)
      exact le_trans (le_max_right v a) (le_foldl_max t (max v a))
    · exact ih (max v b) a h

theorem foldl_max_le (l : List Int) : ∀ (v B : Int), v ≤ B → (∀ a ∈ l, a ≤ B) →
    l.foldl max v ≤ B := by
  induction l with
  | nil => intro v B hv _ ; exact hv
  | cons b t ih =>
    intro v B hv hall
    show t.foldl max (max v b) ≤ B
    apply ih
    · exact max_le hv (hall b (by simp))
    · intro a ha
      exact hall a (by simp [ha])

theorem initLx_ge (n : Nat) (w : Nat → Nat → Int) (x y : Nat) (hy : y < n) :
    w x y ≤ initLx n w x := by
  unfold initLx
  have hmem : w x y ∈ (List.range n).map (w x) :=
    List.mem_map.mpr ⟨y, List.mem_range.mpr hy, rfl⟩
  rcases hl : (List.range n).map (w x) with _ | ⟨v, vs⟩
  · rw [hl] at hmem
    simp at hmem
  · rw [hl] at hmem
    show w x y ≤ vs.foldl max v
    rcases List.mem_cons.mp hmem with h | h
    · rw [← h]
      exact le_foldl_max vs (w x y)
    · exact foldl_max_ge_mem vs v _ h

theorem initLx_le (n : Nat) (w : Nat → Nat → Int) (W : Int) (x : Nat) (hx : x < n)
    (hn : 1 ≤ n) (hw : ∀ x2, x2 < n → ∀ y, y < n → |w x2 y| ≤ W) :
    initLx n w x ≤ W := by
  unfold initLx
  have hall : ∀ a ∈ (List.range n).map (w x), a ≤ W := by
    intro a ha
    obtain ⟨y, hy, rfl⟩ := List.mem_map.mp ha
    exact le_trans (le_abs_self _) (hw x hx y (List.mem_range.mp hy))
  rcases hl : (List.range n).map (w x) with _ | ⟨v, vs⟩
  · have : (List.range n).length = 0 := by
      rw [show (List.range n).length = ((List.range n).map (w x)).length by simp, hl]
      rfl
    simp at this
    omega
  · show vs.foldl max v ≤ W
    apply foldl_max_le
    · apply hall
      rw [hl]
      simp
    · intro a ha
      apply hall
      rw [hl]
      simp [ha]

theorem ginv_init (n : Nat) (w : Nat → Nat → Int) (W : Int) (hyp : KMHyp n w W) :
    GInv n w W 0 (initKM n w) := by
  refine ⟨?_, ?_, ?_, ?_, ?_, ?_, ?_, ?_⟩
  · intro x _
    simp [initKM]
  · intro x y h
    simp [initKM] at h
  · intro x y h
    simp [initKM] at h
  · intro x y h
    simp [initKM] at h
  · intro x _ y hy
    show w x y ≤ initLx n w x + 0
    have := initLx_ge n w x y hy
    omega
  · intro x y h
    simp [initKM] at h
  · intro y _
    rfl
  · intro x hx
    exact initLx_le n w W x hx hyp.hn hyp.hw

/-- Fields of the search invariant that survive the break (the final
alternating edge may point at an unmatched column). -/
structure SCore (n : Nat) (w : Nat → Nat → Int) (W : Int) (st : KMState) (root : Nat)
    (ph : Phase) : Prop where
  feas : ∀ x, x < n → ∀ y, y < n → w x y ≤ ph.lx x + ph.ly y
  tight : ∀ x y, st.xy x = some y → ph.lx x + ph.ly y = w x y
  lxW : ∀ x, x < n → ph.lx x ≤ W
  ly_unm : ∀ y, st.yx y = none → ph.ly y = 0
  alt_lt : ∀ y, (ph.alt y).isSome → y < n
  slack_unm : ∀ y, y < n → st.yx y = none → ph.slack y ≤ 2 * W
  slack_corr : ∀ y, y < n → ph.alt y = none →
    ph.slackx y ∈ ph.s ∧
    ph.slack y = ph.lx (ph.slackx y) + ph.ly y - w (ph.slackx y) y ∧
    ∀ x ∈ ph.s, ph.slack y ≤ ph.lx x + ph.ly y - w x y
  alt_tight : ∀ y x, ph.alt y = some x → x ∈ ph.s ∧ ph.lx x + ph.ly y = w x y
  s_first : ph.s.head? = some root
  s_nodup : ph.s.Nodup
  s_lt : ∀ x ∈ ph.s, x < n
  s_char : ∀ x, x ∈ ph.s ↔ (x = root ∨ ∃ y, (ph.alt y).isSome ∧ st.yx y = some x)
  s_tree : ∀ j x, ph.s.get? (j + 1) = some x →
    ∃ y, st.xy x = some y ∧ ∃ i, i ≤ j ∧ ∃ xi, ph.s.get? i = some xi ∧ ph.alt y = some xi

/-- The mid-loop search invariant: additionally, every alternating column is
matched (an unmatched one would have broken the loop). -/
structure SInv (n : Nat) (w : Nat → Nat → Int) (W : Int) (st : KMState) (root : Nat)
    (ph : Phase) extends SCore n w W st root ph : Prop where
  alt_matched : ∀ y, (ph.alt y).isSome → (st.yx y).isSome

/-- Number of alternating columns (the loop's progress measure). -/
def sizeAlt (n : Nat) (ph : Phase) : Nat :=
  ((Finset.range n).filter (fun y => (ph.alt y).isSome)).card

theorem matchedY_card (n : Nat) (w : Nat → Nat → Int) (W : Int) (k : Nat) (st : KMState)
    (hg : GInv n w W k st) (hk : k ≤ n) :
    ((Finset.range n).filter (fun y => (st.yx y).isSome)).card = k := by
  rw [show k = (Finset.range k).card by simp]
  apply Finset.card_bij (fun y _ => (st.yx y).getD 0)
  · intro y hy
    simp only [Finset.mem_filter, Finset.mem_range] at hy
    obtain ⟨hyn, hsome⟩ := hy
    obtain ⟨x, hx⟩ := Option.isSome_iff_exists.mp hsome
    rw [hx]
    simp only [Option.getD_some, Finset.mem_range]
    have hxy := hg.inv_rl x y hx
    have hxn := (hg.xy_lt x y hxy).1
    exact (hg.match_iff x hxn).mp (by rw [hxy] ; rfl)
  · intro y1 hy1 y2 hy2 heq
    simp only [Finset.mem_filter, Finset.mem_range] at hy1 hy2
    obtain ⟨x1, hx1⟩ := Option.isSome_iff_exists.mp hy1.2
    obtain ⟨x2, hx2⟩ := Option.isSome_iff_exists.mp hy2.2
    rw [hx1, hx2] at heq
    simp only [Option.getD_some] at heq
    subst heq
    have e1 := hg.inv_rl x1 y1 hx1
    have e2 := hg.inv_rl x1 y2 hx2
    rw [e1] at e2
    exact Option.some_injective _ e2
  · intro x hx
    simp only [Finset.mem_range] at hx
    have hxn : x < n := by omega
    have hsome : (st.xy x).isSome := (hg.match_iff x hxn).mpr hx
    obtain ⟨y, hy⟩ := Option.isSome_iff_exists.mp hsome
    have hyx := hg.inv_lr x y hy
    refine ⟨y, ?_, ?_⟩
    · simp only [Finset.mem_filter, Finset.mem_range]
      exact ⟨(hg.xy_lt x y hy).2, by rw [hyx] ; rfl⟩
    · rw [hyx]
      rfl

theorem sizeAlt_le (n : Nat) (w : Nat → Nat → Int) (W : Int) (k : Nat) (st : KMState)
    (root : Nat) (ph : Phase) (hg : GInv n w W k st) (hk : k ≤ n)
    (hs : SInv n w W st root ph) : sizeAlt n ph ≤ k := by
  rw [← matchedY_card n w W k st hg hk]
  apply Finset.card_le_card
  intro y hy
  simp only [Finset.mem_filter, Finset.mem_range, sizeAlt] at hy ⊢
  exact ⟨hy.1, hs.alt_matched y hy.2⟩

/-- Characterization of the left fold performed by the selection scan. -/
theorem pickMin_fold (ph : Phase) :
    ∀ (l : List Nat) (acc : Int × Nat × Nat),
      (∀ y ∈ l, ph.alt y = none →
        (l.foldl (fun acc yy =>
          if (ph.alt yy).isNone ∧ ph.slack yy < acc.1
          then (ph.slack yy, ph.slackx yy, yy) else acc) acc).1 ≤ ph.slack y) ∧
      (l.foldl (fun acc yy =>
          if (ph.alt yy).isNone ∧ ph.slack yy < acc.1
          then (ph.slack yy, ph.slackx yy, yy) else acc) acc).1 ≤ acc.1 ∧
      ((l.foldl (fun acc yy =>
          if (ph.alt yy).isNone ∧ ph.slack yy < acc.1
          then (ph.slack yy, ph.slackx yy, yy) else acc) acc) = acc ∨
        (ph.alt (l.foldl (fun acc yy =>
            if (ph.alt yy).isNone ∧ ph.slack yy < acc.1
            then (ph.slack yy, ph.slackx yy, yy) else acc) acc).2.2 = none ∧
          ph.slack (l.foldl (fun acc yy =>
            if (ph.alt yy).isNone ∧ ph.slack yy < acc.1
            then (ph.slack yy, ph.slackx yy, yy) else acc) acc).2.2 =
            (l.foldl (fun acc yy =>
              if (ph.alt yy).isNone ∧ ph.slack yy < acc.1
              then (ph.slack yy, ph.slackx yy, yy) else acc) acc).1 ∧
          ph.slackx (l.foldl (fun acc yy =>
            if (ph.alt yy).isNone ∧ ph.slack yy < acc.1
            then (ph.slack yy, ph.slackx yy, yy) else acc) acc).2.2 =
            (l.foldl (fun acc yy =>
              if (ph.alt yy).isNone ∧ ph.slack yy < acc.1
              then (ph.slack yy, ph.slackx yy, yy) else acc) acc).2.1 ∧
          (l.foldl (fun acc yy =>
            if (ph.alt yy).isNone ∧ ph.slack yy < acc.1
            then (ph.slack yy, ph.slackx yy, yy) else acc) acc).2.2 ∈ l)) := by
  intro l
  induction l with
  | nil =>
    intro acc
    refine ⟨?_, le_refl _, Or.inl rfl⟩
    intro y hy
    simp at hy
  | cons b t ih =>
    intro acc
    by_cases hcond : (ph.alt b).isNone ∧ ph.slack b < acc.1
    · have hfold : ((b :: t).foldl (fun acc yy =>
          if (ph.alt yy).isNone ∧ ph.slack yy < acc.1
          then (ph.slack yy, ph.slackx yy, yy) else acc) acc) =
          (t.foldl (fun acc yy =>
            if (ph.alt yy).isNone ∧ ph.slack yy < acc.1
            then (ph.slack yy, ph.slackx yy, yy) else acc) (ph.slack b, ph.slackx b, b)) := by
        simp only [List.foldl_cons]
        rw [if_pos hcond]
      obtain ⟨ih1, ih2, ih3⟩ := ih (ph.slack b, ph.slackx b, b)
      rw [hfold]
      refine ⟨?_, ?_, ?_⟩
      · intro y hy halt
        rcases List.mem_cons.mp hy with h | h
        · subst h
          exact ih2
        · exact ih1 y h halt
      · exact le_trans ih2 (le_of_lt hcond.2)
      · rcases ih3 with h | h
        · right
          rw [h]
          exact ⟨Option.isNone_iff_eq_none.mp hcond.1, rfl, rfl, List.mem_cons_self b t⟩
        · right
          exact ⟨h.1, h.2.1, h.2.2.1, List.mem_cons_of_mem b h.2.2.2⟩
    · have hfold : ((b :: t).foldl (fun acc yy =>
          if (ph.alt yy).isNone ∧ ph.slack yy < acc.1
          then (ph.slack yy, ph.slackx yy, yy) else acc) acc) =
          (t.foldl (fun acc yy =>
            if (ph.alt yy).isNone ∧ ph.slack yy < acc.1
            then (ph.slack yy, ph.slackx yy, yy) else acc) acc) := by
        simp only [List.foldl_cons]
        rw [if_neg hcond]
      obtain ⟨ih1, ih2, ih3⟩ := ih acc
      rw [hfold]
      refine ⟨?_, ih2, ?_⟩
      · intro y hy halt
        rcases List.mem_cons.mp hy with h | h
        · subst h
          have : ¬ ph.slack y < acc.1 := by
            intro hlt
            exact hcond ⟨Option.isNone_iff_eq_none.mpr halt, hlt⟩
          omega
        · exact ih1 y h halt
      · rcases ih3 with h | h
        · exact Or.inl h
        · exact Or.inr ⟨h.1, h.2.1, h.2.2.1, List.mem_cons_of_mem b h.2.2.2⟩

theorem pickMin_spec (n : Nat) (ph : Phase)
    (hex : ∃ y, y < n ∧ ph.alt y = none ∧ ph.slack y < kmSentinel) :
    (pickMin n ph).2.2 < n ∧ ph.alt (pickMin n ph).2.2 = none ∧
      ph.slack (pickMin n ph).2.2 = (pickMin n ph).1 ∧
      ph.slackx (pickMin n ph).2.2 = (pickMin n ph).2.1 ∧
      ∀ y, y < n → ph.alt y = none → (pickMin n ph).1 ≤ ph.slack y := by
  obtain ⟨ye, hyen, hyalt, hyslack⟩ := hex
  obtain ⟨h1, h2, h3⟩ := pickMin_fold ph (List.range n) (kmSentinel, 0, 0)
  have hne : (pickMin n ph) ≠ (kmSentinel, 0, 0) := by
    intro heq
    have := h1 ye (List.mem_range.mpr hyen) hyalt
    unfold pickMin at heq
    rw [heq] at this
    simp only at this
    omega
  rcases h3 with h | h
  · exact absurd h hne
  · obtain ⟨ha, hb, hc, hd⟩ := h
    exact ⟨List.mem_range.mp hd, ha, hb, hc, fun y hy halt => h1 y (List.mem_range.mpr hy) halt⟩

theorem s_mem_alt_of_matched (n : Nat) (w : Nat → Nat → Int) (W : Int) (k : Nat)
    (st : KMState) (ph : Phase) (hg : GInv n w W k st) (hk : k < n)
    (hs : SCore n w W st k ph) (x y : Nat) (hmem : x ∈ ph.s) (hxy : st.xy x = some y) :
    (ph.alt y).isSome := by
  rcases (hs.s_char x).mp hmem with h | ⟨y2, halt2, hyx2⟩
  · exfalso
    have hxn : x < n := by rw [h] ; exact hk
    have hmi := hg.match_iff x hxn
    rw [hxy] at hmi
    have hxk : x < k := hmi.mp rfl
    omega
  · have h2 := hg.inv_rl x y2 hyx2
    rw [hxy] at h2
    have heq : y = y2 := Option.some_injective _ h2
    rw [heq]
    exact halt2

theorem not_s_mem_alt_none (n : Nat) (w : Nat → Nat → Int) (W : Int) (k : Nat)
    (st : KMState) (ph : Phase) (hg : GInv n w W k st) (hk : k < n)
    (hs : SCore n w W st k ph) (x y : Nat) (hmem : x ∉ ph.s) (hxy : st.xy x = some y) :
    ph.alt y = none := by
  rcases halt : ph.alt y with _ | xa
  · rfl
  · exfalso
    have hsome : (ph.alt y).isSome := by rw [halt] ; rfl
    rcases hyx : st.yx y with _ | xb
    · have hxb := hg.inv_lr x y hxy
      rw [hyx] at hxb
      exact Option.noConfusion hxb
    · have hx2 := hg.inv_lr x y hxy
      rw [hyx] at hx2
      have : xb = x := Option.some_injective _ hx2
      subst this
      exact hmem ((hs.s_char xb).mpr (Or.inr ⟨y, hsome, hyx⟩))

theorem adjust_spec (n : Nat) (w : Nat → Nat → Int) (W : Int) (k : Nat) (st : KMState)
    (hyp : KMHyp n w W) (hg : GInv n w W k st) (hk : k < n) (ph : Phase)
    (hs : SInv n w W st k ph) (delta : Int) (hd0 : 0 ≤ delta)
    (hdmin : ∀ y, y < n → ph.alt y = none → delta ≤ ph.slack y) :
    SInv n w W st k (adjust ph delta) := by
  have hcore := hs.toSCore
  refine ⟨⟨?_, ?_, ?_, ?_, ?_, ?_, ?_, ?_, ?_, ?_, ?_, ?_, ?_⟩, ?_⟩
  · -- feas
    intro x hx y hy
    show w x y ≤ (if x ∈ ph.s then ph.lx x - delta else ph.lx x) +
      (if (ph.alt y).isSome then ph.ly y + delta else ph.ly y)
    by_cases hxs : x ∈ ph.s
    · by_cases hya : (ph.alt y).isSome
      · rw [if_pos hxs, if_pos hya]
        have := hcore.feas x hx y hy
        omega
      · rw [if_pos hxs, if_neg hya]
        have halt : ph.alt y = none := Option.not_isSome_iff_eq_none.mp hya
        have hmin := (hcore.slack_corr y hy halt).2.2 x hxs
        have hdel := hdmin y hy halt
        omega
    · by_cases hya : (ph.alt y).isSome
      · rw [if_neg hxs, if_pos hya]
        have := hcore.feas x hx y hy
        omega
      · rw [if_neg hxs, if_neg hya]
        exact hcore.feas x hx y hy
  · -- tight
    intro x y hxy
    show (if x ∈ ph.s then ph.lx x - delta else ph.lx x) +
      (if (ph.alt y).isSome then ph.ly y + delta else ph.ly y) = w x y
    by_cases hxs : x ∈ ph.s
    · have hya := s_mem_alt_of_matched n w W k st ph hg hk hcore x y hxs hxy
      rw [if_pos hxs, if_pos hya]
      have := hcore.tight x y hxy
      omega
    · have hya := not_s_mem_alt_none n w W k st ph hg hk hcore x y hxs hxy
      rw [if_neg hxs, if_neg (show ¬ (ph.alt y).isSome = true by rw [hya] ; exact
        Bool.false_ne_true)]
      exact hcore.tight x y hxy
  · -- lxW
    intro x hx
    show (if x ∈ ph.s then ph.lx x - delta else ph.lx x) ≤ W
    by_cases hxs : x ∈ ph.s
    · rw [if_pos hxs]
      have := hcore.lxW x hx
      omega
    · rw [if_neg hxs]
      exact hcore.lxW x hx
  · -- ly_unm
    intro y hy
    show (if (ph.alt y).isSome then ph.ly y + delta else ph.ly y) = 0
    have halt : ¬ (ph.alt y).isSome := by
      intro hsome
      have h2 := hs.alt_matched y hsome
      rw [hy] at h2
      exact Option.noConfusion (Option.isSome_iff_exists.mp h2).choose_spec
    rw [if_neg halt]
    exact hcore.ly_unm y hy
  · -- alt_lt
    intro y hy
    exact hcore.alt_lt y hy
  · -- slack_unm
    intro y hy hyx
    show (if (ph.alt y).isSome then ph.slack y else ph.slack y - delta) ≤ 2 * W
    have halt : ¬ (ph.alt y).isSome := by
      intro hsome
      have h2 := hs.alt_matched y hsome
      rw [hyx] at h2
      exact Option.noConfusion (Option.isSome_iff_exists.mp h2).choose_spec
    rw [if_neg halt]
    have := hcore.slack_unm y hy hyx
    omega
  · -- slack_corr
    intro y hy halt
    have halt' : ph.alt y = none := halt
    have halt2 : ¬ (ph.alt y).isSome = true := by rw [halt'] ; exact Bool.false_ne_true
    obtain ⟨hmem, heq, hmin⟩ := hcore.slack_corr y hy halt'
    refine ⟨hmem, ?_, ?_⟩
    · show (if (ph.alt y).isSome then ph.slack y else ph.slack y - delta) =
        (if ph.slackx y ∈ ph.s then ph.lx (ph.slackx y) - delta else ph.lx (ph.slackx y)) +
          (if (ph.alt y).isSome then ph.ly y + delta else ph.ly y) - w (ph.slackx y) y
      rw [if_neg halt2, if_pos hmem, if_neg halt2]
      omega
    · intro x hxs
      have hxs' : x ∈ ph.s := hxs
      show (if (ph.alt y).isSome then ph.slack y else ph.slack y - delta) ≤
        (if x ∈ ph.s then ph.lx x - delta else ph.lx x) +
          (if (ph.alt y).isSome then ph.ly y + delta else ph.ly y) - w x y
      rw [if_neg halt2, if_pos hxs', if_neg halt2]
      have := hmin x hxs'
      omega
  · -- alt_tight
    intro y x hyx
    have hyx' : ph.alt y = some x := hyx
    obtain ⟨hmem, heq⟩ := hcore.alt_tight y x hyx'
    refine ⟨hmem, ?_⟩
    have hya : (ph.alt y).isSome := by rw [hyx'] ; rfl
    show (if x ∈ ph.s then ph.lx x - delta else ph.lx x) +
      (if (ph.alt y).isSome then ph.ly y + delta else ph.ly y) = w x y
    rw [if_pos hmem, if_pos hya]
    omega
  · exact hcore.s_first
  · exact hcore.s_nodup
  · exact hcore.s_lt
  · exact hcore.s_char
  · exact hcore.s_tree
  · exact hs.alt_matched

theorem exists_unmatched (n : Nat) (w : Nat → Nat → Int) (W : Int) (k : Nat) (st : KMState)
    (hg : GInv n w W k st) (hk : k < n) : ∃ y, y < n ∧ st.yx y = none := by
  by_contra h
  push_neg at h
  have hall : (Finset.range n).filter (fun y => (st.yx y).isSome) = Finset.range n := by
    apply Finset.filter_true_of_mem
    intro y hy
    have := h y (Finset.mem_range.mp hy)
    rcases hv : st.yx y with _ | x
    · exact absurd hv this
    · rfl
  have hcard := matchedY_card n w W k st hg (by omega)
  rw [hall] at hcard
  simp at hcard
  omega

theorem pick_facts (n : Nat) (w : Nat → Nat → Int) (W : Int) (k : Nat) (st : KMState)
    (hyp : KMHyp n w W) (hg : GInv n w W k st) (hk : k < n) (ph : Phase)
    (hs : SInv n w W st k ph) :
    (pickMin n ph).2.2 < n ∧ ph.alt (pickMin n ph).2.2 = none ∧
      ph.slack (pickMin n ph).2.2 = (pickMin n ph).1 ∧
      ph.slackx (pickMin n ph).2.2 = (pickMin n ph).2.1 ∧
      (∀ y, y < n → ph.alt y = none → (pickMin n ph).1 ≤ ph.slack y) ∧
      0 ≤ (pickMin n ph).1 ∧ (pickMin n ph).2.1 ∈ ph.s := by
  obtain ⟨yu, hyun, hyu⟩ := exists_unmatched n w W k st hg hk
  have hyualt : ph.alt yu = none := by
    rcases hv : ph.alt yu with _ | x
    · rfl
    · exfalso
      have h2 := hs.alt_matched yu (by rw [hv] ; rfl)
      rw [hyu] at h2
      exact Option.noConfusion (Option.isSome_iff_exists.mp h2).choose_spec
  have hex : ∃ y, y < n ∧ ph.alt y = none ∧ ph.slack y < kmSentinel := by
    refine ⟨yu, hyun, hyualt, ?_⟩
    have h1 := hs.slack_unm yu hyun hyu
    have h2 := hyp.hsent
    omega
  obtain ⟨p1, p2, p3, p4, p5⟩ := pickMin_spec n ph hex
  have hsel := hs.slack_corr (pickMin n ph).2.2 p1 p2
  obtain ⟨hmem, heq, _⟩ := hsel
  refine ⟨p1, p2, p3, p4, p5, ?_, ?_⟩
  · have hmargin : 0 ≤ ph.lx (ph.slackx (pickMin n ph).2.2) + ph.ly (pickMin n ph).2.2 -
        w (ph.slackx (pickMin n ph).2.2) (pickMin n ph).2.2 := by
      have hxn := hs.s_lt _ hmem
      have := hs.feas _ hxn _ p1
      omega
    rw [← p3, heq]
    exact hmargin
  · rw [← p4]
    exact hmem

theorem phaseAfterAdjust_facts (n : Nat) (w : Nat → Nat → Int) (W : Int) (k : Nat)
    (st : KMState) (hyp : KMHyp n w W) (hg : GInv n w W k st) (hk : k < n) (ph : Phase)
    (hs : SInv n w W st k ph) :
    SInv n w W st k (phaseAfterAdjust n ph) ∧
      (phaseAfterAdjust n ph).alt = ph.alt ∧
      (phaseAfterAdjust n ph).slackx = ph.slackx ∧
      (phaseAfterAdjust n ph).s = ph.s ∧
      (phaseAfterAdjust n ph).slack (pickMin n ph).2.2 = 0 := by
  obtain ⟨p1, p2, p3, p4, p5, p6, p7⟩ := pick_facts n w W k st hyp hg hk ph hs
  unfold phaseAfterAdjust
  by_cases hd : 0 < (pickMin n ph).1
  · rw [if_pos hd]
    refine ⟨adjust_spec n w W k st hyp hg hk ph hs _ (le_of_lt hd) p5, rfl, rfl, rfl, ?_⟩
    show (if (ph.alt (pickMin n ph).2.2).isSome then ph.slack (pickMin n ph).2.2
      else ph.slack (pickMin n ph).2.2 - (pickMin n ph).1) = 0
    rw [if_neg (show ¬ (ph.alt (pickMin n ph).2.2).isSome = true by rw [p2] ; exact
      Bool.false_ne_true)]
    omega
  · rw [if_neg hd]
    refine ⟨hs, rfl, rfl, rfl, ?_⟩
    omega

theorem phaseAfterAlt_margin (n : Nat) (w : Nat → Nat → Int) (W : Int) (k : Nat)
    (st : KMState) (hyp : KMHyp n w W) (hg : GInv n w W k st) (hk : k < n) (ph : Phase)
    (hs : SInv n w W st k ph) :
    (phaseAfterAdjust n ph).lx (pickMin n ph).2.1 +
      (phaseAfterAdjust n ph).ly (pickMin n ph).2.2 =
      w (pickMin n ph).2.1 (pickMin n ph).2.2 := by
  obtain ⟨p1, p2, p3, p4, p5, p6, p7⟩ := pick_facts n w W k st hyp hg hk ph hs
  obtain ⟨hs1, halt, hslackx, hss, hzero⟩ := phaseAfterAdjust_facts n w W k st hyp hg hk ph hs
  have halt1 : (phaseAfterAdjust n ph).alt (pickMin n ph).2.2 = none := by rw [halt] ; exact p2
  obtain ⟨hmem1, heq1, _⟩ := hs1.slack_corr (pickMin n ph).2.2 p1 halt1
  have hsx : (phaseAfterAdjust n ph).slackx (pickMin n ph).2.2 = (pickMin n ph).2.1 := by
    rw [hslackx]
    exact p4
  rw [hsx] at heq1
  rw [hzero] at heq1
  omega

theorem phaseAfterAlt_break (n : Nat) (w : Nat → Nat → Int) (W : Int) (k : Nat)
    (st : KMState) (hyp : KMHyp n w W) (hg : GInv n w W k st) (hk : k < n) (ph : Phase)
    (hs : SInv n w W st k ph) (hyxsel : st.yx (pickMin n ph).2.2 = none) :
    SCore n w W st k (phaseAfterAlt n ph) ∧
      (phaseAfterAlt n ph).alt (pickMin n ph).2.2 = some (pickMin n ph).2.1 := by
  obtain ⟨p1, p2, p3, p4, p5, p6, p7⟩ := pick_facts n w W k st hyp hg hk ph hs
  obtain ⟨hs1, halt, hslackx, hss, hzero⟩ := phaseAfterAdjust_facts n w W k st hyp hg hk ph hs
  have hmargin := phaseAfterAlt_margin n w W k st hyp hg hk ph hs
  have haltsel : (phaseAfterAdjust n ph).alt (pickMin n ph).2.2 = none := by
    rw [halt]
    exact p2
  have haltdef : ∀ y, (phaseAfterAlt n ph).alt y =
      if y = (pickMin n ph).2.2 then some (pickMin n ph).2.1
      else (phaseAfterAdjust n ph).alt y := fun _ => rfl
  constructor
  · refine ⟨hs1.toSCore.feas, hs1.toSCore.tight, hs1.toSCore.lxW, hs1.toSCore.ly_unm,
      ?_, hs1.toSCore.slack_unm, ?_, ?_, hs1.toSCore.s_first, hs1.toSCore.s_nodup,
      hs1.toSCore.s_lt, ?_, ?_⟩
    · -- alt_lt
      intro y hy
      rw [haltdef y] at hy
      by_cases hysel : y = (pickMin n ph).2.2
      · rw [hysel]
        exact p1
      · rw [if_neg hysel] at hy
        exact hs1.toSCore.alt_lt y hy
    · -- slack_corr
      intro y hy hyalt
      rw [haltdef y] at hyalt
      by_cases hysel : y = (pickMin n ph).2.2
      · rw [if_pos hysel] at hyalt
        exact Option.noConfusion hyalt
      · rw [if_neg hysel] at hyalt
        exact hs1.toSCore.slack_corr y hy hyalt
    · -- alt_tight
      intro y x hyalt
      rw [haltdef y] at hyalt
      by_cases hysel : y = (pickMin n ph).2.2
      · rw [if_pos hysel] at hyalt
        have hx : x = (pickMin n ph).2.1 := (Option.some_injective _ hyalt).symm
        subst hx
        subst hysel
        constructor
        · show (pickMin n ph).2.1 ∈ (phaseAfterAdjust n ph).s
          rw [hss]
          exact p7
        · exact hmargin
      · rw [if_neg hysel] at hyalt
        exact hs1.toSCore.alt_tight y x hyalt
    · -- s_char
      intro x
      constructor
      · intro hx
        rcases (hs1.toSCore.s_char x).mp hx with h | ⟨y, hysome, hyx⟩
        · exact Or.inl h
        · right
          refine ⟨y, ?_, hyx⟩
          have hysel : y ≠ (pickMin n ph).2.2 := by
            intro hcon
            rw [hcon, haltsel] at hysome
            exact Option.noConfusion (Option.isSome_iff_exists.mp hysome).choose_spec
          rw [haltdef y, if_neg hysel]
          exact hysome
      · intro hx
        rcases hx with h | ⟨y, hysome, hyx⟩
        · exact (hs1.toSCore.s_char x).mpr (Or.inl h)
        · by_cases hysel : y = (pickMin n ph).2.2
          · rw [hysel, hyxsel] at hyx
            exact Option.noConfusion hyx
          · rw [haltdef y, if_neg hysel] at hysome
            exact (hs1.toSCore.s_char x).mpr (Or.inr ⟨y, hysome, hyx⟩)
    · -- s_tree
      intro j x hget
      obtain ⟨y, hxy, i, hij, xi, hgeti, hyalt⟩ := hs1.toSCore.s_tree j x hget
      refine ⟨y, hxy, i, hij, xi, hgeti, ?_⟩
      have hysel : y ≠ (pickMin n ph).2.2 := by
        intro hcon
        rw [hcon, haltsel] at hyalt
        exact Option.noConfusion hyalt
      rw [haltdef y, if_neg hysel]
      exact hyalt
  · rw [haltdef, if_pos rfl]

theorem phaseAfterInsert_spec (n : Nat) (w : Nat → Nat → Int) (W : Int) (k : Nat)
    (st : KMState) (hyp : KMHyp n w W) (hg : GInv n w W k st) (hk : k < n) (ph : Phase)
    (hs : SInv n w W st k ph) (xm : Nat)
    (hyxsel : st.yx (pickMin n ph).2.2 = some xm) :
    SInv n w W st k (phaseAfterInsert n w ph xm) ∧
      sizeAlt n (phaseAfterInsert n w ph xm) = sizeAlt n ph + 1 := by
  obtain ⟨p1, p2, p3, p4, p5, p6, p7⟩ := pick_facts n w W k st hyp hg hk ph hs
  obtain ⟨hs1, halt, hslackx, hss, hzero⟩ := phaseAfterAdjust_facts n w W k st hyp hg hk ph hs
  have hmargin := phaseAfterAlt_margin n w W k st hyp hg hk ph hs
  have hxmxy : st.xy xm = some (pickMin n ph).2.2 := hg.inv_rl xm _ hyxsel
  have hxm_lt : xm < n := (hg.xy_lt xm _ hxmxy).1
  have haltsel1 : (phaseAfterAdjust n ph).alt (pickMin n ph).2.2 = none := by
    rw [halt] ; exact p2
  have haltdef : ∀ y, (phaseAfterAlt n ph).alt y =
      if y = (pickMin n ph).2.2 then some (pickMin n ph).2.1
      else (phaseAfterAdjust n ph).alt y := fun _ => rfl
  have hs2eq : (phaseAfterAlt n ph).s = (phaseAfterAdjust n ph).s := rfl
  have hxm_notin : xm ∉ ph.s := by
    intro hin
    rcases (hs.s_char xm).mp hin with h | ⟨y2, hsome2, hyx2⟩
    · have hmi := hg.match_iff xm hxm_lt
      rw [hxmxy] at hmi
      have : xm < k := hmi.mp rfl
      omega
    · have h2 := hg.inv_rl xm y2 hyx2
      rw [hxmxy] at h2
      have heq : (pickMin n ph).2.2 = y2 := Option.some_injective _ h2
      rw [← heq] at hsome2
      rw [p2] at hsome2
      exact Option.noConfusion (Option.isSome_iff_exists.mp hsome2).choose_spec
  have hxm_notin2 : xm ∉ (phaseAfterAlt n ph).s := by
    rw [hs2eq, hss]
    exact hxm_notin
  have hsdef : (phaseAfterInsert n w ph xm).s = (phaseAfterAlt n ph).s ++ [xm] := by
    show (if xm ∈ (phaseAfterAlt n ph).s then (phaseAfterAlt n ph).s
      else (phaseAfterAlt n ph).s ++ [xm]) = _
    rw [if_neg hxm_notin2]
  have hmem3 : ∀ x, x ∈ (phaseAfterInsert n w ph xm).s ↔
      (x ∈ (phaseAfterAdjust n ph).s ∨ x = xm) := by
    intro x
    rw [hsdef]
    rw [List.mem_append]
    simp [hs2eq]
  have hslackdef : ∀ y, (phaseAfterInsert n w ph xm).slack y =
      if ((phaseAfterAlt n ph).alt y).isNone ∧
          (phaseAfterAdjust n ph).lx xm + (phaseAfterAdjust n ph).ly y - w xm y <
            (phaseAfterAdjust n ph).slack y
      then (phaseAfterAdjust n ph).lx xm + (phaseAfterAdjust n ph).ly y - w xm y
      else (phaseAfterAdjust n ph).slack y := fun _ => rfl
  have hslackxdef : ∀ y, (phaseAfterInsert n w ph xm).slackx y =
      if ((phaseAfterAlt n ph).alt y).isNone ∧
          (phaseAfterAdjust n ph).lx xm + (phaseAfterAdjust n ph).ly y - w xm y <
            (phaseAfterAdjust n ph).slack y
      then xm else (phaseAfterAdjust n ph).slackx y := fun _ => rfl
  have haltdef3 : ∀ y, (phaseAfterInsert n w ph xm).alt y = (phaseAfterAlt n ph).alt y :=
    fun _ => rfl
  have hlx3 : (phaseAfterInsert n w ph xm).lx = (phaseAfterAdjust n ph).lx := rfl
  have hly3 : (phaseAfterInsert n w ph xm).ly = (phaseAfterAdjust n ph).ly := rfl
  constructor
  · refine ⟨⟨hs1.toSCore.feas, hs1.toSCore.tight, hs1.toSCore.lxW, hs1.toSCore.ly_unm,
      ?_, ?_, ?_, ?_, ?_, ?_, ?_, ?_, ?_⟩, ?_⟩
    · -- alt_lt
      intro y hy
      rw [haltdef3 y, haltdef y] at hy
      by_cases hysel : y = (pickMin n ph).2.2
      · rw [hysel] ; exact p1
      · rw [if_neg hysel] at hy
        exact hs1.toSCore.alt_lt y hy
    · -- slack_unm
      intro y hy hyunm
      rw [hslackdef y]
      have hold := hs1.toSCore.slack_unm y hy hyunm
      by_cases hc : ((phaseAfterAlt n ph).alt y).isNone ∧
          (phaseAfterAdjust n ph).lx xm + (phaseAfterAdjust n ph).ly y - w xm y <
            (phaseAfterAdjust n ph).slack y
      · rw [if_pos hc]
        have := hc.2
        omega
      · rw [if_neg hc]
        exact hold
    · -- slack_corr
      intro y hy hyalt
      rw [haltdef3 y] at hyalt
      have hysel : y ≠ (pickMin n ph).2.2 := by
        intro hcon
        rw [haltdef y, if_pos hcon] at hyalt
        exact Option.noConfusion hyalt
      have hyalt1 : (phaseAfterAdjust n ph).alt y = none := by
        rw [haltdef y, if_neg hysel] at hyalt
        exact hyalt
      obtain ⟨homem, hoeq, homin⟩ := hs1.toSCore.slack_corr y hy hyalt1
      by_cases hc : ((phaseAfterAlt n ph).alt y).isNone ∧
          (phaseAfterAdjust n ph).lx xm + (phaseAfterAdjust n ph).ly y - w xm y <
            (phaseAfterAdjust n ph).slack y
      · refine ⟨?_, ?_, ?_⟩
        · rw [hslackxdef y, if_pos hc]
          exact (hmem3 xm).mpr (Or.inr rfl)
        · rw [hslackdef y, if_pos hc, hslackxdef y, if_pos hc, hlx3, hly3]
        · intro x hx3
          rw [hslackdef y, if_pos hc, hlx3, hly3]
          rcases (hmem3 x).mp hx3 with hxo | hxeq
          · have := homin x hxo
            have := hc.2
            omega
          · rw [hxeq]
      · refine ⟨?_, ?_, ?_⟩
        · rw [hslackxdef y, if_neg hc]
          exact (hmem3 _).mpr (Or.inl homem)
        · rw [hslackdef y, if_neg hc, hslackxdef y, if_neg hc, hlx3, hly3]
          exact hoeq
        · intro x hx3
          rw [hslackdef y, if_neg hc, hlx3, hly3]
          rcases (hmem3 x).mp hx3 with hxo | hxeq
          · exact homin x hxo
          · rw [hxeq]
            have hnone : ((phaseAfterAlt n ph).alt y).isNone := by
              rw [haltdef y, if_neg hysel, hyalt1]
              rfl
            have := not_and.mp hc hnone
            omega
    · -- alt_tight
      intro y x hyalt
      rw [haltdef3 y, haltdef y] at hyalt
      by_cases hysel : y = (pickMin n ph).2.2
      · rw [if_pos hysel] at hyalt
        have hx : x = (pickMin n ph).2.1 := (Option.some_injective _ hyalt).symm
        subst hx
        subst hysel
        constructor
        · apply (hmem3 _).mpr
          left
          rw [hss]
          exact p7
        · rw [hlx3, hly3]
          exact hmargin
      · rw [if_neg hysel] at hyalt
        obtain ⟨hm, ht⟩ := hs1.toSCore.alt_tight y x hyalt
        exact ⟨(hmem3 x).mpr (Or.inl hm), ht⟩
    · -- s_first
      rw [hsdef]
      have h1 := hs1.toSCore.s_first
      rcases hcase : (phaseAfterAdjust n ph).s with _ | ⟨h0, rest⟩
      · rw [hcase] at h1
        exact Option.noConfusion h1
      · rw [hs2eq, hcase]
        rw [hcase] at h1
        exact h1
    · -- s_nodup
      rw [hsdef]
      rw [List.nodup_append]
      refine ⟨hs1.toSCore.s_nodup, List.nodup_singleton xm, ?_⟩
      intro a ha hb
      rw [List.mem_singleton] at hb
      subst hb
      exact hxm_notin2 ha
    · -- s_lt
      intro x hx
      rcases (hmem3 x).mp hx with h | h
      · exact hs1.toSCore.s_lt x h
      · rw [h] ; exact hxm_lt
    · -- s_char
      intro x
      rw [hmem3 x]
      constructor
      · intro hx
        rcases hx with h | h
        · rcases (hs1.toSCore.s_char x).mp h with h2 | ⟨y, hysome, hyx⟩
          · exact Or.inl h2
          · right
            refine ⟨y, ?_, hyx⟩
            have hysel : y ≠ (pickMin n ph).2.2 := by
              intro hcon
              rw [hcon, haltsel1] at hysome
              exact Option.noConfusion (Option.isSome_iff_exists.mp hysome).choose_spec
            rw [haltdef3 y, haltdef y, if_neg hysel]
            exact hysome
        · right
          refine ⟨(pickMin n ph).2.2, ?_, by rw [h] ; exact hyxsel⟩
          rw [haltdef3 _, haltdef _, if_pos rfl]
          rfl
      · intro hx
        rcases hx with h | ⟨y, hysome, hyx⟩
        · exact Or.inl ((hs1.toSCore.s_char x).mpr (Or.inl h))
        · by_cases hysel : y = (pickMin n ph).2.2
          · right
            rw [hysel, hyxsel] at hyx
            exact (Option.some_injective _ hyx).symm
          · left
            rw [haltdef3 y, haltdef y, if_neg hysel] at hysome
            exact (hs1.toSCore.s_char x).mpr (Or.inr ⟨y, hysome, hyx⟩)
    · -- s_tree
      intro j x hget
      rw [hsdef, hs2eq] at hget
      have hlen : j + 1 < (phaseAfterAdjust n ph).s.length + 1 := by
        have := List.get?_eq_some.mp hget
        obtain ⟨hb, _⟩ := this
        rw [List.length_append] at hb
        simpa using hb
      by_cases hj : j + 1 < (phaseAfterAdjust n ph).s.length
      · rw [List.get?_append hj] at hget
        obtain ⟨y, hxy, i, hij, xi, hgeti, hyalt⟩ := hs1.toSCore.s_tree j x hget
        refine ⟨y, hxy, i, hij, xi, ?_, ?_⟩
        · rw [hsdef, hs2eq]
          rw [List.get?_append (by omega)]
          exact hgeti
        · have hysel : y ≠ (pickMin n ph).2.2 := by
            intro hcon
            rw [hcon, haltsel1] at hyalt
            exact Option.noConfusion hyalt
          rw [haltdef3 y, haltdef y, if_neg hysel]
          exact hyalt
      · have hjeq : j + 1 = (phaseAfterAdjust n ph).s.length := by omega
        rw [hjeq, List.get?_concat_length] at hget
        have hx : x = xm := (Option.some_injective _ hget).symm
        subst hx
        obtain ⟨i0, hi0⟩ := List.mem_iff_get?.mp p7
        have hi0lt : i0 < ph.s.length := by
          obtain ⟨hb, _⟩ := List.get?_eq_some.mp hi0
          exact hb
        have hslen : (phaseAfterAdjust n ph).s.length = ph.s.length := by rw [hss]
        refine ⟨(pickMin n ph).2.2, hxmxy, i0, by omega, (pickMin n ph).2.1, ?_, ?_⟩
        · rw [hsdef, hs2eq]
          rw [List.get?_append (by omega)]
          rw [hss]
          exact hi0
        · rw [haltdef3 _, haltdef _, if_pos rfl]
    · -- alt_matched
      intro y hy
      rw [haltdef3 y, haltdef y] at hy
      by_cases hysel : y = (pickMin n ph).2.2
      · rw [hysel, hyxsel]
        rfl
      · rw [if_neg hysel] at hy
        exact hs1.alt_matched y hy
  · -- sizeAlt
    unfold sizeAlt
    have hfilter : (Finset.range n).filter
        (fun y => ((phaseAfterInsert n w ph xm).alt y).isSome) =
        insert (pickMin n ph).2.2 ((Finset.range n).filter (fun y => (ph.alt y).isSome)) := by
      ext y
      simp only [Finset.mem_filter, Finset.mem_insert, Finset.mem_range]
      constructor
      · intro ⟨hyn, hysome⟩
        rw [haltdef3 y, haltdef y] at hysome
        by_cases hysel : y = (pickMin n ph).2.2
        · exact Or.inl hysel
        · right
          rw [if_neg hysel, halt] at hysome
          exact ⟨hyn, hysome⟩
      · intro h
        rcases h with h | ⟨hyn, hysome⟩
        · subst h
          refine ⟨p1, ?_⟩
          rw [haltdef3 _, haltdef _, if_pos rfl]
          rfl
        · refine ⟨hyn, ?_⟩
          have hysel : y ≠ (pickMin n ph).2.2 := by
            intro hcon
            rw [hcon, p2] at hysome
            exact Option.noConfusion (Option.isSome_iff_exists.mp hysome).choose_spec
          rw [haltdef3 y, haltdef y, if_neg hysel, halt]
          exact hysome
    rw [hfilter]
    rw [Finset.card_insert_of_not_mem]
    simp only [Finset.mem_filter, Finset.mem_range, not_and]
    intro _
    rw [p2]
    intro hcon
    exact Option.noConfusion (Option.isSome_iff_exists.mp hcon).choose_spec

theorem initPhase_SInv (n : Nat) (w : Nat → Nat → Int) (W : Int) (k : Nat) (st : KMState)
    (hyp : KMHyp n w W) (hg : GInv n w W k st) (hk : k < n) :
    SInv n w W st k (initPhase n w st k) := by
  refine ⟨⟨?_, ?_, ?_, ?_, ?_, ?_, ?_, ?_, ?_, ?_, ?_, ?_, ?_⟩, ?_⟩
  · intro x hx y hy
    exact hg.feas x hx y hy
  · intro x y h
    exact hg.tight x y h
  · intro x hx
    exact hg.lxW x hx
  · intro y h
    exact hg.ly0 y h
  · intro y hy
    simp [initPhase] at hy
  · intro y hy hyx
    show st.lx k + st.ly y - w k y ≤ 2 * W
    have h1 := hg.lxW k hk
    have h2 := hg.ly0 y hyx
    have h3 := abs_le.mp (hyp.hw k hk y hy)
    omega
  · intro y hy _
    refine ⟨List.mem_singleton_self k, rfl, ?_⟩
    intro x hx
    have hx2 : x ∈ [k] := hx
    rw [List.mem_singleton] at hx2
    subst hx2
    exact le_refl _
  · intro y x h
    simp [initPhase] at h
  · rfl
  · exact List.nodup_singleton k
  · intro x hx
    have hx2 : x ∈ [k] := hx
    rw [List.mem_singleton] at hx2
    subst hx2
    exact hk
  · intro x
    constructor
    · intro hx
      have hx2 : x ∈ [k] := hx
      rw [List.mem_singleton] at hx2
      exact Or.inl hx2
    · intro hx
      rcases hx with h | ⟨y, hsome, _⟩
      · rw [h] ; exact List.mem_singleton_self k
      · simp [initPhase] at hsome
  · intro j x h
    simp [initPhase, List.get?] at h
  · intro y hy
    simp [initPhase] at hy

theorem sizeAlt_initPhase (n : Nat) (w : Nat → Nat → Int) (st : KMState) (k : Nat) :
    sizeAlt n (initPhase n w st k) = 0 := by
  unfold sizeAlt
  rw [Finset.card_eq_zero]
  apply Finset.filter_false_of_mem
  intro y _
  simp [initPhase]

theorem flipLoop_none (alt : Nat → Option Nat) (fuel : Nat)
    (m : (Nat → Option Nat) × (Nat → Option Nat)) :
    flipLoop alt fuel m none = some m := by cases fuel <;> rfl

theorem flipLoop_step (alt : Nat → Option Nat) (fuel : Nat)
    (m : (Nat → Option Nat) × (Nat → Option Nat)) (y x : Nat) (h : alt y = some x) :
    flipLoop alt (fuel + 1) m (some y) =
      flipLoop alt fuel
        (fun x2 => if x2 = x then some y else m.1 x2,
         fun y2 => if y2 = y then some x else m.2 y2) (m.1 x) := by
  show (match alt y with
    | none => none
    | some x =>
      flipLoop alt fuel
        (fun x2 => if x2 = x then some y else m.1 x2,
         fun y2 => if y2 = y then some x else m.2 y2) (m.1 x)) = _
  rw [h]

theorem phaseLoop_spec (n : Nat) (w : Nat → Nat → Int) (W : Int) (k : Nat) (st : KMState)
    (hyp : KMHyp n w W) (hg : GInv n w W k st) (hk : k < n) :
    ∀ fuel ph, SInv n w W st k ph → k < sizeAlt n ph + fuel →
      ∃ ph2 yb, phaseLoop n w st.yx fuel ph = some (ph2, yb) ∧
        SCore n w W st k ph2 ∧ yb < n ∧ st.yx yb = none ∧
        ∃ xb, ph2.alt yb = some xb := by
  intro fuel
  induction fuel with
  | zero =>
    intro ph hs hcount
    exfalso
    have := sizeAlt_le n w W k st k ph hg (by omega) hs
    omega
  | succ fuel ih =>
    intro ph hs hcount
    have hstep : phaseLoop n w st.yx (fuel + 1) ph =
        if (iterOnce n w st.yx ph).2.2 then
          some ((iterOnce n w st.yx ph).1, (iterOnce n w st.yx ph).2.1)
        else phaseLoop n w st.yx fuel (iterOnce n w st.yx ph).1 := rfl
    obtain ⟨p1, p2, p3, p4, p5, p6, p7⟩ := pick_facts n w W k st hyp hg hk ph hs
    rcases hyx : st.yx (pickMin n ph).2.2 with _ | xm
    · have hiter : iterOnce n w st.yx ph =
          (phaseAfterAlt n ph, (pickMin n ph).2.2, true) := by
        unfold iterOnce
        rw [hyx]
      obtain ⟨hcore, halt⟩ := phaseAfterAlt_break n w W k st hyp hg hk ph hs hyx
      refine ⟨phaseAfterAlt n ph, (pickMin n ph).2.2, ?_, hcore, p1, hyx,
        (pickMin n ph).2.1, halt⟩
      rw [hstep, hiter]
      rfl
    · have hiter : iterOnce n w st.yx ph =
          (phaseAfterInsert n w ph xm, (pickMin n ph).2.2, false) := by
        unfold iterOnce
        rw [hyx]
      obtain ⟨hs2, hsz⟩ := phaseAfterInsert_spec n w W k st hyp hg hk ph hs xm hyx
      obtain ⟨ph2, yb, heq, hrest⟩ := ih (phaseAfterInsert n w ph xm) hs2 (by omega)
      refine ⟨ph2, yb, ?_, hrest⟩
      rw [hstep, hiter]
      exact heq

theorem flip_ind (n : Nat) (w : Nat → Nat → Int) (W : Int) (k : Nat) (st : KMState)
    (hg : GInv n w W k st) (hk : k < n) (ph : Phase)
    (hsc : SCore n w W st k ph) (yb : Nat) :
    ∀ j : Nat, ∀ y x fuel (m : (Nat → Option Nat) × (Nat → Option Nat)),
      ph.alt y = some x → ph.s.get? j = some x → j < fuel →
      (∀ a b, m.1 a = some b → m.2 b = some a) →
      (∀ b a, m.2 b = some a → b ≠ y → m.1 a = some b) →
      (∀ a b, m.1 a = some b → st.xy a = some b ∨ ph.alt b = some a) →
      (∀ a, a ≠ k → ((m.1 a).isSome ↔ (st.xy a).isSome)) →
      m.1 k = none →
      (∀ b, b ≠ yb → ((m.2 b).isSome ↔ (st.yx b).isSome)) →
      ((m.2 yb).isSome ∨ y = yb) →
      (∀ a b, m.1 a = some b → a < n ∧ b < n) →
      (∀ i a, i ≤ j → ph.s.get? i = some a → m.1 a = st.xy a) →
      (∀ a, m.1 a ≠ some y) →
      ((st.yx y).isSome ∨ y = yb) →
      ∃ m2, flipLoop ph.alt fuel m (some y) = some m2 ∧
        (∀ a b, m2.1 a = some b → m2.2 b = some a) ∧
        (∀ b a, m2.2 b = some a → m2.1 a = some b) ∧
        (∀ a b, m2.1 a = some b → st.xy a = some b ∨ ph.alt b = some a) ∧
        (∀ a, a ≠ k → ((m2.1 a).isSome ↔ (st.xy a).isSome)) ∧
        (m2.1 k).isSome ∧
        (∀ b, b ≠ yb → ((m2.2 b).isSome ↔ (st.yx b).isSome)) ∧
        (m2.2 yb).isSome ∧
        (∀ a b, m2.1 a = some b → a < n ∧ b < n) := by
  intro j
  induction j using Nat.strong_induction_on with
  | _ j ihs =>
  intro y x fuel m halt hget hfuel q1 q2 q3 q4 q5 q6 q7 q8 q9 q10 q11
  rcases fuel with _ | fuel
  · omega
  have hmx : m.1 x = st.xy x := q9 j x (le_refl j) hget
  rw [flipLoop_step ph.alt fuel m y x halt]
  rcases j with _ | j
  · -- x is the root: the predecessor is None, the flip terminates here
    have h0 : ph.s.get? 0 = some k := by
      rw [List.get?_zero]
      exact hsc.s_first
    have hxk : x = k := by
      rw [h0] at hget
      exact (Option.some_injective _ hget).symm
    have hprec : m.1 x = none := by rw [hxk] ; exact q5
    rw [hprec, flipLoop_none]
    have hc1 : ∀ a b, (if a = x then some y else m.1 a) = some b →
        (if b = y then some x else m.2 b) = some a := by
      intro a b hab
      by_cases hax : a = x
      · rw [if_pos hax] at hab
        have hb : b = y := (Option.some_injective _ hab).symm
        rw [if_pos hb]
        exact congrArg some hax.symm
      · rw [if_neg hax] at hab
        have hbny : b ≠ y := by
          intro hcon
          exact q10 a (by rw [← hcon] ; exact hab)
        rw [if_neg hbny]
        exact q1 a b hab
    have hc2 : ∀ b a, (if b = y then some x else m.2 b) = some a →
        (if a = x then some y else m.1 a) = some b := by
      intro b a hba
      by_cases hby : b = y
      · rw [if_pos hby] at hba
        have ha : x = a := Option.some_injective _ hba
        rw [if_pos ha.symm]
        exact congrArg some hby.symm
      · rw [if_neg hby] at hba
        have h2 := q2 b a hba hby
        have hax : a ≠ x := by
          intro hcon
          rw [hcon, hmx, hxk] at h2
          have hnone : st.xy k = none := by
            rcases hv : st.xy k with _ | y0
            · rfl
            · exfalso
              have := (hg.match_iff k hk).mp (by rw [hv] ; rfl)
              omega
          rw [hnone] at h2
          exact Option.noConfusion h2
        rw [if_neg hax]
        exact h2
    have hc3 : ∀ a b, (if a = x then some y else m.1 a) = some b →
        st.xy a = some b ∨ ph.alt b = some a := by
      intro a b hab
      by_cases hax : a = x
      · rw [if_pos hax] at hab
        have hb : b = y := (Option.some_injective _ hab).symm
        right
        rw [hb, hax]
        exact halt
      · rw [if_neg hax] at hab
        exact q3 a b hab
    have hc4 : ∀ a, a ≠ k →
        ((if a = x then some y else m.1 a).isSome ↔ (st.xy a).isSome) := by
      intro a hank
      have hax : a ≠ x := by rw [hxk] ; exact hank
      rw [if_neg hax]
      exact q4 a hank
    have hc5 : (if k = x then some y else m.1 k).isSome := by
      rw [if_pos hxk.symm]
      rfl
    have hc6 : ∀ b, b ≠ yb →
        ((if b = y then some x else m.2 b).isSome ↔ (st.yx b).isSome) := by
      intro b hbyb
      by_cases hby : b = y
      · rw [if_pos hby]
        rcases q11 with hq | hq
        · rw [hby]
          simp [hq]
        · exact absurd (hby.trans hq) hbyb
      · rw [if_neg hby]
        exact q6 b hbyb
    have hc7 : (if yb = y then some x else m.2 yb).isSome := by
      by_cases hyyb : yb = y
      · rw [if_pos hyyb]
        rfl
      · rw [if_neg hyyb]
        rcases q7 with hq | hq
        · exact hq
        · exact absurd hq.symm hyyb
    have hc8 : ∀ a b, (if a = x then some y else m.1 a) = some b → a < n ∧ b < n := by
      intro a b hab
      by_cases hax : a = x
      · rw [if_pos hax] at hab
        have hb : b = y := (Option.some_injective _ hab).symm
        refine ⟨by rw [hax, hxk] ; exact hk, ?_⟩
        rw [hb]
        exact hsc.alt_lt y (by rw [halt] ; rfl)
      · rw [if_neg hax] at hab
        exact q8 a b hab
    exact ⟨(fun x2 => if x2 = x then some y else m.1 x2,
      fun y2 => if y2 = y then some x else m.2 y2), rfl,
      hc1, hc2, hc3, hc4, hc5, hc6, hc7, hc8⟩
  · -- x is deeper in the tree: step to the old partner of x and recurse
    have hmem_x : x ∈ ph.s := List.get?_mem hget
    obtain ⟨y2, hxy2, i, hij, xi, hgeti, halty2⟩ := hsc.s_tree j x hget
    have hyx_y2 : st.yx y2 = some x := hg.inv_lr x y2 hxy2
    obtain ⟨hlenj, _⟩ := List.get?_eq_some.mp hget
    obtain ⟨hleni, _⟩ := List.get?_eq_some.mp hgeti
    have hxi_ne : xi ≠ x := by
      intro hcon
      rw [hcon] at hgeti
      have := List.get?_inj hleni hsc.s_nodup (hgeti.trans hget.symm)
      omega
    have hxk_ne : x ≠ k := by
      intro hcon
      have h0 : ph.s.get? 0 = some k := by
        rw [List.get?_zero]
        exact hsc.s_first
      rw [hcon] at hget
      have := List.get?_inj (by omega : 0 < ph.s.length) hsc.s_nodup (h0.trans hget.symm)
      omega
    have hy2_ne_y : y2 ≠ y := by
      intro hcon
      rw [hcon] at halty2
      rw [halt] at halty2
      exact hxi_ne (Option.some_injective _ halty2.symm)
    have hq1 : ∀ a b, (if a = x then some y else m.1 a) = some b →
        (if b = y then some x else m.2 b) = some a := by
      intro a b hab
      by_cases hax : a = x
      · rw [if_pos hax] at hab
        have hb : b = y := (Option.some_injective _ hab).symm
        rw [if_pos hb]
        exact congrArg some hax.symm
      · rw [if_neg hax] at hab
        have hbny : b ≠ y := by
          intro hcon
          exact q10 a (by rw [← hcon] ; exact hab)
        rw [if_neg hbny]
        exact q1 a b hab
    have hq2 : ∀ b a, (if b = y then some x else m.2 b) = some a → b ≠ y2 →
        (if a = x then some y else m.1 a) = some b := by
      intro b a hba hbny2
      by_cases hby : b = y
      · rw [if_pos hby] at hba
        have ha : x = a := Option.some_injective _ hba
        rw [if_pos ha.symm]
        exact congrArg some hby.symm
      · rw [if_neg hby] at hba
        have h2 := q2 b a hba hby
        have hax : a ≠ x := by
          intro hcon
          rw [hcon, hmx, hxy2] at h2
          exact hbny2 (Option.some_injective _ h2).symm
        rw [if_neg hax]
        exact h2
    have hq3 : ∀ a b, (if a = x then some y else m.1 a) = some b →
        st.xy a = some b ∨ ph.alt b = some a := by
      intro a b hab
      by_cases hax : a = x
      · rw [if_pos hax] at hab
        have hb : b = y := (Option.some_injective _ hab).symm
        right
        rw [hb, hax]
        exact halt
      · rw [if_neg hax] at hab
        exact q3 a b hab
    have hq4 : ∀ a, a ≠ k → ((if a = x then some y else m.1 a).isSome ↔ (st.xy a).isSome) := by
      intro a hank
      by_cases hax : a = x
      · rw [if_pos hax, hax, hxy2]
        simp
      · rw [if_neg hax]
        exact q4 a hank
    have hq5 : (if k = x then some y else m.1 k) = none := by
      rw [if_neg (fun hcon => hxk_ne hcon.symm)]
      exact q5
    have hq6 : ∀ b, b ≠ yb →
        ((if b = y then some x else m.2 b).isSome ↔ (st.yx b).isSome) := by
      intro b hbyb
      by_cases hby : b = y
      · rw [if_pos hby]
        rcases q11 with hq | hq
        · rw [hby]
          simp [hq]
        · exact absurd (hby.trans hq) hbyb
      · rw [if_neg hby]
        exact q6 b hbyb
    have hq7 : (if yb = y then some x else m.2 yb).isSome ∨ y2 = yb := by
      left
      by_cases hyyb : yb = y
      · rw [if_pos hyyb]
        rfl
      · rw [if_neg hyyb]
        rcases q7 with hq | hq
        · exact hq
        · exact absurd hq.symm hyyb
    have hq8 : ∀ a b, (if a = x then some y else m.1 a) = some b → a < n ∧ b < n := by
      intro a b hab
      by_cases hax : a = x
      · rw [if_pos hax] at hab
        have hb : b = y := (Option.some_injective _ hab).symm
        refine ⟨by rw [hax] ; exact hsc.s_lt x hmem_x, ?_⟩
        rw [hb]
        exact hsc.alt_lt y (by rw [halt] ; rfl)
      · rw [if_neg hax] at hab
        exact q8 a b hab
    have hq9 : ∀ i2 a, i2 ≤ i → ph.s.get? i2 = some a →
        (if a = x then some y else m.1 a) = st.xy a := by
      intro i2 a hi2 hgeta
      obtain ⟨hlen2, _⟩ := List.get?_eq_some.mp hgeta
      have hax : a ≠ x := by
        intro hcon
        rw [hcon] at hgeta
        have := List.get?_inj hlen2 hsc.s_nodup (hgeta.trans hget.symm)
        omega
      rw [if_neg hax]
      exact q9 i2 a (by omega) hgeta
    have hq10 : ∀ a, (if a = x then some y else m.1 a) ≠ some y2 := by
      intro a hcon
      by_cases hax : a = x
      · rw [if_pos hax] at hcon
        exact hy2_ne_y (Option.some_injective _ hcon).symm
      · rw [if_neg hax] at hcon
        rcases q3 a y2 hcon with h2 | h2
        · have := hg.inv_lr a y2 h2
          rw [hyx_y2] at this
          exact hax (Option.some_injective _ this.symm)
        · rw [halty2] at h2
          have hax2 : xi = a := Option.some_injective _ h2
          have h3 := q9 i xi (by omega) hgeti
          rw [hax2, hcon] at h3
          have := hg.inv_lr a y2 h3.symm
          rw [hyx_y2] at this
          have : x = a := Option.some_injective _ this
          exact hax this.symm
    have hq11 : (st.yx y2).isSome ∨ y2 = yb := by
      left
      rw [hyx_y2]
      rfl
    obtain ⟨m2, heq2, hc⟩ := ihs i (by omega) y2 xi fuel
      (fun x2 => if x2 = x then some y else m.1 x2,
       fun y2' => if y2' = y then some x else m.2 y2')
      halty2 hgeti (by omega) hq1 hq2 hq3 hq4 hq5 hq6 hq7 hq8 hq9 hq10 hq11
    refine ⟨m2, ?_, hc⟩
    rw [hmx, hxy2]
    exact heq2

theorem runPhase_ok (n : Nat) (w : Nat → Nat → Int) (W : Int) (k : Nat) (st : KMState)
    (hyp : KMHyp n w W) (hg : GInv n w W k st) (hk : k < n) :
    ∃ st2, runPhase n w st k = some st2 ∧ GInv n w W (k + 1) st2 := by
  have hsinit := initPhase_SInv n w W k st hyp hg hk
  obtain ⟨ph2, yb, hploop, hcore, hybn, hybnone, xb, halt⟩ :=
    phaseLoop_spec n w W k st hyp hg hk (n + 1) (initPhase n w st k) hsinit
      (by rw [sizeAlt_initPhase] ; omega)
  have hxbmem : xb ∈ ph2.s := (hcore.alt_tight yb xb halt).1
  obtain ⟨j, hget⟩ := List.mem_iff_get?.mp hxbmem
  have hlen : ph2.s.length ≤ n := by
    have hsub : ph2.s ⊆ List.range n := fun x hx => List.mem_range.mpr (hcore.s_lt x hx)
    have := List.Subperm.length_le (List.subperm_of_subset hcore.s_nodup hsub)
    simpa using this
  obtain ⟨hjlt, _⟩ := List.get?_eq_some.mp hget
  have hxyk : st.xy k = none := by
    rcases hv : st.xy k with _ | y0
    · rfl
    · exfalso
      have := (hg.match_iff k hk).mp (by rw [hv] ; rfl)
      omega
  obtain ⟨m2, hflip, c1, c2, c3, c4, c5, c6, c7, c8⟩ :=
    flip_ind n w W k st hg hk ph2 hcore yb j yb xb (n + 1) (st.xy, st.yx) halt hget
      (by omega)
      (fun a b h => hg.inv_lr a b h)
      (fun b a h _ => hg.inv_rl a b h)
      (fun a b h => Or.inl h)
      (fun a _ => Iff.rfl)
      hxyk
      (fun b _ => Iff.rfl)
      (Or.inr rfl)
      (fun a b h => hg.xy_lt a b h)
      (fun i a _ _ => rfl)
      (fun a hcon => by
        have := hg.inv_lr a yb hcon
        rw [hybnone] at this
        exact Option.noConfusion this)
      (Or.inr rfl)
  refine ⟨{ xy := m2.1, yx := m2.2, lx := ph2.lx, ly := ph2.ly }, ?_, ?_⟩
  · unfold runPhase
    rw [hploop]
    show (match flipLoop ph2.alt (n + 1) (st.xy, st.yx) (some yb) with
      | none => none
      | some m => some ({ xy := m.1, yx := m.2, lx := ph2.lx, ly := ph2.ly } : KMState)) =
      some { xy := m2.1, yx := m2.2, lx := ph2.lx, ly := ph2.ly }
    rw [hflip]
  · refine ⟨?_, fun x y h => c1 x y h, fun x y h => c2 y x h, fun x y h => c8 x y h,
      hcore.feas, ?_, ?_, hcore.lxW⟩
    · intro x hx
      show (m2.1 x).isSome ↔ x < k + 1
      by_cases hxk2 : x = k
      · subst hxk2
        exact ⟨fun _ => by omega, fun _ => c5⟩
      · rw [c4 x hxk2, hg.match_iff x hx]
        omega
    · intro x y h
      rcases c3 x y h with h2 | h2
      · exact hcore.tight x y h2
      · exact (hcore.alt_tight y x h2).2
    · intro y h
      have h2 : m2.2 y = none := h
      show ph2.ly y = 0
      by_cases hyyb : y = yb
      · subst hyyb
        rw [h2] at c7
        simp at c7
      · have h6 := c6 y hyyb
        rw [h2] at h6
        have : st.yx y = none := by
          rcases hv : st.yx y with _ | x0
          · rfl
          · exfalso
            have h7 := h6.mpr (by rw [hv] ; rfl)
            simp at h7
        exact hcore.ly_unm y this

theorem kmRounds_ok (n : Nat) (w : Nat → Nat → Int) (W : Int) (hyp : KMHyp n w W) :
    ∀ k, k ≤ n → ∃ st, kmRounds n w k = some st ∧ GInv n w W k st := by
  intro k
  induction k with
  | zero =>
    intro _
    exact ⟨initKM n w, rfl, ginv_init n w W hyp⟩
  | succ k ih =>
    intro hk
    obtain ⟨st, heq, hg⟩ := ih (by omega)
    obtain ⟨st2, heq2, hg2⟩ := runPhase_ok n w W k st hyp hg (by omega)
    refine ⟨st2, ?_, hg2⟩
    show (match kmRounds n w k with
      | none => none
      | some st => runPhase n w st k) = some st2
    rw [heq]
    show runPhase n w st k = some st2
    exact heq2

theorem kmFinal_xy_some (n : Nat) (w : Nat → Nat → Int) (W : Int) (st : KMState)
    (hg : GInv n w W n st) : ∀ x, x < n → ∃ y, y < n ∧ st.xy x = some y := by
  intro x hx
  have hsome := (hg.match_iff x hx).mpr hx
  obtain ⟨y, hy⟩ := Option.isSome_iff_exists.mp hsome
  exact ⟨y, (hg.xy_lt x y hy).2, hy⟩

theorem kmFinal_bijOn (n : Nat) (w : Nat → Nat → Int) (W : Int) (st : KMState)
    (hg : GInv n w W n st) :
    Set.BijOn (kmAssign st) (Set.Iio n) (Set.Iio n) := by
  refine ⟨?_, ?_, ?_⟩
  · intro x hx
    obtain ⟨y, hyn, hy⟩ := kmFinal_xy_some n w W st hg x hx
    show kmAssign st x < n
    unfold kmAssign
    rw [hy]
    exact hyn
  · intro x1 hx1 x2 hx2 heq
    obtain ⟨y1, _, hy1⟩ := kmFinal_xy_some n w W st hg x1 hx1
    obtain ⟨y2, _, hy2⟩ := kmFinal_xy_some n w W st hg x2 hx2
    unfold kmAssign at heq
    rw [hy1, hy2] at heq
    simp only [Option.getD_some] at heq
    subst heq
    have e1 := hg.inv_lr x1 y1 hy1
    have e2 := hg.inv_lr x2 y1 hy2
    rw [e1] at e2
    exact Option.some_injective _ e2
  · intro y hy
    have hy' : y < n := hy
    have hcard := matchedY_card n w W n st hg (le_refl n)
    have hall : (Finset.range n).filter (fun y2 => (st.yx y2).isSome) = Finset.range n := by
      apply Finset.eq_of_subset_of_card_le (Finset.filter_subset _ _)
      rw [hcard]
      simp
    have hmem : y ∈ (Finset.range n).filter (fun y2 => (st.yx y2).isSome) := by
      rw [hall]
      exact Finset.mem_range.mpr hy'
    have hsome := (Finset.mem_filter.mp hmem).2
    obtain ⟨x, hx⟩ := Option.isSome_iff_exists.mp hsome
    have hxy := hg.inv_rl x y hx
    have hxn := (hg.xy_lt x y hxy).1
    refine ⟨x, hxn, ?_⟩
    show kmAssign st x = y
    unfold kmAssign
    rw [hxy]
    rfl

theorem kmFinal_sum_ly (n : Nat) (w : Nat → Nat → Int) (W : Int) (st : KMState)
    (hg : GInv n w W n st) (f : Nat → Nat) (hf : Set.BijOn f (Set.Iio n) (Set.Iio n)) :
    ∑ x ∈ Finset.range n, st.ly (f x) = ∑ y ∈ Finset.range n, st.ly y := by
  apply Finset.sum_bij (fun x _ => f x)
  · intro a ha
    exact Finset.mem_range.mpr (hf.mapsTo (Finset.mem_range.mp ha))
  · intro a1 ha1 a2 ha2 heq
    exact hf.injOn (Finset.mem_range.mp ha1) (Finset.mem_range.mp ha2) heq
  · intro b hb
    obtain ⟨a, han, ha⟩ := hf.surjOn (Finset.mem_range.mp hb)
    exact ⟨a, Finset.mem_range.mpr han, ha⟩
  · intro a _
    rfl

theorem kmFinal_total (n : Nat) (w : Nat → Nat → Int) (W : Int) (st : KMState)
    (hg : GInv n w W n st) :
    ∑ x ∈ Finset.range n, w x (kmAssign st x) = kmTotal n st := by
  have htight : ∀ x ∈ Finset.range n, w x (kmAssign st x) = st.lx x + st.ly (kmAssign st x) := by
    intro x hx
    obtain ⟨y, _, hy⟩ := kmFinal_xy_some n w W st hg x (Finset.mem_range.mp hx)
    have := hg.tight x y hy
    unfold kmAssign
    rw [hy]
    simp only [Option.getD_some]
    omega
  rw [Finset.sum_congr rfl htight, Finset.sum_add_distrib]
  unfold kmTotal
  rw [kmFinal_sum_ly n w W st hg (kmAssign st) (kmFinal_bijOn n w W st hg)]

theorem kmFinal_optimal (n : Nat) (w : Nat → Nat → Int) (W : Int) (st : KMState)
    (hg : GInv n w W n st) (f : Nat → Nat) (hf : Set.BijOn f (Set.Iio n) (Set.Iio n)) :
    ∑ x ∈ Finset.range n, w x (f x) ≤ ∑ x ∈ Finset.range n, w x (kmAssign st x) := by
  have hle : ∑ x ∈ Finset.range n, w x (f x) ≤
      ∑ x ∈ Finset.range n, (st.lx x + st.ly (f x)) := by
    apply Finset.sum_le_sum
    intro x hx
    exact hg.feas x (Finset.mem_range.mp hx) (f x) (hf.mapsTo (Finset.mem_range.mp hx))
  rw [Finset.sum_add_distrib, kmFinal_sum_ly n w W st hg f hf] at hle
  rw [kmFinal_total n w W st hg]
  exact hle

/-! ### The weight matrix of `process_optimal` (`ImgDiffWeights::at`,
`src/app/calculate/mod.rs:118`) -/

/-- `ImgDiffWeights::at(row, col) = -heuristic(rowPos, colPos, target[row],
source[col], weights[row], proximity_importance)` with positions decoded by
`% sidelen` / `/ sidelen`. -/
def imgDiffAt (sidelen : Nat) (target source : Nat → Rgb) (weights : Nat → Int)
    (prox : Int) (row col : Nat) : Int :=
  - heuristic ⟨((row % sidelen : Nat) : Int), ((row / sidelen : Nat) : Int)⟩
      ⟨((col % sidelen : Nat) : Int), ((col / sidelen : Nat) : Int)⟩
      (target row) (source col) (weights row) prox

/-- Ranges under which the weight matrix is exact (no `i64` overflow):
grid side in `[1, 256]`, `u8` colours, `u8` per-cell weights, proximity
importance in `[0, 10000]`. -/
structure OptEnvOk (sidelen : Nat) (target source : Nat → Rgb) (weights : Nat → Int)
    (prox : Int) : Prop where
  hs1 : 1 ≤ sidelen
  hs256 : sidelen ≤ 256
  htgt : ∀ i, (target i).InRange
  hsrc : ∀ i, (source i).InRange
  hwt : ∀ i, 0 ≤ weights i ∧ weights i ≤ 255
  hprox : 0 ≤ prox ∧ prox ≤ 10000

/-- The index-decoded position of a cell of an `S × S` grid is in the grid. -/
theorem decodePos_inGrid (sidelen i : Nat) (hs1 : 1 ≤ sidelen) (hs256 : sidelen ≤ 256)
    (hi : i < sidelen * sidelen) :
    (⟨((i % sidelen : Nat) : Int), ((i / sidelen : Nat) : Int)⟩ : Pos).InGrid := by
  have h1 : i % sidelen < sidelen := Nat.mod_lt i (by omega)
  have h2 : i / sidelen < sidelen := Nat.div_lt_of_lt_mul hi
  refine ⟨by positivity, ?_, by positivity, ?_⟩
  · show ((i % sidelen : Nat) : Int) < 256
    have : i % sidelen < 256 := by omega
    exact_mod_cast this
  · show ((i / sidelen : Nat) : Int) < 256
    have : i / sidelen < 256 := by omega
    exact_mod_cast this

/-- Over the valid ranges the weight entry is the exact negated cost formula. -/
theorem imgDiffAt_eq_spec (sidelen : Nat) (target source : Nat → Rgb)
    (weights : Nat → Int) (prox : Int)
    (hok : OptEnvOk sidelen target source weights prox) (row col : Nat)
    (hrow : row < sidelen * sidelen) (hcol : col < sidelen * sidelen) :
    imgDiffAt sidelen target source weights prox row col =
      - heuristicSpec ⟨((row % sidelen : Nat) : Int), ((row / sidelen : Nat) : Int)⟩
        ⟨((col % sidelen : Nat) : Int), ((col / sidelen : Nat) : Int)⟩
        (target row) (source col) (weights row) prox := by
  unfold imgDiffAt
  rw [heuristic_eq_spec_of_inRange _ _ _ _ _ _
    (decodePos_inGrid sidelen row hok.hs1 hok.hs256 hrow)
    (decodePos_inGrid sidelen col hok.hs1 hok.hs256 hcol)
    (hok.htgt row) (hok.hsrc col) (hok.hwt row) hok.hprox]

/-- The weight bound used for sentinel safety. -/
def kmWBound : Int := 1691300250049744125

/-- Over in-range features the cost formula is bounded by `kmWBound`. -/
theorem heuristicSpec_le_bound (apos bpos : Pos) (a b : Rgb) (cw sw : Int)
    (hap : apos.InGrid) (hbp : bpos.InGrid) (ha : a.InRange) (hb : b.InRange)
    (hcw : 0 ≤ cw ∧ cw ≤ 255) (hsw : 0 ≤ sw ∧ sw ≤ 10000) :
    heuristicSpec apos bpos a b cw sw ≤ kmWBound := by
  obtain ⟨hax, hax', hay, hay'⟩ := hap
  obtain ⟨hbx, hbx', hby, hby'⟩ := hbp
  obtain ⟨⟨har, har'⟩, ⟨hag, hag'⟩, ⟨hab, hab'⟩⟩ := ha
  obtain ⟨⟨hbr, hbr'⟩, ⟨hbg, hbg'⟩, ⟨hbb, hbb'⟩⟩ := hb
  obtain ⟨hcw0, hcw1⟩ := hcw
  obtain ⟨hsw0, hsw1⟩ := hsw
  have sqx : (apos.x - bpos.x) ^ 2 ≤ 255 * 255 := by
    rw [pow_two]
    exact mul_self_le_of_bounds (by linarith) (by linarith)
  have sqy : (apos.y - bpos.y) ^ 2 ≤ 255 * 255 := by
    rw [pow_two]
    exact mul_self_le_of_bounds (by linarith) (by linarith)
  have sqr : (a.r - b.r) ^ 2 ≤ 255 * 255 := by
    rw [pow_two]
    exact mul_self_le_of_bounds (by linarith) (by linarith)
  have sqg : (a.g - b.g) ^ 2 ≤ 255 * 255 := by
    rw [pow_two]
    exact mul_self_le_of_bounds (by linarith) (by linarith)
  have sqb : (a.b - b.b) ^ 2 ≤ 255 * 255 := by
    rw [pow_two]
    exact mul_self_le_of_bounds (by linarith) (by linarith)
  have sqx0 : 0 ≤ (apos.x - bpos.x) ^ 2 := sq_nonneg _
  have sqy0 : 0 ≤ (apos.y - bpos.y) ^ 2 := sq_nonneg _
  have sqr0 : 0 ≤ (a.r - b.r) ^ 2 := sq_nonneg _
  have sqg0 : 0 ≤ (a.g - b.g) ^ 2 := sq_nonneg _
  have sqb0 : 0 ≤ (a.b - b.b) ^ 2 := sq_nonneg _
  unfold heuristicSpec
  have hco1 : (a.r - b.r) ^ 2 + (a.g - b.g) ^ 2 + (a.b - b.b) ^ 2 ≤ 195075 := by linarith
  have hco0 : 0 ≤ (a.r - b.r) ^ 2 + (a.g - b.g) ^ 2 + (a.b - b.b) ^ 2 := by linarith
  have hsp1 : (apos.x - bpos.x) ^ 2 + (apos.y - bpos.y) ^ 2 ≤ 130050 := by linarith
  have hsp0 : 0 ≤ (apos.x - bpos.x) ^ 2 + (apos.y - bpos.y) ^ 2 := by linarith
  have h1 : ((a.r - b.r) ^ 2 + (a.g - b.g) ^ 2 + (a.b - b.b) ^ 2) * cw ≤ 195075 * 255 :=
    mul_le_mul hco1 hcw1 hcw0 (by norm_num)
  have hm0 : 0 ≤ ((apos.x - bpos.x) ^ 2 + (apos.y - bpos.y) ^ 2) * sw :=
    mul_nonneg hsp0 hsw0
  have hm1 : ((apos.x - bpos.x) ^ 2 + (apos.y - bpos.y) ^ 2) * sw ≤ 1300500000 :=
    le_trans (mul_le_mul hsp1 hsw1 hsw0 (by norm_num)) (by norm_num)
  have h2 : (((apos.x - bpos.x) ^ 2 + (apos.y - bpos.y) ^ 2) * sw) ^ 2 ≤
      1300500000 ^ 2 := pow_le_pow_left hm0 hm1 2
  unfold kmWBound
  have : (1300500000 : Int) ^ 2 = 1691300250000000000 := by norm_num
  omega

/-- The environment ranges give the standing `KMHyp` for the real weight matrix. -/
theorem imgDiffAt_hyp (sidelen : Nat) (target source : Nat → Rgb)
    (weights : Nat → Int) (prox : Int)
    (hok : OptEnvOk sidelen target source weights prox) :
    KMHyp (sidelen * sidelen) (imgDiffAt sidelen target source weights prox) kmWBound := by
  refine ⟨?_, by unfold kmWBound ; norm_num, ?_, ?_⟩
  · have := hok.hs1
    exact Nat.one_le_iff_ne_zero.mpr (by positivity)
  · intro x hx y hy
    rw [imgDiffAt_eq_spec sidelen target source weights prox hok x y hx hy]
    rw [abs_neg, abs_of_nonneg (heuristicSpec_nonneg _ _ _ _ _ _ (hok.hwt x).1)]
    exact heuristicSpec_le_bound _ _ _ _ _ _
      (decodePos_inGrid sidelen x hok.hs1 hok.hs256 hx)
      (decodePos_inGrid sidelen y hok.hs1 hok.hs256 hy)
      (hok.htgt x) (hok.hsrc y) (hok.hwt x) hok.hprox
  · unfold kmWBound kmSentinel
    norm_num

/-! ### The root loop: completion, messages, and cancellation -/

theorem optRoots_clean (n : Nat) (w : Nat → Nat → Int) (W : Int)
    (cancel : Nat → Bool) (hyp : KMHyp n w W) :
    ∀ k, k ≤ n → (∀ j, j < k → j % 100 = 0 → cancel j = false) →
      ∃ st msgs, optRoots n w cancel k = some (st, msgs, false) ∧
        kmRounds n w k = some st ∧
        KMMsg.cancelled ∉ msgs ∧ KMMsg.done ∉ msgs := by
  intro k
  induction k with
  | zero =>
    intro _ _
    exact ⟨initKM n w, [], rfl, rfl, by simp, by simp⟩
  | succ k ih =>
    intro hk hc
    obtain ⟨st, msgs, ho, hr, hnc, hnd⟩ := ih (by omega)
      (fun j hj hj100 => hc j (by omega) hj100)
    obtain ⟨st0, hr0, hg0⟩ := kmRounds_ok n w W hyp k (by omega)
    rw [hr] at hr0
    have hst0 : st0 = st := Option.some_injective _ hr0.symm
    obtain ⟨st2, hrp, hg2⟩ := runPhase_ok n w W k st hyp (hst0 ▸ hg0) (by omega)
    have hkr2 : kmRounds n w (k + 1) = some st2 := by
      show (match kmRounds n w k with
        | none => none
        | some st => runPhase n w st k) = some st2
      rw [hr]
      show runPhase n w st k = some st2
      exact hrp
    have hstep : optRoots n w cancel (k + 1) =
        match optRoots n w cancel k with
        | none => none
        | some (st, msgs, true) => some (st, msgs, true)
        | some (st, msgs, false) =>
          match runPhase n w st k with
          | none => none
          | some st2 =>
            if k % 100 = 0 then
              if cancel k then some (st2, msgs ++ [KMMsg.cancelled], true)
              else some (st2, msgs ++ [KMMsg.progress k n, KMMsg.updatePreview], false)
            else some (st2, msgs, false) := rfl
    by_cases h100 : k % 100 = 0
    · have hck : cancel k = false := hc k (by omega) h100
      refine ⟨st2, msgs ++ [KMMsg.progress k n, KMMsg.updatePreview], ?_, hkr2, ?_, ?_⟩
      · rw [hstep, ho]
        show (match runPhase n w st k with
          | none => none
          | some st2 =>
            if k % 100 = 0 then
              if cancel k then some (st2, msgs ++ [KMMsg.cancelled], true)
              else some (st2, msgs ++ [KMMsg.progress k n, KMMsg.updatePreview], false)
            else some (st2, msgs, false)) = _
        rw [hrp]
        show (if k % 100 = 0 then
            if cancel k then some (st2, msgs ++ [KMMsg.cancelled], true)
            else some (st2, msgs ++ [KMMsg.progress k n, KMMsg.updatePreview], false)
          else some (st2, msgs, false)) = _
        rw [if_pos h100, hck]
        rfl
      · intro hmem
        rcases List.mem_append.mp hmem with h | h
        · exact hnc h
        · simp at h
      · intro hmem
        rcases List.mem_append.mp hmem with h | h
        · exact hnd h
        · simp at h
    · refine ⟨st2, msgs, ?_, hkr2, hnc, hnd⟩
      rw [hstep, ho]
      show (match runPhase n w st k with
        | none => none
        | some st2 =>
          if k % 100 = 0 then
            if cancel k then some (st2, msgs ++ [KMMsg.cancelled], true)
            else some (st2, msgs ++ [KMMsg.progress k n, KMMsg.updatePreview], false)
          else some (st2, msgs, false)) = _
      rw [hrp]
      show (if k % 100 = 0 then
          if cancel k then some (st2, msgs ++ [KMMsg.cancelled], true)
          else some (st2, msgs ++ [KMMsg.progress k n, KMMsg.updatePreview], false)
        else some (st2, msgs, false)) = _
      rw [if_neg h100]

/-- A run that is never cancelled completes: the final matching state is the
`n`-round Kuhn–Munkres state and the message log ends with `Done`. -/
theorem optRun_complete (n : Nat) (w : Nat → Nat → Int) (W : Int)
    (cancel : Nat → Bool) (hyp : KMHyp n w W)
    (hc : ∀ j, cancel j = false) :
    ∃ st msgs, optRun n w cancel = some (st, msgs, false) ∧
      kmRounds n w n = some st ∧ GInv n w W n st ∧
      KMMsg.cancelled ∉ msgs ∧ msgs.getLast? = some KMMsg.done := by
  obtain ⟨st, msgs, ho, hr, hnc, hnd⟩ := optRoots_clean n w W cancel hyp n (le_refl n)
    (fun j _ _ => hc j)
  obtain ⟨st0, hr0, hg0⟩ := kmRounds_ok n w W hyp n (le_refl n)
  rw [hr] at hr0
  have hst0 : st0 = st := Option.some_injective _ hr0.symm
  refine ⟨st, msgs ++ [KMMsg.done], ?_, hr, hst0 ▸ hg0, ?_, ?_⟩
  · unfold optRun
    rw [ho]
  · intro hmem
    rcases List.mem_append.mp hmem with h | h
    · exact hnc h
    · simp at h
  · rw [List.getLast?_append]
    rfl

theorem optRoots_flag_stays (n : Nat) (w : Nat → Nat → Int) (cancel : Nat → Bool)
    (st : KMState) (msgs : List KMMsg) :
    ∀ k k2, k ≤ k2 → optRoots n w cancel k = some (st, msgs, true) →
      optRoots n w cancel k2 = some (st, msgs, true) := by
  intro k k2
  induction k2 with
  | zero =>
    intro hle h
    have : k = 0 := by omega
    subst this
    exact h
  | succ k2 ih =>
    intro hle h
    by_cases hk : k = k2 + 1
    · subst hk
      exact h
    · have h2 := ih (by omega) h
      show (match optRoots n w cancel k2 with
        | none => none
        | some (st, msgs, true) => some (st, msgs, true)
        | some (st, msgs, false) =>
          match runPhase n w st k2 with
          | none => none
          | some st2 =>
            if k2 % 100 = 0 then
              if cancel k2 then some (st2, msgs ++ [KMMsg.cancelled], true)
              else some (st2, msgs ++ [KMMsg.progress k2 n, KMMsg.updatePreview], false)
            else some (st2, msgs, false)) = some (st, msgs, true)
      rw [h2]

/-- The step at a checkpoint root with the flag set: the phase for that root
still runs, then `Cancelled` is appended and the solver returns. -/
theorem optRoots_cancel_step (n : Nat) (w : Nat → Nat → Int) (cancel : Nat → Bool)
    (k : Nat) (st st2 : KMState) (msgs : List KMMsg)
    (ho : optRoots n w cancel k = some (st, msgs, false))
    (hrp : runPhase n w st k = some st2)
    (h100 : k % 100 = 0) (hck : cancel k = true) :
    optRoots n w cancel (k + 1) = some (st2, msgs ++ [KMMsg.cancelled], true) := by
  show (match optRoots n w cancel k with
    | none => none
    | some (st, msgs, true) => some (st, msgs, true)
    | some (st, msgs, false) =>
      match runPhase n w st k with
      | none => none
      | some st2 =>
        if k % 100 = 0 then
          if cancel k then some (st2, msgs ++ [KMMsg.cancelled], true)
          else some (st2, msgs ++ [KMMsg.progress k n, KMMsg.updatePreview], false)
        else some (st2, msgs, false)) = _
  rw [ho]
  show (match runPhase n w st k with
    | none => none
    | some st2 =>
      if k % 100 = 0 then
        if cancel k then some (st2, msgs ++ [KMMsg.cancelled], true)
        else some (st2, msgs ++ [KMMsg.progress k n, KMMsg.updatePreview], false)
      else some (st2, msgs, false)) = _
  rw [hrp]
  show (if k % 100 = 0 then
      if cancel k then some (st2, msgs ++ [KMMsg.cancelled], true)
      else some (st2, msgs ++ [KMMsg.progress k n, KMMsg.updatePreview], false)
    else some (st2, msgs, false)) = _
  rw [if_pos h100, hck]
  rfl

/-- A run whose flag is raised at root `r` (and stays raised) is cancelled at
the first checkpoint root at or after `r`: `Cancelled` is the final message,
no `Done` is sent, at most `100` further roots are processed, and the root
loop does no work beyond that checkpoint. -/
theorem optRun_cancelled (n : Nat) (w : Nat → Nat → Int) (W : Int)
    (cancel : Nat → Bool) (hyp : KMHyp n w W) (r : Nat)
    (hflag : ∀ j, cancel j = true ↔ r ≤ j)
    (hcheck : ∃ c, c < n ∧ r ≤ c ∧ c % 100 = 0) :
    ∃ c st msgs, c < n ∧ r ≤ c ∧ c ≤ r + 99 ∧ c % 100 = 0 ∧
      optRun n w cancel = some (st, msgs, true) ∧
      msgs.getLast? = some KMMsg.cancelled ∧ KMMsg.done ∉ msgs ∧
      ∀ k, c < k → k ≤ n → optRoots n w cancel k =
        optRoots n w cancel (c + 1) := by
  have hc0spec := Nat.find_spec hcheck
  obtain ⟨hc0n, hc0r, hc0100⟩ := hc0spec
  have hle99 : Nat.find hcheck ≤ r + 99 := by
    by_contra hcon
    push_neg at hcon
    have hdm := Nat.div_add_mod (r + 99) 100
    have hrem : (r + 99) % 100 < 100 := Nat.mod_lt _ (by norm_num)
    have hm100 : (100 * ((r + 99) / 100)) % 100 = 0 := Nat.mul_mod_right 100 _
    have hmlt : 100 * ((r + 99) / 100) < Nat.find hcheck := by omega
    exact Nat.find_min hcheck hmlt ⟨by omega, by omega, hm100⟩
  have hclean : ∀ j, j < Nat.find hcheck → j % 100 = 0 → cancel j = false := by
    intro j hj hj100
    rcases hcj : cancel j with _ | _
    · rfl
    · exfalso
      have hrj : r ≤ j := (hflag j).mp hcj
      exact Nat.find_min hcheck hj ⟨by omega, hrj, hj100⟩
  obtain ⟨st, msgs, ho, hr, hnc, hnd⟩ :=
    optRoots_clean n w W cancel hyp (Nat.find hcheck) (by omega) hclean
  obtain ⟨st0, hr0, hg0⟩ := kmRounds_ok n w W hyp (Nat.find hcheck) (by omega)
  rw [hr] at hr0
  have hst0 : st0 = st := Option.some_injective _ hr0.symm
  obtain ⟨st2, hrp, hg2⟩ :=
    runPhase_ok n w W (Nat.find hcheck) st hyp (hst0 ▸ hg0) (by omega)
  have hcanc : cancel (Nat.find hcheck) = true := (hflag _).mpr hc0r
  have hstep := optRoots_cancel_step n w cancel (Nat.find hcheck) st st2 msgs
    ho hrp hc0100 hcanc
  have hstays : optRoots n w cancel n = some (st2, msgs ++ [KMMsg.cancelled], true) :=
    optRoots_flag_stays n w cancel st2 (msgs ++ [KMMsg.cancelled])
      (Nat.find hcheck + 1) n (by omega) hstep
  refine ⟨Nat.find hcheck, st2, msgs ++ [KMMsg.cancelled], hc0n, hc0r, hle99, hc0100,
    ?_, ?_, ?_, ?_⟩
  · unfold optRun
    rw [hstays]
  · rw [List.getLast?_append]
    rfl
  · intro hmem
    rcases List.mem_append.mp hmem with h | h
    · exact hnd h
    · simp at h
  · intro k hk hkn
    rw [hstep]
    exact optRoots_flag_stays n w cancel st2 (msgs ++ [KMMsg.cancelled])
      (Nat.find hcheck + 1) k (by omega) hstep

theorem batchRunAux_result (env : GenEnv) (draws : Nat → List Draw) :
    ∀ (fuel k : Nat) (res : Nat → Nat), batchRunAux env draws fuel k = some res →
      ∃ j, k ≤ j ∧ batchStopsAt env draws j ∧
        res = assignOf env (batchPixels env draws (j + 1)) := by
  intro fuel
  induction fuel with
  | zero =>
    intro k res h
    simp [batchRunAux] at h
  | succ f ih =>
    intro k res h
    unfold batchRunAux at h
    by_cases hcond : batchMaxDist env k < 4 ∧ batchSwaps env draws k < 10
    · rw [if_pos hcond] at h
      exact ⟨k, le_refl k, hcond, (Option.some_injective _ h).symm⟩
    · rw [if_neg hcond] at h
      obtain ⟨j, hj1, hj2, hj3⟩ := ih (k + 1) res h
      exact ⟨j, by omega, hj2, hj3⟩

/-! ## The claims -/

/-- C3: for in-range pixel features the cost function returns exactly
`colorSqDist * weight + (spatialSqDist * proximity_importance)^2` computed in
(non-overflowing) 64-bit signed arithmetic, the cost is never negative (lower
is better, 0 is a perfect match), and a pixel matched to its own position and
colour costs exactly 0. -/
theorem claim_C3 (apos bpos : Pos) (a b : Rgb) (cw sw : Int)
    (hap : apos.InGrid) (hbp : bpos.InGrid) (ha : a.InRange) (hb : b.InRange)
    (hcw : 0 ≤ cw ∧ cw ≤ 255) (hsw : 0 ≤ sw ∧ sw ≤ 10000) :
    heuristic apos bpos a b cw sw =
      ((a.r - b.r) ^ 2 + (a.g - b.g) ^ 2 + (a.b - b.b) ^ 2) * cw +
        (((apos.x - bpos.x) ^ 2 + (apos.y - bpos.y) ^ 2) * sw) ^ 2 ∧
    0 ≤ heuristic apos bpos a b cw sw ∧
    heuristic apos apos a a cw sw = 0 := by
  have h1 := heuristic_eq_spec_of_inRange apos bpos a b cw sw hap hbp ha hb hcw hsw
  refine ⟨by rw [h1] ; rfl, ?_, heuristic_self_eq_zero apos a cw sw⟩
  rw [h1]
  exact heuristicSpec_nonneg _ _ _ _ _ _ hcw.1

theorem claim_C3_witness :
    0 ≤ heuristic ⟨3, 4⟩ ⟨1, 2⟩ ⟨10, 20, 30⟩ ⟨5, 5, 5⟩ 255 10000 ∧
    heuristic ⟨3, 4⟩ ⟨3, 4⟩ ⟨10, 20, 30⟩ ⟨10, 20, 30⟩ 255 10000 = 0 := by
  have h := claim_C3 ⟨3, 4⟩ ⟨1, 2⟩ ⟨10, 20, 30⟩ ⟨5, 5, 5⟩ 255 10000
    (by refine ⟨?_, ?_, ?_, ?_⟩ <;> norm_num)
    (by refine ⟨?_, ?_, ?_, ?_⟩ <;> norm_num)
    (by refine ⟨⟨?_, ?_⟩, ⟨?_, ?_⟩, ⟨?_, ?_⟩⟩ <;> norm_num)
    (by refine ⟨⟨?_, ?_⟩, ⟨?_, ?_⟩, ⟨?_, ?_⟩⟩ <;> norm_num)
    (by norm_num) (by norm_num)
  exact ⟨h.2.1, h.2.2⟩

/-- C7: in drawing mode the per-cell radius is
`round((S/4) * 0.99^(age/30))` with `S = 128`: a cell last edited at the
current frame (age 0) gets exactly `S/4 = 32`, a cell of age 30 gets the
rounding of `32 * 0.99` (within `1/2` of the exact product, here again 32),
and no age ever exceeds `S/4`. -/
theorem claim_C7 (fc le age : Nat) (hle : le = fc) :
    drawingCellRadius fc le = 32 ∧
    drawingCanvasSize / 4 = 32 ∧
    maxDistDrawing 0 = 32 ∧
    maxDistDrawing 30 = 32 ∧
    |((maxDistDrawing 30 : Nat) : Rat) - mulF32 32 c099| < 1 / 2 ∧
    maxDistDrawing age ≤ 32 := by
  have h0 : drawingCellRadius fc le = maxDistDrawing 0 := by
    unfold drawingCellRadius
    rw [hle, Nat.sub_self]
  refine ⟨by rw [h0] ; exact maxDistDrawing_age_lt_30 0 (by norm_num), rfl,
    maxDistDrawing_age_lt_30 0 (by norm_num), maxDistDrawing_30, ?_, maxDistDrawing_le_32 age⟩
  rw [maxDistDrawing_30, mulF32_32_c099]
  rw [show ((32 : Nat) : Rat) - 16609444 / 524288 = 167772 / 524288 by norm_num]
  rw [abs_of_pos (by norm_num)]
  norm_num

theorem claim_C7_witness :
    drawingCellRadius 7 7 = 32 ∧
    drawingCanvasSize / 4 = 32 ∧
    maxDistDrawing 0 = 32 ∧
    maxDistDrawing 30 = 32 ∧
    |((maxDistDrawing 30 : Nat) : Rat) - mulF32 32 c099| < 1 / 2 ∧
    maxDistDrawing 45 ≤ 32 :=
  claim_C7 7 7 45 rfl

/-- C9: the drawing-mode age is the spawn-time frame counter minus
`last_edited` with saturating subtraction, so a cell edited at or after the
captured frame has age 0 and always receives the maximal radius 32 for the
whole solver invocation. -/
theorem claim_C9 (fcSpawn lastEdited age : Nat) (h : fcSpawn ≤ lastEdited) :
    drawingCellRadius fcSpawn lastEdited = maxDistDrawing (fcSpawn - lastEdited) ∧
    fcSpawn - lastEdited = 0 ∧
    drawingCellRadius fcSpawn lastEdited = 32 ∧
    maxDistDrawing age ≤ 32 := by
  refine ⟨rfl, by omega, ?_, maxDistDrawing_le_32 age⟩
  unfold drawingCellRadius
  rw [show fcSpawn - lastEdited = 0 by omega]
  exact maxDistDrawing_age_lt_30 0 (by norm_num)

theorem claim_C9_witness :
    drawingCellRadius 3 5 = maxDistDrawing (3 - 5) ∧
    3 - 5 = 0 ∧
    drawingCellRadius 3 5 = 32 ∧
    maxDistDrawing 1000 ≤ 32 :=
  claim_C9 3 5 1000 (by norm_num)

/-- C10: the initial drawing cache adds `STROKE_REWARD = -10^10`
unconditionally, while the per-swap evaluation adds it only when a
4-neighbour shares the stroke id; for a cell with no same-stroke neighbour
the initial cache is exactly `10^10` below the evaluated cost of the same
configuration. -/
theorem claim_C10 (env : DrawEnv) (colors : Nat → SeedColor)
    (pixelData : Nat → PixelData) (frameCount i : Nat)
    (hnb : ∀ dxy ∈ strokeNeighborOffsets,
      ∀ _hx1 : 0 ≤ ((i % drawingCanvasSize : Nat) : Int) + dxy.1,
      ∀ _hx2 : ((i % drawingCanvasSize : Nat) : Int) + dxy.1 < (drawingCanvasSize : Int),
      ∀ _hy1 : 0 ≤ ((i / drawingCanvasSize : Nat) : Int) + dxy.2,
      ∀ _hy2 : ((i / drawingCanvasSize : Nat) : Int) + dxy.2 < (drawingCanvasSize : Int),
      (pixelData ((initDrawingPixel env colors ((((i / drawingCanvasSize : Nat) : Int) + dxy.2).toNat *
          drawingCanvasSize +
          ((((i % drawingCanvasSize : Nat) : Int) + dxy.1)).toNat)).srcX +
        (initDrawingPixel env colors ((((i / drawingCanvasSize : Nat) : Int) + dxy.2).toNat *
          drawingCanvasSize +
          ((((i % drawingCanvasSize : Nat) : Int) + dxy.1)).toNat)).srcY *
          drawingCanvasSize)).strokeId ≠
      (pixelData ((initDrawingPixel env colors i).srcX +
        (initDrawingPixel env colors i).srcY * drawingCanvasSize)).strokeId) :
    (initDrawingPixel env colors i).h =
      (initDrawingPixel env colors i).calcDrawingH
        ⟨((i % env.sidelen : Nat) : Int), ((i / env.sidelen : Nat) : Int)⟩
        (env.targetPixels i) (env.weights i) colors env.prox + strokeRewardConst ∧
    strokeRewardConst = -10000000000 ∧
    strokeReward i i pixelData (initDrawingPixel env colors) frameCount = 0 ∧
    (initDrawingPixel env colors i).h =
      drawingEvalCost env colors pixelData (initDrawingPixel env colors) frameCount i -
        10000000000 := by
  have hsr0 := strokeReward_eq_zero i i pixelData (initDrawingPixel env colors) frameCount hnb
  refine ⟨rfl, rfl, hsr0, ?_⟩
  unfold drawingEvalCost
  rw [hsr0]
  have hh : (initDrawingPixel env colors i).h =
      (initDrawingPixel env colors i).calcDrawingH
        ⟨((i % env.sidelen : Nat) : Int), ((i / env.sidelen : Nat) : Int)⟩
        (env.targetPixels i) (env.weights i) colors env.prox + strokeRewardConst := rfl
  rw [hh]
  unfold strokeRewardConst
  ring

theorem claim_C10_witness :
    (initDrawingPixel ⟨128, fun _ => ⟨0, 0, 0⟩, fun _ => 0, 0⟩ (fun _ => ⟨0, 0, 0, 0⟩) 0).h =
      (initDrawingPixel ⟨128, fun _ => ⟨0, 0, 0⟩, fun _ => 0, 0⟩ (fun _ => ⟨0, 0, 0, 0⟩) 0).calcDrawingH
        ⟨((0 % 128 : Nat) : Int), ((0 / 128 : Nat) : Int)⟩ ⟨0, 0, 0⟩ 0
        (fun _ => ⟨0, 0, 0, 0⟩) 0 + strokeRewardConst ∧
    strokeRewardConst = -10000000000 ∧
    strokeReward 0 0 (fun j => ⟨j, 0⟩)
      (initDrawingPixel ⟨128, fun _ => ⟨0, 0, 0⟩, fun _ => 0, 0⟩ (fun _ => ⟨0, 0, 0, 0⟩)) 0 = 0 ∧
    (initDrawingPixel ⟨128, fun _ => ⟨0, 0, 0⟩, fun _ => 0, 0⟩ (fun _ => ⟨0, 0, 0, 0⟩) 0).h =
      drawingEvalCost ⟨128, fun _ => ⟨0, 0, 0⟩, fun _ => 0, 0⟩ (fun _ => ⟨0, 0, 0, 0⟩)
        (fun j => ⟨j, 0⟩)
        (initDrawingPixel ⟨128, fun _ => ⟨0, 0, 0⟩, fun _ => 0, 0⟩ (fun _ => ⟨0, 0, 0, 0⟩)) 0 0 -
        10000000000 :=
  claim_C10 ⟨128, fun _ => ⟨0, 0, 0⟩, fun _ => 0, 0⟩ (fun _ => ⟨0, 0, 0, 0⟩)
    (fun j => ⟨j, 0⟩) 0 0 (by decide)

/-- C4: a candidate swap is accepted iff the summed improvement of the two
cells is strictly positive; an accepted swap strictly decreases the total
cached cost, a rejected one changes nothing, and the total cost is
non-increasing over a generation and across batch generations. -/
theorem claim_C4 (env : GenEnv) (hok : EnvOk env) (s : Nat → GPixel) (d : Draw)
    (hd : d.apos < env.n) (ds : List Draw) (hds : ∀ d2 ∈ ds, d2.apos < env.n)
    (draws : Nat → List Draw) (hdr : ∀ k, ∀ d2 ∈ draws k, d2.apos < env.n) (k : Nat) :
    (0 < genImp env s d → genStep env s d = genSwapped env s d ∧
      totalCost env (genSwapped env s d) < totalCost env s) ∧
    (¬ 0 < genImp env s d → genStep env s d = s) ∧
    totalCost env (runGeneration env s ds).1 ≤ totalCost env s ∧
    totalCost env (batchPixels env draws (k + 1)) ≤ totalCost env (batchPixels env draws k) := by
  refine ⟨?_, ?_, ?_, ?_⟩
  · intro himp
    refine ⟨by unfold genStep ; rw [if_pos himp], ?_⟩
    have := totalCost_genSwapped_add_one_le env hok.hw s d hd himp
    omega
  · intro himp
    unfold genStep
    rw [if_neg himp]
  · have h1 := runGeneration_swaps_le env hok.hw ds (s, 0) hds
    have h2 : (0 : Int) ≤ (((ds.foldl (genStepCount env) (s, 0)).2 : Nat) : Int) :=
      Int.natCast_nonneg _
    have h3 : totalCost env (s, 0).1 + (((s, 0).2 : Nat) : Int) = totalCost env s := by
      norm_num
    show totalCost env (ds.foldl (genStepCount env) (s, 0)).1 ≤ totalCost env s
    linarith
  · have h1 := batchCost_step env hok draws hdr k
    have h2 : (0 : Int) ≤ ((batchSwaps env draws k : Nat) : Int) := Int.natCast_nonneg _
    linarith

theorem claim_C4_witness :
    totalCost ⟨1, fun _ => ⟨0, 0, 0⟩, fun _ => ⟨0, 0, 0⟩, fun _ => 0, 0⟩
        (runGeneration ⟨1, fun _ => ⟨0, 0, 0⟩, fun _ => ⟨0, 0, 0⟩, fun _ => 0, 0⟩
          (initPixel ⟨1, fun _ => ⟨0, 0, 0⟩, fun _ => ⟨0, 0, 0⟩, fun _ => 0, 0⟩) []).1 ≤
      totalCost ⟨1, fun _ => ⟨0, 0, 0⟩, fun _ => ⟨0, 0, 0⟩, fun _ => 0, 0⟩
        (initPixel ⟨1, fun _ => ⟨0, 0, 0⟩, fun _ => ⟨0, 0, 0⟩, fun _ => 0, 0⟩) ∧
    totalCost ⟨1, fun _ => ⟨0, 0, 0⟩, fun _ => ⟨0, 0, 0⟩, fun _ => 0, 0⟩
        (batchPixels ⟨1, fun _ => ⟨0, 0, 0⟩, fun _ => ⟨0, 0, 0⟩, fun _ => 0, 0⟩
          (fun _ => []) 1) ≤
      totalCost ⟨1, fun _ => ⟨0, 0, 0⟩, fun _ => ⟨0, 0, 0⟩, fun _ => 0, 0⟩
        (batchPixels ⟨1, fun _ => ⟨0, 0, 0⟩, fun _ => ⟨0, 0, 0⟩, fun _ => 0, 0⟩
          (fun _ => []) 0) := by
  have h := claim_C4 ⟨1, fun _ => ⟨0, 0, 0⟩, fun _ => ⟨0, 0, 0⟩, fun _ => 0, 0⟩
    ⟨by norm_num, by norm_num, fun i => by exact ⟨⟨by norm_num, by norm_num⟩,
      ⟨by norm_num, by norm_num⟩, ⟨by norm_num, by norm_num⟩⟩,
      fun i => by exact ⟨⟨by norm_num, by norm_num⟩, ⟨by norm_num, by norm_num⟩,
        ⟨by norm_num, by norm_num⟩⟩,
      fun i => ⟨by norm_num, by norm_num⟩, ⟨by norm_num, by norm_num⟩⟩
    (initPixel ⟨1, fun _ => ⟨0, 0, 0⟩, fun _ => ⟨0, 0, 0⟩, fun _ => 0, 0⟩)
    ⟨0, 0, 0⟩ (by norm_num [GenEnv.n]) [] (by simp) (fun _ => []) (by simp) 0
  exact ⟨h.2.2.1, h.2.2.2⟩

/-- C5: batch `max_dist` decays geometrically (factor `0.99`, floor 2,
strictly decreasing while above the floor and within one unit of `0.99 * m`),
the matcher finalizes exactly when `max_dist < 4` and fewer than 10 swaps
were accepted, and under this rule every batch invocation reaches the
finalization (emits `Done`). -/
theorem claim_C5 (env : GenEnv) (hok : EnvOk env) (draws : Nat → List Draw)
    (hdr : ∀ k, ∀ d ∈ draws k, d.apos < env.n) (m : Nat) (hm4 : 4 ≤ m)
    (hM : m ≤ 65536) (fuel : Nat) :
    (2 ≤ decayMaxDist m ∧ decayMaxDist m < m ∧
      (99 * (m : Rat)) / 100 - 2 ≤ (decayMaxDist m : Rat) ∧
      (decayMaxDist m : Rat) ≤ (99 * (m : Rat)) / 100 + 1) ∧
    (∀ k, batchMaxDist env (k + 1) = decayMaxDist (batchMaxDist env k)) ∧
    ((batchRun env draws fuel).isSome ↔
      ∃ j, j < fuel ∧ batchMaxDist env j < 4 ∧ batchSwaps env draws j < 10) ∧
    (∃ fuel2 res, batchRun env draws fuel2 = some res) := by
  obtain ⟨hb1, hb2⟩ := decayMaxDist_bounds m hm4 hM
  refine ⟨⟨decayMaxDist_ge_two m, decayMaxDist_lt_self m (by omega) hM, hb1, hb2⟩,
    fun k => rfl, ?_, batchRun_done env hok draws hdr⟩
  have hiff := batchRunAux_isSome_iff env draws fuel 0
  constructor
  · intro h
    obtain ⟨j, _, hj2, hj3⟩ := hiff.mp h
    exact ⟨j, by omega, hj3⟩
  · intro ⟨j, hj1, hj2⟩
    exact hiff.mpr ⟨j, by omega, by omega, hj2⟩

theorem claim_C5_witness :
    (2 ≤ decayMaxDist 100 ∧ decayMaxDist 100 < 100 ∧
      (99 * (100 : Rat)) / 100 - 2 ≤ (decayMaxDist 100 : Rat) ∧
      (decayMaxDist 100 : Rat) ≤ (99 * (100 : Rat)) / 100 + 1) ∧
    (∃ fuel2 res, batchRun ⟨1, fun _ => ⟨0, 0, 0⟩, fun _ => ⟨0, 0, 0⟩, fun _ => 0, 0⟩
      (fun _ => []) fuel2 = some res) := by
  have h := claim_C5 ⟨1, fun _ => ⟨0, 0, 0⟩, fun _ => ⟨0, 0, 0⟩, fun _ => 0, 0⟩
    ⟨by norm_num, by norm_num, fun i => by exact ⟨⟨by norm_num, by norm_num⟩,
      ⟨by norm_num, by norm_num⟩, ⟨by norm_num, by norm_num⟩⟩,
      fun i => by exact ⟨⟨by norm_num, by norm_num⟩, ⟨by norm_num, by norm_num⟩,
        ⟨by norm_num, by norm_num⟩⟩,
      fun i => ⟨by norm_num, by norm_num⟩, ⟨by norm_num, by norm_num⟩⟩
    (fun _ => []) (by simp) 100 (by norm_num) (by norm_num) 5
  exact ⟨h.1, h.2.2.2⟩

/-- C8 (amended): the batch matchers send through the swallowing
`ProgressSink` adapter, so their generation epilogue never fails whatever the
consumer's state; the drawing matcher sends on the raw channel, so with a
disconnected consumer its epilogue propagates `SendError` (the `?` at
drawing_process.rs:255) — and would panic at the unconditional `.unwrap()`
(drawing_process.rs:258) — rather than swallowing the failure. -/
theorem claim_C8 (c : Bool) (maxDist swapsMade : Nat) (idMatches : Bool)
    (h : 0 < swapsMade) :
    batchEpilogue c maxDist swapsMade =
      Except.ok (decide (maxDist < 4 ∧ swapsMade < 10)) ∧
    sinkSend c = () ∧
    drawingEpilogue true swapsMade idMatches = Except.ok (!idMatches) ∧
    drawingEpilogue false swapsMade idMatches = Except.error "SendError" :=
  ⟨batchEpilogue_never_fails c maxDist swapsMade, rfl,
    drawingEpilogue_connected swapsMade idMatches,
    drawingEpilogue_error_of_swaps swapsMade idMatches h⟩

theorem claim_C8_witness :
    batchEpilogue false 5 3 = Except.ok (decide (5 < 4 ∧ 3 < 10)) ∧
    sinkSend false = () ∧
    drawingEpilogue true 3 false = Except.ok (!false) ∧
    drawingEpilogue false 3 false = Except.error "SendError" :=
  claim_C8 false 5 3 false (by norm_num)

/-- C8 counterexample: in the drawing matcher a failed send is not swallowed:
with the consumer disconnected the generation epilogue returns the propagated
`SendError` (after swaps were made), and the superseded-solver path panics at
its `.unwrap()`. -/
theorem claim_C8_counterexample :
    drawingEpilogue false 1 false = Except.error "SendError" ∧
    drawingEpilogue false 0 false = Except.error "panicked: unwrap of SendError" := by
  constructor
  · exact drawingEpilogue_error_of_swaps 1 false (by norm_num)
  · rfl

/-- The total cost of an assignment under the cost formula (the quantity the
Exact Matcher minimizes: the negated sum of the weight matrix entries along
the assignment). -/
def optCost (sidelen : Nat) (target source : Nat → Rgb) (weights : Nat → Int)
    (prox : Int) (f : Nat → Nat) : Int :=
  ∑ x ∈ Finset.range (sidelen * sidelen),
    heuristicSpec ⟨((x % sidelen : Nat) : Int), ((x / sidelen : Nat) : Int)⟩
      ⟨((f x % sidelen : Nat) : Int), ((f x / sidelen : Nat) : Int)⟩
      (target x) (source (f x)) (weights x) prox

theorem optCost_neg_sum (sidelen : Nat) (target source : Nat → Rgb)
    (weights : Nat → Int) (prox : Int)
    (hok : OptEnvOk sidelen target source weights prox) (g : Nat → Nat)
    (hg : Set.BijOn g (Set.Iio (sidelen * sidelen)) (Set.Iio (sidelen * sidelen))) :
    ∑ x ∈ Finset.range (sidelen * sidelen),
        imgDiffAt sidelen target source weights prox x (g x) =
      - optCost sidelen target source weights prox g := by
  unfold optCost
  rw [← Finset.sum_neg_distrib]
  apply Finset.sum_congr rfl
  intro x hx
  have hxn : x < sidelen * sidelen := Finset.mem_range.mp hx
  have hgx : g x < sidelen * sidelen := hg.mapsTo hxn
  rw [imgDiffAt_eq_spec sidelen target source weights prox hok x (g x) hxn hgx]

/-- C1: for every grid the assignment is a permutation of `{0, ..., N-1}`:
the completed Exact Matcher's matching is a bijection on the `N` cells (and
its assignment array a permutation of `0..N-1`), the Local-Search Matcher
starts at the identity, every (accepted or rejected) candidate step preserves
bijectivity, every generation's state is bijective, and the finally published
batch assignment is a permutation of `0..N-1`. -/
theorem claim_C1 (sidelen : Nat) (target source : Nat → Rgb) (weights : Nat → Int)
    (prox : Int) (hok : OptEnvOk sidelen target source weights prox)
    (cancel : Nat → Bool) (hc : ∀ j, cancel j = false)
    (env : GenEnv) (genok : EnvOk env) (draws : Nat → List Draw)
    (hdr : ∀ k, ∀ d ∈ draws k, d.apos < env.n) :
    (∃ st msgs, optRun (sidelen * sidelen)
        (imgDiffAt sidelen target source weights prox) cancel = some (st, msgs, false) ∧
      Set.BijOn (kmAssign st) (Set.Iio (sidelen * sidelen)) (Set.Iio (sidelen * sidelen)) ∧
      ((List.range (sidelen * sidelen)).map (kmAssign st)).Perm
        (List.range (sidelen * sidelen))) ∧
    (∀ i, assignOf env (initPixel env) i = i) ∧
    (∀ s d, d.apos < env.n →
      Set.BijOn (assignOf env s) (Set.Iio env.n) (Set.Iio env.n) →
      Set.BijOn (assignOf env (genStep env s d)) (Set.Iio env.n) (Set.Iio env.n)) ∧
    (∀ k, Set.BijOn (assignOf env (batchPixels env draws k)) (Set.Iio env.n)
      (Set.Iio env.n)) ∧
    (∀ fuel res, batchRun env draws fuel = some res →
      ((List.range env.n).map res).Perm (List.range env.n)) := by
  obtain ⟨st, msgs, hrun, hkr, hg, hnc, hlast⟩ :=
    optRun_complete (sidelen * sidelen) (imgDiffAt sidelen target source weights prox)
      kmWBound cancel (imgDiffAt_hyp sidelen target source weights prox hok) hc
  have hbij := kmFinal_bijOn (sidelen * sidelen)
    (imgDiffAt sidelen target source weights prox) kmWBound st hg
  refine ⟨⟨st, msgs, hrun, hbij, perm_range_of_bijOn _ _ hbij⟩,
    assignOf_initPixel env,
    fun s d hd hb => bijOn_assign_genStep env genok.hw s d hd hb,
    fun k => bijOn_assign_batchPixels env genok draws hdr k, ?_⟩
  intro fuel res hres
  obtain ⟨j, _, _, hj3⟩ := batchRunAux_result env draws fuel 0 res hres
  rw [hj3]
  exact perm_range_of_bijOn _ _ (bijOn_assign_batchPixels env genok draws hdr (j + 1))

theorem claim_C1_witness :
    (∀ i, assignOf ⟨1, fun _ => ⟨0, 0, 0⟩, fun _ => ⟨0, 0, 0⟩, fun _ => 0, 0⟩
      (initPixel ⟨1, fun _ => ⟨0, 0, 0⟩, fun _ => ⟨0, 0, 0⟩, fun _ => 0, 0⟩) i = i) ∧
    (∀ k, Set.BijOn
      (assignOf ⟨1, fun _ => ⟨0, 0, 0⟩, fun _ => ⟨0, 0, 0⟩, fun _ => 0, 0⟩
        (batchPixels ⟨1, fun _ => ⟨0, 0, 0⟩, fun _ => ⟨0, 0, 0⟩, fun _ => 0, 0⟩
          (fun _ => []) k))
      (Set.Iio (GenEnv.n ⟨1, fun _ => ⟨0, 0, 0⟩, fun _ => ⟨0, 0, 0⟩, fun _ => 0, 0⟩))
      (Set.Iio (GenEnv.n ⟨1, fun _ => ⟨0, 0, 0⟩, fun _ => ⟨0, 0, 0⟩, fun _ => 0, 0⟩))) := by
  have h := claim_C1 1 (fun _ => ⟨0, 0, 0⟩) (fun _ => ⟨0, 0, 0⟩) (fun _ => 0) 0
    ⟨by norm_num, by norm_num,
      fun i => by exact ⟨⟨by norm_num, by norm_num⟩, ⟨by norm_num, by norm_num⟩,
        ⟨by norm_num, by norm_num⟩⟩,
      fun i => by exact ⟨⟨by norm_num, by norm_num⟩, ⟨by norm_num, by norm_num⟩,
        ⟨by norm_num, by norm_num⟩⟩,
      fun i => ⟨by norm_num, by norm_num⟩, ⟨by norm_num, by norm_num⟩⟩
    (fun _ => false) (fun _ => rfl)
    ⟨1, fun _ => ⟨0, 0, 0⟩, fun _ => ⟨0, 0, 0⟩, fun _ => 0, 0⟩
    ⟨by norm_num, by norm_num,
      fun i => by exact ⟨⟨by norm_num, by norm_num⟩, ⟨by norm_num, by norm_num⟩,
        ⟨by norm_num, by norm_num⟩⟩,
      fun i => by exact ⟨⟨by norm_num, by norm_num⟩, ⟨by norm_num, by norm_num⟩,
        ⟨by norm_num, by norm_num⟩⟩,
      fun i => ⟨by norm_num, by norm_num⟩, ⟨by norm_num, by norm_num⟩⟩
    (fun _ => []) (by simp)
  exact ⟨h.2.1, h.2.2.2.1⟩

/-- C2: the permutation returned by a completed Exact Matcher run minimizes
the total cost over all permutations of the `N = S²` cells: its cost is `≤`
the cost of every bijection of `{0, ..., N-1}` (in particular it equals the
brute-force minimum). -/
theorem claim_C2 (sidelen : Nat) (target source : Nat → Rgb) (weights : Nat → Int)
    (prox : Int) (hok : OptEnvOk sidelen target source weights prox)
    (cancel : Nat → Bool) (hc : ∀ j, cancel j = false) :
    ∃ st msgs, optRun (sidelen * sidelen)
        (imgDiffAt sidelen target source weights prox) cancel = some (st, msgs, false) ∧
      Set.BijOn (kmAssign st) (Set.Iio (sidelen * sidelen)) (Set.Iio (sidelen * sidelen)) ∧
      ∀ f : Nat → Nat,
        Set.BijOn f (Set.Iio (sidelen * sidelen)) (Set.Iio (sidelen * sidelen)) →
        optCost sidelen target source weights prox (kmAssign st) ≤
          optCost sidelen target source weights prox f := by
  obtain ⟨st, msgs, hrun, hkr, hg, hnc, hlast⟩ :=
    optRun_complete (sidelen * sidelen) (imgDiffAt sidelen target source weights prox)
      kmWBound cancel (imgDiffAt_hyp sidelen target source weights prox hok) hc
  have hbij := kmFinal_bijOn (sidelen * sidelen)
    (imgDiffAt sidelen target source weights prox) kmWBound st hg
  refine ⟨st, msgs, hrun, hbij, ?_⟩
  intro f hf
  have hopt := kmFinal_optimal (sidelen * sidelen)
    (imgDiffAt sidelen target source weights prox) kmWBound st hg f hf
  rw [optCost_neg_sum sidelen target source weights prox hok f hf,
    optCost_neg_sum sidelen target source weights prox hok (kmAssign st) hbij] at hopt
  linarith

theorem claim_C2_witness :
    ∃ st msgs, optRun (1 * 1)
        (imgDiffAt 1 (fun _ => ⟨0, 0, 0⟩) (fun _ => ⟨0, 0, 0⟩) (fun _ => 0) 0)
        (fun _ => false) = some (st, msgs, false) ∧
      Set.BijOn (kmAssign st) (Set.Iio (1 * 1)) (Set.Iio (1 * 1)) ∧
      ∀ f : Nat → Nat, Set.BijOn f (Set.Iio (1 * 1)) (Set.Iio (1 * 1)) →
        optCost 1 (fun _ => ⟨0, 0, 0⟩) (fun _ => ⟨0, 0, 0⟩) (fun _ => 0) 0 (kmAssign st) ≤
          optCost 1 (fun _ => ⟨0, 0, 0⟩) (fun _ => ⟨0, 0, 0⟩) (fun _ => 0) 0 f :=
  claim_C2 1 (fun _ => ⟨0, 0, 0⟩) (fun _ => ⟨0, 0, 0⟩) (fun _ => 0) 0
    ⟨by norm_num, by norm_num,
      fun i => by exact ⟨⟨by norm_num, by norm_num⟩, ⟨by norm_num, by norm_num⟩,
        ⟨by norm_num, by norm_num⟩⟩,
      fun i => by exact ⟨⟨by norm_num, by norm_num⟩, ⟨by norm_num, by norm_num⟩,
        ⟨by norm_num, by norm_num⟩⟩,
      fun i => ⟨by norm_num, by norm_num⟩, ⟨by norm_num, by norm_num⟩⟩
    (fun _ => false) (fun _ => rfl)

/-- C6 (amended): the root loop reads the cancel flag only at roots divisible
by 100, after that root's augmentation.  When the flag is raised at root `r`
and a checkpoint root remains (`∃ c < n, r ≤ c ∧ c % 100 = 0`), the solver
sends `Cancelled` — never `Done` — as its final message and stops within at
most 100 further roots; without a remaining checkpoint the run completes
normally (see the counterexample). -/
theorem claim_C6 (n : Nat) (w : Nat → Nat → Int) (W : Int) (cancel : Nat → Bool)
    (hyp : KMHyp n w W) (r : Nat) (hflag : ∀ j, cancel j = true ↔ r ≤ j)
    (hcheck : ∃ c, c < n ∧ r ≤ c ∧ c % 100 = 0) :
    ∃ c st msgs, c < n ∧ r ≤ c ∧ c ≤ r + 99 ∧ c % 100 = 0 ∧
      optRun n w cancel = some (st, msgs, true) ∧
      msgs.getLast? = some KMMsg.cancelled ∧ KMMsg.done ∉ msgs ∧
      ∀ k, c < k → k ≤ n → optRoots n w cancel k = optRoots n w cancel (c + 1) :=
  optRun_cancelled n w W cancel hyp r hflag hcheck

theorem claim_C6_witness :
    ∃ c st msgs, c < 101 ∧ 50 ≤ c ∧ c ≤ 50 + 99 ∧ c % 100 = 0 ∧
      optRun 101 (fun _ _ => 0) (fun j => decide (50 ≤ j)) = some (st, msgs, true) ∧
      msgs.getLast? = some KMMsg.cancelled ∧ KMMsg.done ∉ msgs ∧
      ∀ k, c < k → k ≤ 101 →
        optRoots 101 (fun _ _ => 0) (fun j => decide (50 ≤ j)) k =
          optRoots 101 (fun _ _ => 0) (fun j => decide (50 ≤ j)) (c + 1) :=
  claim_C6 101 (fun _ _ => 0) 0 (fun j => decide (50 ≤ j))
    ⟨by norm_num, le_refl 0, fun x _ y _ => by norm_num,
      by unfold kmSentinel ; norm_num⟩
    50 (fun j => by simp) ⟨100, by norm_num, by norm_num, by norm_num⟩

/-- C6 counterexample: with 2 roots and the cancel flag raised from root 1
onward, no checkpoint root (`k % 100 = 0`) remains, so the solver runs to
completion and sends `Done` — the flag never yields a `Cancelled` result. -/
theorem claim_C6_counterexample :
    (fun j => decide (1 ≤ j) : Nat → Bool) 1 = true ∧
    (optRun 2 (fun _ _ => 0) (fun j => decide (1 ≤ j))).map (fun p => (p.2.1, p.2.2)) =
      some ([KMMsg.progress 0 2, KMMsg.updatePreview, KMMsg.done], false) := by
  constructor
  · rfl
  · decide

end Obamify
